import Mathlib

/-!
# A verification model of the Parsley parsing engines

This file gives a shallow embedding, in Lean, of the two parsing engines of the
Parsley repository (`src/parse/backtracking_parser.rs` and
`src/parse/gss_parser.rs`), together with theorems about the claims made by the
specification.

Modelling conventions:

* Machine recursion that is not structurally terminating in the Rust source
  (rule references may recurse arbitrarily, the repetition loop of `parse_expr`
  may spin forever) is made total with an explicit `fuel` parameter; running out
  of fuel is the distinguished outcome `PResult.fuelOut`, which models a
  divergent Rust execution.  All theorems about actual behaviour are stated for
  runs that produce `.ok` or `.err`.
* The Rust backtracking engine memoizes `parse_expr` by expression address and
  token index.  The memo table only caches results (an entry is written exactly
  once, after the continuations for that key have been fully computed, and the
  computation of a key's value is a pure function of the key), so the model
  recomputes instead of caching; the returned continuations are the same.
* Rust `Rc` identity, which the GSS engine uses as a hash key, is modelled by
  giving every allocated GSS node a fresh numeric `id` drawn from a counter that
  is threaded through the construction.
* The token capability (`Token::matches`) is modelled by a total Boolean
  predicate `tmatches`; its error path (`MatchError`) is orthogonal to the
  properties studied here.
* `Parser`, `SyntaxTree` and `ParseError` live in `src/parse/mod.rs` and
  `src/define.rs`, which are not among the provided sources; they are modelled
  from the spec (section 3 and section 6).
-/

namespace Parsley

/-- Grammar-body expressions: the `RuleExpression` enum shared by both engines
(spec section 3, "Rule expression"). -/
inductive RuleExpression where
  | Terminal (pattern : String)
  | RuleName (name : String)
  | Concatenation (children : List RuleExpression)
  | Alternatives (children : List RuleExpression)
  | Optional (child : RuleExpression)
  | Many (child : RuleExpression)
  | OneOrMore (child : RuleExpression)
  deriving Repr

/-- Modelled from the spec: a `Parser` (from `src/parse/mod.rs`, not among the
sources) is a mapping from rule-name strings to rule expressions.  The Rust
`HashMap` is modelled as an association list queried by key. -/
structure Parser where
  rules : List (String × RuleExpression)
  deriving Repr

/-- Models `parser.rules.get(name)`. -/
def Parser.get (p : Parser) (name : String) : Option RuleExpression :=
  p.rules.lookup name

/-- Modelled from the spec: the final `SyntaxTree` output type (spec section 3),
shared by both engines. -/
inductive SyntaxTree (T : Type) where
  | RuleNode (rule_name : String) (subexpressions : List (SyntaxTree T))
  | TokenNode (token : T)
  deriving Repr

/-- Modelled from the spec: the `ParseError` type lives in `src/parse/mod.rs`,
which is not among the sources.  `IncompleteParse` and `OutOfInput` carry the
furthest-failure data exactly as the backtracking engine builds them; `Message`
stands for the string-carrying construction the engines use as
`ParseError(..)` / `"...".into()` (the spec's `UnknownRule`, `AmbiguousParse`
and `InternalError` all surface this way in the given sources). -/
inductive ParseError where
  | IncompleteParse (index : Nat) (terminals : List String)
  | OutOfInput (terminals : List String)
  | Message (message : String)
  deriving Repr, DecidableEq

/-- Outcome of a fuelled computation: a value, a parse error, or fuel
exhaustion (modelling a diverging Rust run). -/
inductive PResult (α : Type) where
  | ok (value : α)
  | err (e : ParseError)
  | fuelOut
  deriving Repr

namespace Backtracking

/-- The backtracking engine's intermediate syntax tree
(`backtracking_parser.rs`, `IntermediateSyntaxTree`).  The Rust `Rc` sharing is
pure value sharing, so it is modelled as a plain inductive tree. -/
inductive IntermediateSyntaxTree (T : Type) where
  | RuleNode (rule_name : String) (subexpressions : List (IntermediateSyntaxTree T))
  | TokenNode (token : T)
  deriving Repr

/-- A continuation `(next_index, forest)` (`backtracking_parser.rs`,
`Continuation`). -/
abbrev Continuation (T : Type) := Nat × List (IntermediateSyntaxTree T)

/-- Failure information for error reporting (`backtracking_parser.rs`,
`FailureCache`).  The Rust `HashSet<&str>` of expected terminals is modelled as
a duplicate-free list. -/
structure FailureCache where
  failures : List String
  index : Nat
  deriving Repr, DecidableEq

/-- Models `FailureCache::new`. -/
def FailureCache.new : FailureCache := ⟨[], 0⟩

/-- Models `HashSet::insert` on the failure set. -/
def insertFailure (l : List String) (s : String) : List String :=
  if s ∈ l then l else l ++ [s]

/-- Models `FailureCache::log`. -/
def FailureCache.log (cache : FailureCache) (index : Nat) (expected : String) :
    FailureCache :=
  let cache1 := if cache.index < index then FailureCache.mk [] index else cache
  if index = cache1.index then
    FailureCache.mk (insertFailure cache1.failures expected) cache1.index
  else cache1

variable {T : Type} (tmatches : String → T → Bool) (p : Parser) (tokens : List T)

mutual

/-- Models `parse_expr` of `backtracking_parser.rs`.  The `for`/`while` loops of
the Rust function are the helper functions `concat_loop`, `alts_loop` and
`rep_loop`; `fuel` makes the unbounded recursion total. -/
def parse_expr : Nat → Nat → RuleExpression → FailureCache →
    PResult (List (Continuation T) × FailureCache)
  | 0, _, _, _ => .fuelOut
  | _ + 1, token_index, .Terminal term, cache =>
      match tokens[token_index]? with
      | some tok =>
          if tmatches term tok then
            .ok ([(token_index + 1, [.TokenNode tok])], cache)
          else .ok ([], cache.log token_index term)
      | none => .ok ([], cache.log token_index term)
  | fuel + 1, token_index, .RuleName rule_name, cache =>
      match p.get rule_name with
      | some rule_expr =>
          match parse_expr fuel token_index rule_expr cache with
          | .ok (conts, cache1) =>
              .ok (conts.map (fun c => (c.1, [.RuleNode rule_name c.2])), cache1)
          | .err e => .err e
          | .fuelOut => .fuelOut
      | none => .err (.Message "Rule not found")
  | fuel + 1, token_index, .Concatenation exprs, cache =>
      concat_loop fuel exprs [(token_index, [])] cache
  | fuel + 1, token_index, .Alternatives exprs, cache =>
      alts_loop fuel token_index exprs cache
  | fuel + 1, token_index, .Optional expr, cache =>
      match parse_expr fuel token_index expr cache with
      | .ok (conts, cache1) => .ok ((token_index, []) :: conts, cache1)
      | .err e => .err e
      | .fuelOut => .fuelOut
  | fuel + 1, token_index, .Many expr, cache =>
      match rep_loop fuel expr [(token_index, [])] cache with
      | .ok (conts, cache1) => .ok ((token_index, []) :: conts, cache1)
      | .err e => .err e
      | .fuelOut => .fuelOut
  | fuel + 1, token_index, .OneOrMore expr, cache =>
      rep_loop fuel expr [(token_index, [])] cache

/-- Models the `for expr in exprs` loop of the `Concatenation` arm of
`parse_expr`. -/
def concat_loop : Nat → List RuleExpression → List (Continuation T) → FailureCache →
    PResult (List (Continuation T) × FailureCache)
  | 0, _, _, _ => .fuelOut
  | _ + 1, [], pass, cache => .ok (pass, cache)
  | fuel + 1, e :: rest, pass, cache =>
      match extend_all fuel pass e cache with
      | .ok (pass1, cache1) => concat_loop fuel rest pass1 cache1
      | .err er => .err er
      | .fuelOut => .fuelOut

/-- Models the `for expr in exprs` loop of the `Alternatives` arm of
`parse_expr`. -/
def alts_loop : Nat → Nat → List RuleExpression → FailureCache →
    PResult (List (Continuation T) × FailureCache)
  | 0, _, _, _ => .fuelOut
  | _ + 1, _, [], cache => .ok ([], cache)
  | fuel + 1, token_index, e :: rest, cache =>
      match parse_expr fuel token_index e cache with
      | .ok (conts, cache1) =>
          match alts_loop fuel token_index rest cache1 with
          | .ok (conts2, cache2) => .ok (conts ++ conts2, cache2)
          | .err er => .err er
          | .fuelOut => .fuelOut
      | .err er => .err er
      | .fuelOut => .fuelOut

/-- Models the `while !curr_pass.is_empty()` loop of the `Many`/`OneOrMore` arm
of `parse_expr`; the returned list is everything the loop appended to
`continuations`. -/
def rep_loop : Nat → RuleExpression → List (Continuation T) → FailureCache →
    PResult (List (Continuation T) × FailureCache)
  | 0, _, _, _ => .fuelOut
  | fuel + 1, expr, curr_pass, cache =>
      if curr_pass.isEmpty then .ok ([], cache)
      else
        match extend_all fuel curr_pass expr cache with
        | .ok (next_pass, cache1) =>
            match rep_loop fuel expr next_pass cache1 with
            | .ok (conts, cache2) => .ok (next_pass ++ conts, cache2)
            | .err er => .err er
            | .fuelOut => .fuelOut
        | .err er => .err er
        | .fuelOut => .fuelOut

/-- Models `extend_all` of `backtracking_parser.rs`. -/
def extend_all : Nat → List (Continuation T) → RuleExpression → FailureCache →
    PResult (List (Continuation T) × FailureCache)
  | 0, _, _, _ => .fuelOut
  | _ + 1, [], _, cache => .ok ([], cache)
  | fuel + 1, (index, old_trees) :: rest, expr, cache =>
      match parse_expr fuel index expr cache with
      | .ok (conts, cache1) =>
          match extend_all fuel rest expr cache1 with
          | .ok (conts2, cache2) =>
              .ok (conts.map (fun c => (c.1, old_trees ++ c.2)) ++ conts2, cache2)
          | .err er => .err er
          | .fuelOut => .fuelOut
      | .err er => .err er
      | .fuelOut => .fuelOut

end

mutual

/-- Models `intermediate_to_final` of `backtracking_parser.rs`. -/
def intermediate_to_final : IntermediateSyntaxTree T → SyntaxTree T
  | .RuleNode rule_name subexpressions =>
      .RuleNode rule_name (intermediate_list subexpressions)
  | .TokenNode token => .TokenNode token

/-- The `map` over children inside `intermediate_to_final`. -/
def intermediate_list : List (IntermediateSyntaxTree T) → List (SyntaxTree T)
  | [] => []
  | t :: ts => intermediate_to_final t :: intermediate_list ts

end

/-- Models `backtracking_parse` of `backtracking_parser.rs`.  The Rust code
re-reads the memo entry of the synthesized start expression at index 0; the
model uses the continuations returned by `parse_expr` directly, which is the
value stored in that entry.  `trees[0]` on an empty forest would panic in Rust;
the model maps the panic to an error value. -/
def backtracking_parse (start_rule : String) (fuel : Nat) : PResult (SyntaxTree T) :=
  let start_expr := RuleExpression.RuleName start_rule
  match parse_expr tmatches p tokens fuel 0 start_expr FailureCache.new with
  | .ok (conts, cache) =>
      match conts.find? (fun c => c.1 == tokens.length) with
      | some c =>
          match c.2.head? with
          | some tree => .ok (intermediate_to_final tree)
          | none => .err (.Message "panic: empty continuation forest")
      | none =>
          if cache.index < tokens.length then
            .err (.IncompleteParse cache.index cache.failures)
          else
            .err (.OutOfInput cache.failures)
  | .err e => .err e
  | .fuelOut => .fuelOut

end Backtracking

/-! ## Leaves and rule names of syntax trees -/

/-- Predicate used by witnesses: a token capability for string tokens where a
pattern matches exactly the equal token (the canonical character/string token
of spec section 6). -/
def strMatches : String → String → Bool := fun pat tok => pat == tok

mutual

/-- Token leaves of a final syntax tree, left to right. -/
def leaves {T : Type} : SyntaxTree T → List T
  | .RuleNode _ subs => leavesList subs
  | .TokenNode tok => [tok]

/-- Token leaves of a forest of final syntax trees. -/
def leavesList {T : Type} : List (SyntaxTree T) → List T
  | [] => []
  | t :: ts => leaves t ++ leavesList ts

end

mutual

/-- Every internal node of a final syntax tree names a rule defined in `p`. -/
def namesOk {T : Type} (p : Parser) : SyntaxTree T → Bool
  | .RuleNode n subs => (p.get n).isSome && namesOkList p subs
  | .TokenNode _ => true

/-- `namesOk` on a forest. -/
def namesOkList {T : Type} (p : Parser) : List (SyntaxTree T) → Bool
  | [] => true
  | t :: ts => namesOk p t && namesOkList p ts

end

/-- The slice `tokens[i..j]` of a token list. -/
def slice {α : Type} (l : List α) (i j : Nat) : List α := (l.drop i).take (j - i)

theorem slice_append {α : Type} (l : List α) {i j k : Nat} (h1 : i ≤ j) (h2 : j ≤ k) :
    slice l i j ++ slice l j k = slice l i k := by
  simp only [slice]
  rw [show k - i = (j - i) + (k - j) by omega, List.take_add, List.drop_drop,
    show i + (j - i) = j by omega]

theorem slice_self {α : Type} (l : List α) (i : Nat) : slice l i i = [] := by
  simp [slice]

theorem slice_singleton {α : Type} {l : List α} {i : Nat} {a : α}
    (h : l[i]? = some a) : slice l i (i + 1) = [a] := by
  have hlt : i < l.length := by
    by_contra hge
    rw [List.getElem?_eq_none (by omega)] at h
    exact Option.noConfusion h
  have ha : l[i] = a := by
    have := List.getElem?_eq_getElem hlt
    rw [this] at h
    exact Option.some.inj h
  simp only [slice, show i + 1 - i = 1 by omega]
  rw [List.drop_eq_getElem_cons hlt, ha]
  rfl

theorem slice_full {α : Type} (l : List α) : slice l 0 l.length = l := by
  simp [slice]

namespace Backtracking

variable {T : Type}

mutual

/-- Token leaves of an intermediate syntax tree, left to right. -/
def leavesI : IntermediateSyntaxTree T → List T
  | .RuleNode _ subs => leavesIList subs
  | .TokenNode tok => [tok]

/-- Token leaves of an intermediate forest. -/
def leavesIList : List (IntermediateSyntaxTree T) → List T
  | [] => []
  | t :: ts => leavesI t ++ leavesIList ts

end

mutual

/-- Every internal node of an intermediate tree names a rule defined in `p`. -/
def namesOkI (p : Parser) : IntermediateSyntaxTree T → Bool
  | .RuleNode n subs => (p.get n).isSome && namesOkIList p subs
  | .TokenNode _ => true

/-- `namesOkI` on a forest. -/
def namesOkIList (p : Parser) : List (IntermediateSyntaxTree T) → Bool
  | [] => true
  | t :: ts => namesOkI p t && namesOkIList p ts

end

theorem leavesIList_append (a b : List (IntermediateSyntaxTree T)) :
    leavesIList (a ++ b) = leavesIList a ++ leavesIList b := by
  induction a with
  | nil => simp [leavesIList]
  | cons t ts ih => simp [leavesIList, ih]

theorem namesOkIList_append (p : Parser) (a b : List (IntermediateSyntaxTree T)) :
    namesOkIList p (a ++ b) = (namesOkIList p a && namesOkIList p b) := by
  induction a with
  | nil => simp [namesOkIList]
  | cons t ts ih => simp [namesOkIList, ih, Bool.and_assoc]

mutual

theorem leaves_intermediate_to_final (t : IntermediateSyntaxTree T) :
    leaves (intermediate_to_final t) = leavesI t := by
  cases t with
  | RuleNode n subs =>
      simp [intermediate_to_final, leaves, leavesI,
        leavesList_intermediate_list subs]
  | TokenNode tok => simp [intermediate_to_final, leaves, leavesI]

theorem leavesList_intermediate_list (ts : List (IntermediateSyntaxTree T)) :
    leavesList (intermediate_list ts) = leavesIList ts := by
  cases ts with
  | nil => simp [intermediate_list, leavesList, leavesIList]
  | cons t ts =>
      simp [intermediate_list, leavesList, leavesIList,
        leaves_intermediate_to_final t, leavesList_intermediate_list ts]

end

mutual

theorem namesOk_intermediate_to_final (p : Parser) (t : IntermediateSyntaxTree T) :
    namesOk p (intermediate_to_final t) = namesOkI p t := by
  cases t with
  | RuleNode n subs =>
      simp [intermediate_to_final, namesOk, namesOkI,
        namesOkList_intermediate_list p subs]
  | TokenNode tok => simp [intermediate_to_final, namesOk, namesOkI]

theorem namesOkList_intermediate_list (p : Parser) (ts : List (IntermediateSyntaxTree T)) :
    namesOkList p (intermediate_list ts) = namesOkIList p ts := by
  cases ts with
  | nil => simp [intermediate_list, namesOkList, namesOkIList]
  | cons t ts =>
      simp [intermediate_list, namesOkList, namesOkIList,
        namesOk_intermediate_to_final p t, namesOkList_intermediate_list p ts]

end

end Backtracking

namespace Backtracking

/-! ## Claims C8, C9, C4 -/

/-- C8: `FailureCache::log` is monotone: a terminal miss at position `i` with
pattern `p` replaces the record with index `i` and set `\x7bp\x7d` when `i` is
greater than the current index, adds `p` to the set when `i` equals the current
index, and leaves the record unchanged when `i` is smaller; hence the recorded
index never decreases. -/
theorem claim_c8_failure_log_monotone (cache : FailureCache) (i : Nat) (pat : String) :
    (cache.index < i → FailureCache.log cache i pat = ⟨[pat], i⟩) ∧
    (i = cache.index →
      FailureCache.log cache i pat = ⟨insertFailure cache.failures pat, cache.index⟩) ∧
    (i < cache.index → FailureCache.log cache i pat = cache) ∧
    cache.index ≤ (FailureCache.log cache i pat).index := by
  refine ⟨fun h => ?_, fun h => ?_, fun h => ?_, ?_⟩
  · simp [FailureCache.log, h, insertFailure]
  · have h1 : ¬ cache.index < i := by omega
    simp [FailureCache.log, h1, h]
  · have h1 : ¬ cache.index < i := by omega
    have h2 : ¬ i = cache.index := by omega
    simp [FailureCache.log, h1, h2]
  · simp only [FailureCache.log]
    split_ifs <;> simp <;> omega

/-- Witness for C8 at a concrete cache. -/
theorem claim_c8_witness :
    FailureCache.log ⟨["x"], 3⟩ 5 "p" = ⟨["p"], 5⟩ ∧
    (3 : Nat) ≤ (FailureCache.log ⟨["x"], 3⟩ 5 "p").index :=
  ⟨(claim_c8_failure_log_monotone ⟨["x"], 3⟩ 5 "p").1 (by decide),
   (claim_c8_failure_log_monotone ⟨["x"], 3⟩ 5 "p").2.2.2⟩

/-- C9: the continuation list computed for `Many e` at index `i` is the
continuation list computed for `OneOrMore e` at `i` together with the identity
continuation `(i, [])` (prepended, as the code pushes it first); on error or
divergence the two arms behave identically. -/
theorem claim_c9_many_oneOrMore {T : Type} (tmatches : String → T → Bool) (p : Parser)
    (tokens : List T) (fuel token_index : Nat) (e : RuleExpression) (cache : FailureCache) :
    parse_expr tmatches p tokens (fuel + 1) token_index (.Many e) cache =
      (match parse_expr tmatches p tokens (fuel + 1) token_index (.OneOrMore e) cache with
       | .ok (conts, cache1) => .ok ((token_index, []) :: conts, cache1)
       | .err er => .err er
       | .fuelOut => .fuelOut) := by
  cases hr : rep_loop tmatches p tokens fuel e [(token_index, [])] cache with
  | ok v => obtain ⟨c, c1⟩ := v; simp [parse_expr, hr]
  | err er => simp [parse_expr, hr]
  | fuelOut => simp [parse_expr, hr]

/-- C4: when the backtracking search produces no continuation consuming all
tokens, the engine reports `IncompleteParse` with the furthest-failure index and
set when that index lies inside the input, and `OutOfInput` with the set
otherwise. -/
theorem claim_c4_failure_reporting {T : Type} (tmatches : String → T → Bool) (p : Parser)
    (tokens : List T) (start_rule : String) (fuel : Nat)
    (conts : List (Continuation T)) (cache : FailureCache)
    (hrun : parse_expr tmatches p tokens fuel 0 (.RuleName start_rule) FailureCache.new =
      .ok (conts, cache))
    (hno : conts.find? (fun c => c.1 == tokens.length) = none) :
    backtracking_parse tmatches p tokens start_rule fuel =
      if cache.index < tokens.length then
        .err (.IncompleteParse cache.index cache.failures)
      else .err (.OutOfInput cache.failures) := by
  simp only [backtracking_parse, hrun, hno]

/-- Witness for C4: grammar `S : "a" ;` on input `["b"]` reports
`IncompleteParse` at index 0 expecting `"a"`. -/
theorem claim_c4_witness :
    backtracking_parse strMatches ⟨[("S", .Terminal "a")]⟩ ["b"] "S" 3 =
      .err (.IncompleteParse 0 ["a"]) := by
  have h := claim_c4_failure_reporting strMatches ⟨[("S", .Terminal "a")]⟩ ["b"] "S" 3
    [] ⟨["a"], 0⟩ rfl rfl
  simpa using h

end Backtracking

namespace Backtracking

/-! ## The continuation invariant of the backtracking engine -/

variable {T : Type}

/-- Invariant of a continuation produced for a sub-parse starting at `base`:
the index does not go backwards, the forest's leaves are exactly the consumed
slice of the input, and every rule node bears a defined rule name. -/
def ContOk (p : Parser) (tokens : List T) (base : Nat) (c : Continuation T) : Prop :=
  base ≤ c.1 ∧ leavesIList c.2 = slice tokens base c.1 ∧ namesOkIList p c.2 = true

theorem contOk_identity (p : Parser) (tokens : List T) (i : Nat) :
    ContOk p tokens i (i, ([] : List (IntermediateSyntaxTree T))) :=
  ⟨Nat.le_refl i, by simp [leavesIList, slice_self], by simp [namesOkIList]⟩

theorem contOk_singleton_pass (p : Parser) (tokens : List T) (i : Nat) :
    ∀ c ∈ [((i, []) : Continuation T)], ContOk p tokens i c := by
  intro c hc
  rw [List.mem_singleton] at hc
  subst hc
  exact contOk_identity p tokens i

/-- The fundamental invariant of `parse_expr` and its loops: every continuation
an `.ok` run returns satisfies `ContOk`. -/
theorem parse_inv (tmatches : String → T → Bool) (p : Parser) (tokens : List T) :
    ∀ fuel : Nat,
    (∀ i e cache r, parse_expr tmatches p tokens fuel i e cache = .ok r →
      ∀ c ∈ r.1, ContOk p tokens i c) ∧
    (∀ exprs pass cache r base, concat_loop tmatches p tokens fuel exprs pass cache = .ok r →
      (∀ c ∈ pass, ContOk p tokens base c) → ∀ c ∈ r.1, ContOk p tokens base c) ∧
    (∀ i exprs cache r, alts_loop tmatches p tokens fuel i exprs cache = .ok r →
      ∀ c ∈ r.1, ContOk p tokens i c) ∧
    (∀ e pass cache r base, rep_loop tmatches p tokens fuel e pass cache = .ok r →
      (∀ c ∈ pass, ContOk p tokens base c) → ∀ c ∈ r.1, ContOk p tokens base c) ∧
    (∀ pass e cache r base, extend_all tmatches p tokens fuel pass e cache = .ok r →
      (∀ c ∈ pass, ContOk p tokens base c) → ∀ c ∈ r.1, ContOk p tokens base c) := by
  intro fuel
  induction fuel with
  | zero =>
      refine ⟨fun i e cache r h => ?_, fun exprs pass cache r base h => ?_,
        fun i exprs cache r h => ?_, fun e pass cache r base h => ?_,
        fun pass e cache r base h => ?_⟩ <;>
      simp [parse_expr, concat_loop, alts_loop, rep_loop, extend_all] at h
  | succ fuel ih =>
      obtain ⟨ihp, ihc, iha, ihr, ihe⟩ := ih
      refine ⟨?_, ?_, ?_, ?_, ?_⟩
      · -- parse_expr
        intro i e cache r h c hc
        cases e with
        | Terminal term =>
            simp only [parse_expr] at h
            cases htok : tokens[i]? with
            | none =>
                simp only [htok] at h
                injection h with h1
                subst h1
                simp at hc
            | some tok =>
                simp only [htok] at h
                by_cases htm : tmatches term tok
                · simp only [if_pos htm] at h
                  injection h with h1
                  subst h1
                  simp only [List.mem_singleton] at hc
                  subst hc
                  refine ⟨by omega, ?_, ?_⟩
                  · rw [slice_singleton htok]
                    simp [leavesIList, leavesI]
                  · simp [namesOkIList, namesOkI]
                · simp only [if_neg htm] at h
                  injection h with h1
                  subst h1
                  simp at hc
        | RuleName rule_name =>
            simp only [parse_expr] at h
            cases hget : p.get rule_name with
            | none => simp only [hget] at h; exact absurd h (by simp)
            | some rule_expr =>
                simp only [hget] at h
                cases hrec : parse_expr tmatches p tokens fuel i rule_expr cache with
                | ok v =>
                    obtain ⟨conts, cache1⟩ := v
                    simp only [hrec] at h
                    injection h with h1
                    subst h1
                    simp only [List.mem_map] at hc
                    obtain ⟨c0, hc0, rfl⟩ := hc
                    obtain ⟨h1, h2, h3⟩ := ihp i rule_expr cache (conts, cache1) hrec c0 hc0
                    refine ⟨h1, ?_, ?_⟩
                    · simpa [leavesIList, leavesI] using h2
                    · simp [namesOkIList, namesOkI, h3, hget]
                | err e2 => simp only [hrec] at h; exact absurd h (by simp)
                | fuelOut => simp only [hrec] at h; exact absurd h (by simp)
        | Concatenation exprs =>
            simp only [parse_expr] at h
            exact ihc exprs [(i, [])] cache r i h (contOk_singleton_pass p tokens i) c hc
        | Alternatives exprs =>
            simp only [parse_expr] at h
            exact iha i exprs cache r h c hc
        | Optional expr =>
            simp only [parse_expr] at h
            cases hrec : parse_expr tmatches p tokens fuel i expr cache with
            | ok v =>
                obtain ⟨conts, cache1⟩ := v
                simp only [hrec] at h
                injection h with h1
                subst h1
                rcases List.mem_cons.mp hc with rfl | hcm
                · exact contOk_identity p tokens i
                · exact ihp i expr cache (conts, cache1) hrec c hcm
            | err e2 => simp only [hrec] at h; exact absurd h (by simp)
            | fuelOut => simp only [hrec] at h; exact absurd h (by simp)
        | Many expr =>
            simp only [parse_expr] at h
            cases hrec : rep_loop tmatches p tokens fuel expr [(i, [])] cache with
            | ok v =>
                obtain ⟨conts, cache1⟩ := v
                simp only [hrec] at h
                injection h with h1
                subst h1
                rcases List.mem_cons.mp hc with rfl | hcm
                · exact contOk_identity p tokens i
                · exact ihr expr [(i, [])] cache (conts, cache1) i hrec
                    (contOk_singleton_pass p tokens i) c hcm
            | err e2 => simp only [hrec] at h; exact absurd h (by simp)
            | fuelOut => simp only [hrec] at h; exact absurd h (by simp)
        | OneOrMore expr =>
            simp only [parse_expr] at h
            exact ihr expr [(i, [])] cache r i h (contOk_singleton_pass p tokens i) c hc
      · -- concat_loop
        intro exprs pass cache r base h hpass c hc
        cases exprs with
        | nil =>
            simp only [concat_loop] at h
            injection h with h1
            subst h1
            exact hpass c hc
        | cons e rest =>
            simp only [concat_loop] at h
            cases hext : extend_all tmatches p tokens fuel pass e cache with
            | ok v =>
                obtain ⟨pass1, cache1⟩ := v
                simp only [hext] at h
                exact ihc rest pass1 cache1 r base h
                  (fun c' hc' => ihe pass e cache (pass1, cache1) base hext hpass c' hc') c hc
            | err e2 => simp only [hext] at h; exact absurd h (by simp)
            | fuelOut => simp only [hext] at h; exact absurd h (by simp)
      · -- alts_loop
        intro i exprs cache r h c hc
        cases exprs with
        | nil =>
            simp only [alts_loop] at h
            injection h with h1
            subst h1
            simp at hc
        | cons e rest =>
            simp only [alts_loop] at h
            cases hrec : parse_expr tmatches p tokens fuel i e cache with
            | ok v =>
                obtain ⟨conts, cache1⟩ := v
                simp only [hrec] at h
                cases halts : alts_loop tmatches p tokens fuel i rest cache1 with
                | ok v2 =>
                    obtain ⟨conts2, cache2⟩ := v2
                    simp only [halts] at h
                    injection h with h1
                    subst h1
                    rcases List.mem_append.mp hc with hcm | hcm
                    · exact ihp i e cache (conts, cache1) hrec c hcm
                    · exact iha i rest cache1 (conts2, cache2) halts c hcm
                | err e2 => simp only [halts] at h; exact absurd h (by simp)
                | fuelOut => simp only [halts] at h; exact absurd h (by simp)
            | err e2 => simp only [hrec] at h; exact absurd h (by simp)
            | fuelOut => simp only [hrec] at h; exact absurd h (by simp)
      · -- rep_loop
        intro e pass cache r base h hpass c hc
        simp only [rep_loop] at h
        by_cases hemp : pass.isEmpty
        · simp only [if_pos hemp] at h
          injection h with h1
          subst h1
          simp at hc
        · simp only [if_neg hemp] at h
          cases hext : extend_all tmatches p tokens fuel pass e cache with
          | ok v =>
              obtain ⟨next_pass, cache1⟩ := v
              simp only [hext] at h
              cases hrep : rep_loop tmatches p tokens fuel e next_pass cache1 with
              | ok v2 =>
                  obtain ⟨conts, cache2⟩ := v2
                  simp only [hrep] at h
                  injection h with h1
                  subst h1
                  rcases List.mem_append.mp hc with hcm | hcm
                  · exact ihe pass e cache (next_pass, cache1) base hext hpass c hcm
                  · exact ihr e next_pass cache1 (conts, cache2) base hrep
                      (fun c' hc' => ihe pass e cache (next_pass, cache1) base hext hpass c' hc')
                      c hcm
              | err e2 => simp only [hrep] at h; exact absurd h (by simp)
              | fuelOut => simp only [hrep] at h; exact absurd h (by simp)
          | err e2 => simp only [hext] at h; exact absurd h (by simp)
          | fuelOut => simp only [hext] at h; exact absurd h (by simp)
      · -- extend_all
        intro pass e cache r base h hpass c hc
        cases pass with
        | nil =>
            simp only [extend_all] at h
            injection h with h1
            subst h1
            simp at hc
        | cons hd rest =>
            obtain ⟨index, old_trees⟩ := hd
            simp only [extend_all] at h
            cases hrec : parse_expr tmatches p tokens fuel index e cache with
            | ok v =>
                obtain ⟨conts, cache1⟩ := v
                simp only [hrec] at h
                cases hext2 : extend_all tmatches p tokens fuel rest e cache1 with
                | ok v2 =>
                    obtain ⟨conts2, cache2⟩ := v2
                    simp only [hext2] at h
                    injection h with h1
                    subst h1
                    rcases List.mem_append.mp hc with hcm | hcm
                    · simp only [List.mem_map] at hcm
                      obtain ⟨c0, hc0, rfl⟩ := hcm
                      obtain ⟨hio, hlo, hno⟩ :=
                        hpass (index, old_trees) (List.mem_cons_self _ _)
                      obtain ⟨h1, h2, h3⟩ := ihp index e cache (conts, cache1) hrec c0 hc0
                      refine ⟨Nat.le_trans hio h1, ?_, ?_⟩
                      · rw [leavesIList_append, hlo, h2]
                        exact slice_append tokens hio h1
                      · simp only [namesOkIList_append, hno, h3, Bool.and_self]
                    · exact ihe rest e cache1 (conts2, cache2) base hext2
                        (fun c' hc' => hpass c' (List.mem_cons_of_mem _ hc')) c hcm
                | err e2 => simp only [hext2] at h; exact absurd h (by simp)
                | fuelOut => simp only [hext2] at h; exact absurd h (by simp)
            | err e2 => simp only [hrec] at h; exact absurd h (by simp)
            | fuelOut => simp only [hrec] at h; exact absurd h (by simp)

/-- Continuations of a `RuleName` expression carry a singleton forest holding a
rule node with that name. -/
theorem parse_expr_ruleName_shape (tmatches : String → T → Bool) (p : Parser)
    (tokens : List T) (fuel i : Nat) (n : String) (cache : FailureCache)
    (r : List (Continuation T) × FailureCache)
    (h : parse_expr tmatches p tokens fuel i (.RuleName n) cache = .ok r) :
    ∀ c ∈ r.1, ∃ sub, c.2 = [IntermediateSyntaxTree.RuleNode n sub] := by
  intro c hc
  cases fuel with
  | zero => simp [parse_expr] at h
  | succ fuel =>
      simp only [parse_expr] at h
      cases hget : p.get n with
      | none => simp only [hget] at h; exact absurd h (by simp)
      | some rule_expr =>
          simp only [hget] at h
          cases hrec : parse_expr tmatches p tokens fuel i rule_expr cache with
          | ok v =>
              obtain ⟨conts, cache1⟩ := v
              simp only [hrec] at h
              injection h with h1
              subst h1
              simp only [List.mem_map] at hc
              obtain ⟨c0, _, rfl⟩ := hc
              exact ⟨c0.2, rfl⟩
          | err e2 => simp only [hrec] at h; exact absurd h (by simp)
          | fuelOut => simp only [hrec] at h; exact absurd h (by simp)

/-- Everything C1 and C10 need about a successful backtracking parse: the
leaves are the input tokens, every rule node names a defined rule, and the root
is a rule node named after the start rule. -/
theorem backtracking_parse_ok (tmatches : String → T → Bool) (p : Parser)
    (tokens : List T) (start_rule : String) (fuel : Nat) (τ : SyntaxTree T)
    (h : backtracking_parse tmatches p tokens start_rule fuel = .ok τ) :
    leaves τ = tokens ∧ namesOk p τ = true ∧
    ∃ subs, τ = SyntaxTree.RuleNode start_rule subs := by
  simp only [backtracking_parse] at h
  cases hrun : parse_expr tmatches p tokens fuel 0 (.RuleName start_rule) FailureCache.new with
  | ok v =>
      obtain ⟨conts, cache⟩ := v
      simp only [hrun] at h
      cases hfind : conts.find? (fun c => c.1 == tokens.length) with
      | none =>
          simp only [hfind] at h
          split at h <;> exact absurd h (by simp)
      | some c0 =>
          simp only [hfind] at h
          cases hhead : c0.2.head? with
          | none => simp only [hhead] at h; exact absurd h (by simp)
          | some tree =>
              simp only [hhead] at h
              injection h with h1
              have hcfind : c0.1 = tokens.length := by
                have := List.find?_some hfind
                simpa using this
              have hmem : c0 ∈ conts := List.mem_of_find?_eq_some hfind
              obtain ⟨_, hleq, hnames⟩ :=
                (parse_inv tmatches p tokens fuel).1 0 (.RuleName start_rule)
                  FailureCache.new (conts, cache) hrun c0 hmem
              obtain ⟨sub, hsub⟩ :=
                parse_expr_ruleName_shape tmatches p tokens fuel 0 start_rule
                  FailureCache.new (conts, cache) hrun c0 hmem
              rw [hsub] at hhead
              simp only [List.head?_cons] at hhead
              have htree : tree = IntermediateSyntaxTree.RuleNode start_rule sub :=
                (Option.some.inj hhead).symm
              have hleaves : leavesI tree = tokens := by
                rw [hsub, hcfind] at hleq
                simp only [leavesIList, List.append_nil] at hleq
                rw [slice_full] at hleq
                rw [htree]
                exact hleq
              have hnames2 : namesOkI p tree = true := by
                rw [hsub] at hnames
                simp only [namesOkIList, Bool.and_true] at hnames
                rw [htree]
                exact hnames
              subst h1
              refine ⟨?_, ?_, ?_⟩
              · rw [leaves_intermediate_to_final]
                exact hleaves
              · rw [namesOk_intermediate_to_final]
                exact hnames2
              · rw [htree]
                exact ⟨intermediate_list sub, by simp [intermediate_to_final]⟩
  | err e2 => simp only [hrun] at h; exact absurd h (by simp)
  | fuelOut => simp only [hrun] at h; exact absurd h (by simp)

end Backtracking

namespace Backtracking

/-! ## Claim C5: termination of the repetition loop -/

/-- A fuelled computation diverges when no amount of fuel makes it return. -/
def Diverges {α : Type} (f : Nat → PResult α) : Prop := ∀ fuel, f fuel = .fuelOut

/-- One pass of `extend_all` over the identity continuation with the nullable
expression `Optional (Terminal "a")` on empty input reproduces the identity
continuation (or runs out of fuel). -/
theorem extend_all_opt_fix (fuel : Nat) (cache : FailureCache) :
    extend_all strMatches (⟨[]⟩ : Parser) ([] : List String) fuel
        [(0, [])] (.Optional (.Terminal "a")) cache = .fuelOut ∨
    ∃ c1, extend_all strMatches (⟨[]⟩ : Parser) ([] : List String) fuel
        [(0, [])] (.Optional (.Terminal "a")) cache =
      .ok ([((0, []) : Continuation String)], c1) := by
  match fuel with
  | 0 => exact Or.inl rfl
  | 1 => exact Or.inl rfl
  | 2 => exact Or.inl rfl
  | (n + 3) => exact Or.inr ⟨cache.log 0 "a", rfl⟩

/-- The repetition loop on `Optional (Terminal "a")` with empty input never
empties its pass: it exhausts any amount of fuel. -/
theorem rep_loop_opt_diverges : ∀ (fuel : Nat) (cache : FailureCache),
    rep_loop strMatches (⟨[]⟩ : Parser) ([] : List String) fuel
      (.Optional (.Terminal "a")) [(0, [])] cache = .fuelOut := by
  intro fuel
  induction fuel with
  | zero => intro cache; rfl
  | succ fuel ih =>
      intro cache
      simp only [rep_loop, List.isEmpty_cons, if_false]
      rcases extend_all_opt_fix fuel cache with hx | ⟨c1, hx⟩
      · simp [hx]
      · simp [hx, ih c1]

/-- `parse_expr` on `Many (Optional (Terminal "a"))` at index 0 of the empty
input diverges. -/
theorem parse_expr_manyOpt_diverges (fuel : Nat) (cache : FailureCache) :
    parse_expr strMatches (⟨[]⟩ : Parser) ([] : List String) fuel 0
      (.Many (.Optional (.Terminal "a"))) cache = .fuelOut := by
  cases fuel with
  | zero => rfl
  | succ fuel => simp only [parse_expr, rep_loop_opt_diverges fuel cache]

/-- Counterexample to C5 as stated: for the grammar-free `Many` expression with
the nullable child `Optional (Terminal "a")`, at index 0 of the empty token
sequence, the closure-under-repetition loop (and hence `parse_expr` on the
`Many` expression) does not terminate: the code has no non-progress detection,
so the identity continuation reproduces itself forever. -/
theorem claim_c5_counterexample :
    Diverges (fun fuel => rep_loop strMatches (⟨[]⟩ : Parser) ([] : List String) fuel
      (.Optional (.Terminal "a")) [(0, [])] FailureCache.new) ∧
    Diverges (fun fuel => parse_expr strMatches (⟨[]⟩ : Parser) ([] : List String) fuel 0
      (.Many (.Optional (.Terminal "a"))) FailureCache.new) :=
  ⟨fun fuel => rep_loop_opt_diverges fuel FailureCache.new,
   fun fuel => parse_expr_manyOpt_diverges fuel FailureCache.new⟩

/-- The sub-parse of `e` stabilizes: at every index and cache some fuel makes
`parse_expr` return, and the result is the same for all larger fuel. -/
def StabilizesAt {T : Type} (tmatches : String → T → Bool) (p : Parser) (tokens : List T)
    (e : RuleExpression) : Prop :=
  ∀ i cache, ∃ f₀ r, r ≠ PResult.fuelOut ∧
    ∀ f, f₀ ≤ f → parse_expr tmatches p tokens f i e cache = r

/-- Every continuation produced for `e` strictly advances the index and stays
within the input. -/
def AlwaysAdvances {T : Type} (tmatches : String → T → Bool) (p : Parser) (tokens : List T)
    (e : RuleExpression) : Prop :=
  ∀ fuel i cache r, parse_expr tmatches p tokens fuel i e cache = .ok r →
    ∀ c ∈ r.1, i < c.1 ∧ c.1 ≤ tokens.length

theorem extend_all_stab {T : Type} {tmatches : String → T → Bool} {p : Parser}
    {tokens : List T} {e : RuleExpression} (hstab : StabilizesAt tmatches p tokens e) :
    ∀ (pass : List (Continuation T)) (cache : FailureCache),
      ∃ f₀ r, r ≠ PResult.fuelOut ∧
        ∀ f, f₀ ≤ f → extend_all tmatches p tokens f pass e cache = r := by
  intro pass
  induction pass with
  | nil =>
      intro cache
      refine ⟨1, .ok ([], cache), by simp, fun f hf => ?_⟩
      obtain ⟨g, rfl⟩ : ∃ g, f = g + 1 := ⟨f - 1, by omega⟩
      rfl
  | cons hd rest ih =>
      obtain ⟨j, old⟩ := hd
      intro cache
      obtain ⟨f₁, r₁, hne₁, h₁⟩ := hstab j cache
      cases r₁ with
      | ok v =>
          obtain ⟨conts, cache1⟩ := v
          obtain ⟨f₂, r₂, hne₂, h₂⟩ := ih cache1
          cases r₂ with
          | ok v2 =>
              obtain ⟨conts2, cache2⟩ := v2
              refine ⟨max f₁ f₂ + 1,
                .ok (conts.map (fun c => (c.1, old ++ c.2)) ++ conts2, cache2), by simp, ?_⟩
              intro f hf
              obtain ⟨g, rfl⟩ : ∃ g, f = g + 1 := ⟨f - 1, by omega⟩
              simp only [extend_all, h₁ g (by omega), h₂ g (by omega)]
          | err e2 =>
              refine ⟨max f₁ f₂ + 1, .err e2, by simp, ?_⟩
              intro f hf
              obtain ⟨g, rfl⟩ : ∃ g, f = g + 1 := ⟨f - 1, by omega⟩
              simp only [extend_all, h₁ g (by omega), h₂ g (by omega)]
          | fuelOut => exact absurd rfl hne₂
      | err e2 =>
          refine ⟨f₁ + 1, .err e2, by simp, ?_⟩
          intro f hf
          obtain ⟨g, rfl⟩ : ∃ g, f = g + 1 := ⟨f - 1, by omega⟩
          simp only [extend_all, h₁ g (by omega)]
      | fuelOut => exact absurd rfl hne₁

theorem extend_all_advance {T : Type} {tmatches : String → T → Bool} {p : Parser}
    {tokens : List T} {e : RuleExpression} (hadv : AlwaysAdvances tmatches p tokens e) :
    ∀ (pass : List (Continuation T)) (fuel : Nat) (cache : FailureCache)
      (next : List (Continuation T)) (cache1 : FailureCache) (m : Nat),
      extend_all tmatches p tokens fuel pass e cache = .ok (next, cache1) →
      (∀ c ∈ pass, m ≤ c.1) → ∀ c ∈ next, m + 1 ≤ c.1 ∧ c.1 ≤ tokens.length := by
  intro pass
  induction pass with
  | nil =>
      intro fuel cache next cache1 m h hb c hc
      cases fuel with
      | zero => simp [extend_all] at h
      | succ g =>
          simp only [extend_all] at h
          injection h with h1
          injection h1 with ha hb2
          subst ha
          simp at hc
  | cons hd rest ih =>
      obtain ⟨j, old⟩ := hd
      intro fuel cache next cache1 m h hb c hc
      cases fuel with
      | zero => simp [extend_all] at h
      | succ g =>
          simp only [extend_all] at h
          cases hrec : parse_expr tmatches p tokens g j e cache with
          | ok v =>
              obtain ⟨conts, cacheA⟩ := v
              simp only [hrec] at h
              cases hext : extend_all tmatches p tokens g rest e cacheA with
              | ok v2 =>
                  obtain ⟨conts2, cacheB⟩ := v2
                  simp only [hext] at h
                  injection h with h1
                  injection h1 with ha hb2
                  subst ha
                  rcases List.mem_append.mp hc with hcm | hcm
                  · simp only [List.mem_map] at hcm
                    obtain ⟨c0, hc0, rfl⟩ := hcm
                    have hj : m ≤ j := hb (j, old) (List.mem_cons_self _ _)
                    obtain ⟨h1, h2⟩ := hadv g j cache (conts, cacheA) hrec c0 hc0
                    exact ⟨by omega, h2⟩
                  · exact ih g cacheA conts2 cacheB m hext
                      (fun c' hc' => hb c' (List.mem_cons_of_mem _ hc')) c hcm
              | err e2 => simp only [hext] at h; exact absurd h (by simp)
              | fuelOut => simp only [hext] at h; exact absurd h (by simp)
          | err e2 => simp only [hrec] at h; exact absurd h (by simp)
          | fuelOut => simp only [hrec] at h; exact absurd h (by simp)

theorem rep_loop_terminates {T : Type} {tmatches : String → T → Bool} {p : Parser}
    {tokens : List T} {e : RuleExpression}
    (hstab : StabilizesAt tmatches p tokens e) (hadv : AlwaysAdvances tmatches p tokens e) :
    ∀ (k m : Nat) (pass : List (Continuation T)) (cache : FailureCache),
      tokens.length + 1 - m ≤ k →
      (∀ c ∈ pass, m ≤ c.1 ∧ c.1 ≤ tokens.length) →
      ∃ f₀, ∀ f, f₀ ≤ f → rep_loop tmatches p tokens f e pass cache ≠ .fuelOut := by
  intro k
  induction k with
  | zero =>
      intro m pass cache hm hb
      cases pass with
      | nil =>
          refine ⟨1, fun f hf => ?_⟩
          obtain ⟨g, rfl⟩ : ∃ g, f = g + 1 := ⟨f - 1, by omega⟩
          simp [rep_loop]
      | cons c rest =>
          obtain ⟨h1, h2⟩ := hb c (List.mem_cons_self _ _)
          omega
  | succ k ihk =>
      intro m pass cache hm hb
      by_cases hpe : pass.isEmpty
      · refine ⟨1, fun f hf => ?_⟩
        obtain ⟨g, rfl⟩ : ∃ g, f = g + 1 := ⟨f - 1, by omega⟩
        simp [rep_loop, hpe]
      · obtain ⟨f₁, r₁, hne₁, h₁⟩ := extend_all_stab hstab pass cache
        cases r₁ with
        | ok v =>
            obtain ⟨next, cache1⟩ := v
            have hnext : ∀ c ∈ next, m + 1 ≤ c.1 ∧ c.1 ≤ tokens.length := by
              intro c hc
              refine ⟨extend_all_advance hadv pass f₁ cache next cache1 m (h₁ f₁ le_rfl)
                (fun c' hc' => (hb c' hc').1) c hc |>.1, ?_⟩
              exact (extend_all_advance hadv pass f₁ cache next cache1 m (h₁ f₁ le_rfl)
                (fun c' hc' => (hb c' hc').1) c hc).2
            obtain ⟨f₂, hf₂⟩ := ihk (m + 1) next cache1 (by omega) hnext
            refine ⟨max f₁ f₂ + 1, fun f hf => ?_⟩
            obtain ⟨g, rfl⟩ : ∃ g, f = g + 1 := ⟨f - 1, by omega⟩
            simp only [rep_loop, if_neg hpe, h₁ g (by omega)]
            cases hrep : rep_loop tmatches p tokens g e next cache1 with
            | ok v2 => simp
            | err e2 => simp
            | fuelOut => exact absurd hrep (hf₂ g (by omega))
        | err e2 =>
            refine ⟨f₁ + 1, fun f hf => ?_⟩
            obtain ⟨g, rfl⟩ : ∃ g, f = g + 1 := ⟨f - 1, by omega⟩
            simp only [rep_loop, if_neg hpe, h₁ g (by omega)]
            simp
        | fuelOut => exact absurd rfl hne₁

/-- C5 amended: the closure-under-repetition loop terminates provided every
match of the inner expression advances the index (and the inner sub-parse
itself returns); with the code as written this proviso is necessary, see the
counterexample with a nullable inner expression. -/
theorem claim_c5_amended {T : Type} (tmatches : String → T → Bool) (p : Parser)
    (tokens : List T) (e : RuleExpression) (i : Nat) (cache : FailureCache)
    (hstab : StabilizesAt tmatches p tokens e)
    (hadv : AlwaysAdvances tmatches p tokens e)
    (hi : i ≤ tokens.length) :
    ∃ f₀, ∀ f, f₀ ≤ f → rep_loop tmatches p tokens f e [(i, [])] cache ≠ .fuelOut := by
  refine rep_loop_terminates hstab hadv (tokens.length + 1 - i) i [(i, [])] cache le_rfl ?_
  intro c hc
  rw [List.mem_singleton] at hc
  subst hc
  exact ⟨le_rfl, hi⟩

theorem terminal_stab : StabilizesAt strMatches (⟨[]⟩ : Parser) ["b"] (.Terminal "b") := by
  intro i cache
  refine ⟨1, parse_expr strMatches ⟨[]⟩ ["b"] 1 i (.Terminal "b") cache, ?_, ?_⟩
  · cases h : (["b"] : List String)[i]? with
    | none => simp [parse_expr, h]
    | some tok =>
        simp only [parse_expr, h]
        split <;> simp
  · intro f hf
    obtain ⟨g, rfl⟩ : ∃ g, f = g + 1 := ⟨f - 1, by omega⟩
    rfl

theorem terminal_adv : AlwaysAdvances strMatches (⟨[]⟩ : Parser) ["b"] (.Terminal "b") := by
  intro fuel i cache r h c hc
  cases fuel with
  | zero => simp [parse_expr] at h
  | succ g =>
      simp only [parse_expr] at h
      cases htok : (["b"] : List String)[i]? with
      | none => simp only [htok] at h; injection h with h1; subst h1; simp at hc
      | some tok =>
          simp only [htok] at h
          by_cases htm : strMatches "b" tok
          · simp only [if_pos htm] at h
            injection h with h1
            subst h1
            simp only [List.mem_singleton] at hc
            subst hc
            have hlt : i < 1 := by
              by_contra hge
              rw [List.getElem?_eq_none (by simp; omega)] at htok
              exact Option.noConfusion htok
            exact ⟨by omega, by simpa using hlt⟩
          · simp only [if_neg htm] at h
            injection h with h1
            subst h1
            simp at hc

/-- Witness for the amended C5 at the concrete always-advancing inner
expression `Terminal "b"` on input `["b"]`. -/
theorem claim_c5_witness :
    ∃ f₀, ∀ f, f₀ ≤ f → rep_loop strMatches (⟨[]⟩ : Parser) ["b"] f (.Terminal "b")
      [(0, [])] FailureCache.new ≠ .fuelOut :=
  claim_c5_amended strMatches ⟨[]⟩ ["b"] (.Terminal "b") 0 FailureCache.new
    terminal_stab terminal_adv (Nat.zero_le _)

end Backtracking

namespace GSS

/-! ## The GSS engine (`src/parse/gss_parser.rs`) -/

/-- Models `GSSParentData`. -/
inductive GSSParentData where
  | Index (k : Nat)
  | NoData
  | Done
  deriving Repr, DecidableEq

/-- One allocation of a Rust `GSSNode`: `id` models the `Rc` allocation
identity (the engine hashes nodes by reference), `expr` the rule expression the
node points at, `parent_data` the node's role inside its parent. -/
structure GSSFrame where
  id : Nat
  expr : RuleExpression
  parent_data : GSSParentData
  deriving Repr

/-- A GSS node together with its parent chain: the head frame is the node
itself and the tail models the `parent : Option<Rc<GSSNode>>` chain (empty tail
= no parent).  Rust's sharing of parents via `Rc::clone` is sharing of the tail
as a value; identity is recoverable from the `id` fields. -/
abbrev GSSChain := List GSSFrame

/-- `node.parent_data` of the head allocation. -/
def pdataOf : GSSChain → GSSParentData
  | [] => .NoData
  | f :: _ => f.parent_data

variable {T : Type} (p : Parser)

mutual

/-- Models `advance_auto` of `gss_parser.rs`: "this subtree finished; what
comes next?". -/
def advance_auto : Nat → GSSChain → GSSParentData → Nat → PResult (List GSSChain × Nat)
  | 0, _, _, _ => .fuelOut
  | fuel + 1, node, caller_parent_data, ctr =>
      if caller_parent_data = .Done then .ok ([], ctr)
      else
        match node with
        | [] => .err (.Message "model: empty chain")
        | f :: parentChain =>
            match f.expr with
            | .Terminal _ => .err (.Message "Tried to advance terminal without token")
            | .RuleName _ =>
                match parentChain with
                | [] => .ok ([[⟨ctr, f.expr, .Done⟩]], ctr + 1)
                | _ :: _ => advance_auto fuel parentChain f.parent_data ctr
            | .Concatenation sub_exprs =>
                match caller_parent_data with
                | .Index i =>
                    if h : sub_exprs.length ≤ i + 1 then
                      match parentChain with
                      | [] => .err (.Message "Concatenation without parent")
                      | _ :: _ => advance_auto fuel parentChain f.parent_data ctr
                    else
                      resolve_to_terminals fuel
                        (⟨ctr, sub_exprs.get ⟨i + 1, by omega⟩, .Index (i + 1)⟩ :: node)
                        (ctr + 1)
                | _ => .err (.Message "Tried to advance Concatenation without index")
            | .Alternatives _ =>
                match parentChain with
                | [] => .err (.Message "Alternatives or Optional lack parent")
                | _ :: _ => advance_auto fuel parentChain f.parent_data ctr
            | .Optional _ =>
                match parentChain with
                | [] => .err (.Message "Alternatives or Optional lack parent")
                | _ :: _ => advance_auto fuel parentChain f.parent_data ctr
            | .Many sub_expr =>
                match parentChain with
                | [] => .err (.Message "OneOrMore or Many lack parent")
                | _ :: _ =>
                    match resolve_to_terminals fuel (⟨ctr, sub_expr, .NoData⟩ :: node) (ctr + 1) with
                    | .ok (nodes1, ctr1) =>
                        match advance_auto fuel parentChain f.parent_data ctr1 with
                        | .ok (nodes2, ctr2) => .ok (nodes1 ++ nodes2, ctr2)
                        | .err e => .err e
                        | .fuelOut => .fuelOut
                    | .err e => .err e
                    | .fuelOut => .fuelOut
            | .OneOrMore sub_expr =>
                match parentChain with
                | [] => .err (.Message "OneOrMore or Many lack parent")
                | _ :: _ =>
                    match resolve_to_terminals fuel (⟨ctr, sub_expr, .NoData⟩ :: node) (ctr + 1) with
                    | .ok (nodes1, ctr1) =>
                        match advance_auto fuel parentChain f.parent_data ctr1 with
                        | .ok (nodes2, ctr2) => .ok (nodes1 ++ nodes2, ctr2)
                        | .err e => .err e
                        | .fuelOut => .fuelOut
                    | .err e => .err e
                    | .fuelOut => .fuelOut

/-- Models `resolve_to_terminals` of `gss_parser.rs`: expand a node until the
frontier points at terminals. -/
def resolve_to_terminals : Nat → GSSChain → Nat → PResult (List GSSChain × Nat)
  | 0, _, _ => .fuelOut
  | fuel + 1, node, ctr =>
      match node with
      | [] => .err (.Message "model: empty chain")
      | f :: _ =>
          match f.expr with
          | .Terminal _ => .ok ([node], ctr)
          | .RuleName name =>
              match p.get name with
              | some rule_expr =>
                  resolve_to_terminals fuel (⟨ctr, rule_expr, .NoData⟩ :: node) (ctr + 1)
              | none => .err (.Message ("Cannot recognize rule " ++ name))
          | .Concatenation sub_exprs =>
              match sub_exprs with
              | [] => .err (.Message "panic: index out of bounds")
              | e0 :: _ =>
                  resolve_to_terminals fuel (⟨ctr, e0, .Index 0⟩ :: node) (ctr + 1)
          | .Alternatives sub_exprs => resolve_list fuel sub_exprs node ctr
          | .Many _ => advance_auto fuel node .NoData ctr
          | .Optional sub_expr =>
              match resolve_to_terminals fuel (⟨ctr, sub_expr, .NoData⟩ :: node) (ctr + 1) with
              | .ok (nodes1, ctr1) =>
                  match advance_auto fuel node .NoData ctr1 with
                  | .ok (nodes2, ctr2) => .ok (nodes1 ++ nodes2, ctr2)
                  | .err e => .err e
                  | .fuelOut => .fuelOut
              | .err e => .err e
              | .fuelOut => .fuelOut
          | .OneOrMore sub_expr =>
              resolve_to_terminals fuel (⟨ctr, sub_expr, .NoData⟩ :: node) (ctr + 1)

/-- The iteration over the children of `Alternatives` inside
`resolve_to_terminals`. -/
def resolve_list : Nat → List RuleExpression → GSSChain → Nat → PResult (List GSSChain × Nat)
  | 0, _, _, _ => .fuelOut
  | _ + 1, [], _, ctr => .ok ([], ctr)
  | fuel + 1, e :: rest, node, ctr =>
      match resolve_to_terminals fuel (⟨ctr, e, .NoData⟩ :: node) (ctr + 1) with
      | .ok (nodes1, ctr1) =>
          match resolve_list fuel rest node ctr1 with
          | .ok (nodes2, ctr2) => .ok (nodes1 ++ nodes2, ctr2)
          | .err e => .err e
          | .fuelOut => .fuelOut
      | .err e => .err e
      | .fuelOut => .fuelOut

end

/-- Models `advance_token` of `gss_parser.rs` (the Rust message typo
"expresison" is kept). -/
def advance_token (tmatches : String → T → Bool) (fuel : Nat) (node : GSSChain) (tok : T)
    (ctr : Nat) : PResult (List GSSChain × Nat) :=
  if pdataOf node = .Done then .ok ([], ctr)
  else
    match node with
    | [] => .err (.Message "model: empty chain")
    | f :: parentChain =>
        match f.expr with
        | .Terminal token_type =>
            if tmatches token_type tok then
              match parentChain with
              | [] => .err (.Message "Terminal Expression has no parent")
              | _ :: _ => advance_auto p fuel parentChain f.parent_data ctr
            else .ok ([], ctr)
        | _ => .err (.Message "Tried to feed token to non terminal expresison")

/-- Models `GSSLink`: a node and the links that lead to it. -/
inductive GSSLink where
  | mk (node : GSSChain) (prev : List GSSLink)

/-- The node of a link. -/
def GSSLink.node : GSSLink → GSSChain
  | .mk n _ => n

/-- The predecessors of a link. -/
def GSSLink.prev : GSSLink → List GSSLink
  | .mk _ prevs => prevs

/-- Models the `std::iter::successors` walk of `get_backtrace` followed by the
reversal: the node sequence from the origin of the `prev[0]` chain to the link
itself. -/
def GSSLink.trace : GSSLink → List GSSChain
  | .mk n [] => [n]
  | .mk n (l :: _) => GSSLink.trace l ++ [n]

/-- The filter `matches!(link.node.parent_data, Done)`. -/
def isDoneLink (l : GSSLink) : Bool :=
  match pdataOf l.node with
  | .Done => true
  | _ => false

/-- The slice `backtrace[1..backtrace.len()-1]` that `get_backtrace` takes of
the reversed walk; on a trace shorter than 2 the Rust slice would panic. -/
def backtrace_of (l : GSSLink) : PResult (List GSSChain) :=
  let bt := GSSLink.trace l
  if bt.length < 2 then .err (.Message "panic: slice out of range")
  else .ok ((bt.drop 1).dropLast)

/-- Models `get_backtrace` of `gss_parser.rs` (including the "gss initialized"
message of the source). -/
def get_backtrace (gss : List (List GSSLink)) : PResult (List GSSChain) :=
  match gss.getLast? with
  | none => .err (.Message "gss initialized")
  | some last =>
      match last.filter isDoneLink with
      | [] => .err (.Message "Unsuccessful Parse...")
      | [l] => backtrace_of l
      | _ => .err (.Message "Ambiguous Parse...")

/-- A child of an intermediate GSS rule node: a consumed token, or a shared
reference to the intermediate rule node created for the GSS node with this id
(modelling the `Rc<RefCell<..>>` aliases held in `subtrees`). -/
inductive IChild (T : Type) where
  | tok (t : T)
  | ref (id : Nat)
  deriving Repr

/-- The payload of an intermediate GSS `RuleNode`. -/
structure IEntry (T : Type) where
  rule_name : String
  subexpressions : List (IChild T)
  deriving Repr

/-- The `subtrees` map of `backtrace_to_tree`, keyed by GSS node identity. -/
abbrev Arena (T : Type) := List (Nat × IEntry T)

/-- `subtrees.get(..)`. -/
def arenaGet {T : Type} (a : Arena T) (id : Nat) : Option (IEntry T) := a.lookup id

/-- `subtrees.insert(..)`. -/
def arenaInsert {T : Type} (a : Arena T) (id : Nat) (e : IEntry T) : Arena T := (id, e) :: a

/-- `subexpressions.push(curr_subtree)` on the entry with the given id, through
the shared `RefCell`. -/
def arenaPush {T : Type} : Arena T → Nat → IChild T → Arena T
  | [], _, _ => []
  | (k, e) :: rest, id, c =>
      if k = id then (k, ⟨e.rule_name, e.subexpressions ++ [c]⟩) :: arenaPush rest id c
      else (k, e) :: arenaPush rest id c

/-- Models one run of the `while let Some(parent) = curr_node.parent` loop of
`backtrace_to_tree` for one token-consuming node: `curr` is `curr_subtree`,
`root?` is the `root` variable (an alias of an arena entry, kept as its id). -/
def ascend {T : Type} : Arena T → Option Nat → IChild T → GSSChain →
    PResult (Arena T × Option Nat)
  | a, root?, _, [] => .ok (a, root?)
  | a, root?, _, [_] => .ok (a, root?)
  | a, root?, curr, _f :: parent :: rest =>
      match parent.expr with
      | .RuleName name =>
          match arenaGet a parent.id with
          | some _ => .ok (arenaPush a parent.id curr, root?)
          | none =>
              let a2 := arenaPush (arenaInsert a parent.id ⟨name, []⟩) parent.id curr
              if rest.isEmpty then
                match arenaGet a2 parent.id with
                | some _ => ascend a2 (some parent.id) (.ref parent.id) (parent :: rest)
                | none => .err (.Message "panic: subtree not found")
              else ascend a2 root? (.ref parent.id) (parent :: rest)
      | _ =>
          if rest.isEmpty then
            match arenaGet a parent.id with
            | some _ => ascend a (some parent.id) curr (parent :: rest)
            | none => .err (.Message "panic: subtree not found")
          else ascend a root? curr (parent :: rest)

/-- Models the `for (node, token)` loop of `backtrace_to_tree`. -/
def bt_loop {T : Type} : List (GSSChain × T) → Arena T → Option Nat →
    PResult (Arena T × Option Nat)
  | [], a, root? => .ok (a, root?)
  | (node, token) :: rest, a, root? =>
      match node with
      | ⟨_, .Terminal _, _⟩ :: _ =>
          match ascend a root? (.tok token) node with
          | .ok (a1, root1) => bt_loop rest a1 root1
          | .err e => .err e
          | .fuelOut => .fuelOut
      | _ => .err (.Message "Non Terminal in backtrace")

mutual

/-- Models the GSS `intermediate_to_final`, resolving shared references
through the arena; `fuel` bounds the dereferencing depth. -/
def intermediate_to_final : Nat → Arena T → IChild T → PResult (SyntaxTree T)
  | 0, _, _ => .fuelOut
  | _ + 1, _, .tok t => .ok (.TokenNode t)
  | fuel + 1, a, .ref id =>
      match arenaGet a id with
      | none => .err (.Message "panic: dangling subtree reference")
      | some e =>
          match i2f_list fuel a e.subexpressions with
          | .ok subs => .ok (.RuleNode e.rule_name subs)
          | .err er => .err er
          | .fuelOut => .fuelOut

/-- `intermediate_to_final` over a list of children. -/
def i2f_list : Nat → Arena T → List (IChild T) → PResult (List (SyntaxTree T))
  | 0, _, _ => .fuelOut
  | _ + 1, _, [] => .ok []
  | fuel + 1, a, c :: cs =>
      match intermediate_to_final fuel a c with
      | .ok t =>
          match i2f_list fuel a cs with
          | .ok ts => .ok (t :: ts)
          | .err er => .err er
          | .fuelOut => .fuelOut
      | .err er => .err er
      | .fuelOut => .fuelOut

end

/-- Models `backtrace_to_tree` of `gss_parser.rs`. -/
def backtrace_to_tree (fuel : Nat) (backtrace : List GSSChain) (tokens : List T) :
    PResult (SyntaxTree T) :=
  if backtrace.length ≠ tokens.length then
    .err (.Message "Backtrace and token stream have different lengths")
  else
    match bt_loop (backtrace.zip tokens) [] none with
    | .ok (a, some root_id) => intermediate_to_final fuel a (.ref root_id)
    | .ok (_, none) => .err (.Message "No root found at end of parsing")
    | .err e => .err e
    | .fuelOut => .fuelOut

/-- Models the inner `for link in gss.last()` loop of `gss_parse_tokens`. -/
def layer_step (tmatches : String → T → Bool) (fuel : Nat) (tok : T) :
    List GSSLink → Nat → PResult (List GSSLink × Nat)
  | [], ctr => .ok ([], ctr)
  | link :: rest, ctr =>
      match advance_token p tmatches fuel (GSSLink.node link) tok ctr with
      | .ok (nodes, ctr1) =>
          match layer_step tmatches fuel tok rest ctr1 with
          | .ok (links, ctr2) =>
              .ok (nodes.map (fun n => GSSLink.mk n [link]) ++ links, ctr2)
          | .err e => .err e
          | .fuelOut => .fuelOut
      | .err e => .err e
      | .fuelOut => .fuelOut

/-- Models the `for token in &tokens` loop of `gss_parse_tokens`. -/
def gss_loop (tmatches : String → T → Bool) (fuel : Nat) :
    List T → List (List GSSLink) → Nat → PResult (List (List GSSLink) × Nat)
  | [], gss, ctr => .ok (gss, ctr)
  | tok :: toks, gss, ctr =>
      match gss.getLast? with
      | none => .err (.Message "gss uninitialized")
      | some lastLayer =>
          match layer_step p tmatches fuel tok lastLayer ctr with
          | .ok (next, ctr1) => gss_loop tmatches fuel toks (gss ++ [next]) ctr1
          | .err e => .err e
          | .fuelOut => .fuelOut

/-- Models `gss_parse_tokens` of `gss_parser.rs`.  The synthesized root node
`RuleName(start_rule)` gets allocation id 0 and the counter starts at 1. -/
def gss_parse_tokens (tmatches : String → T → Bool) (tokens : List T)
    (start_rule : String) (fuel : Nat) : PResult (SyntaxTree T) :=
  let root_node : GSSChain := [⟨0, .RuleName start_rule, .NoData⟩]
  let root_link := GSSLink.mk root_node []
  match resolve_to_terminals p fuel root_node 1 with
  | .ok (nodes, ctr) =>
      match gss_loop p tmatches fuel tokens
          [nodes.map (fun n => GSSLink.mk n [root_link])] ctr with
      | .ok (gss, _) =>
          match get_backtrace gss with
          | .ok backtrace => backtrace_to_tree fuel backtrace tokens
          | .err e => .err e
          | .fuelOut => .fuelOut
      | .err e => .err e
      | .fuelOut => .fuelOut
  | .err e => .err e
  | .fuelOut => .fuelOut

/-- A chain whose head allocation points at a `Terminal` expression. -/
def pointsAtTerminal : GSSChain → Bool
  | ⟨_, .Terminal _, _⟩ :: _ => true
  | _ => false

end GSS

/-! ## Claim C3: the final-layer trichotomy of `get_backtrace` -/

/-- C3: after all tokens are processed, `get_backtrace` looks at the links of
the last layer whose node has `parent_data = Done`: none of them is an
unsuccessful-parse error, two or more an ambiguity error, and exactly one
yields the backtrace of that link (a successful parse when the walk is long
enough to hold the root and the `Done` node). -/
theorem claim_c3_done_link_trichotomy (gss : List (List GSS.GSSLink))
    (last : List GSS.GSSLink) (h : gss.getLast? = some last) :
    (last.filter GSS.isDoneLink = [] →
      GSS.get_backtrace gss = .err (.Message "Unsuccessful Parse...")) ∧
    (∀ l, last.filter GSS.isDoneLink = [l] →
      GSS.get_backtrace gss = GSS.backtrace_of l) ∧
    (∀ l, last.filter GSS.isDoneLink = [l] → 2 ≤ (GSS.GSSLink.trace l).length →
      GSS.get_backtrace gss = .ok (((GSS.GSSLink.trace l).drop 1).dropLast)) ∧
    (2 ≤ (last.filter GSS.isDoneLink).length →
      GSS.get_backtrace gss = .err (.Message "Ambiguous Parse...")) := by
  refine ⟨fun h0 => ?_, fun l h1 => ?_, fun l h1 h2 => ?_, fun h2 => ?_⟩
  · simp only [GSS.get_backtrace, h, h0]
  · simp only [GSS.get_backtrace, h, h1]
  · simp only [GSS.get_backtrace, h, h1, GSS.backtrace_of]
    rw [if_neg (by omega)]
  · rcases hf : last.filter GSS.isDoneLink with _ | ⟨a, _ | ⟨b, rest⟩⟩
    · rw [hf] at h2; simp at h2
    · rw [hf] at h2; simp at h2
    · simp only [GSS.get_backtrace, h, hf]

/-- Witness for C3: a one-layer GSS with a single `Done` link produces the
backtrace of that link. -/
theorem claim_c3_witness :
    GSS.get_backtrace
        [[GSS.GSSLink.mk [⟨1, .RuleName "S", .Done⟩]
            [GSS.GSSLink.mk [⟨0, .RuleName "S", .NoData⟩] []]]] =
      .ok ([] : List GSS.GSSChain) :=
  (claim_c3_done_link_trichotomy
      [[GSS.GSSLink.mk [⟨1, .RuleName "S", .Done⟩]
          [GSS.GSSLink.mk [⟨0, .RuleName "S", .NoData⟩] []]]]
      [GSS.GSSLink.mk [⟨1, .RuleName "S", .Done⟩]
          [GSS.GSSLink.mk [⟨0, .RuleName "S", .NoData⟩] []]] rfl).2.2.1
    (GSS.GSSLink.mk [⟨1, .RuleName "S", .Done⟩]
        [GSS.GSSLink.mk [⟨0, .RuleName "S", .NoData⟩] []]) rfl (by decide)

/-! ## Claim C6: what `resolve_to_terminals` returns -/

/-- Everything `resolve_to_terminals` and `advance_auto` return points at a
terminal, or is an accept node with `parent_data = Done`. -/
theorem resolve_terminal_or_done (p : Parser) : ∀ fuel : Nat,
    (∀ node pd ctr r, GSS.advance_auto p fuel node pd ctr = .ok r →
      ∀ n ∈ r.1, GSS.pointsAtTerminal n = true ∨ GSS.pdataOf n = .Done) ∧
    (∀ node ctr r, GSS.resolve_to_terminals p fuel node ctr = .ok r →
      ∀ n ∈ r.1, GSS.pointsAtTerminal n = true ∨ GSS.pdataOf n = .Done) ∧
    (∀ exprs node ctr r, GSS.resolve_list p fuel exprs node ctr = .ok r →
      ∀ n ∈ r.1, GSS.pointsAtTerminal n = true ∨ GSS.pdataOf n = .Done) := by
  intro fuel
  induction fuel with
  | zero =>
      refine ⟨fun node pd ctr r h => ?_, fun node ctr r h => ?_,
        fun exprs node ctr r h => ?_⟩ <;>
      simp [GSS.advance_auto, GSS.resolve_to_terminals, GSS.resolve_list] at h
  | succ fuel ih =>
      obtain ⟨iha, ihr, ihl⟩ := ih
      refine ⟨?_, ?_, ?_⟩
      · -- advance_auto
        intro node pd ctr r h n hn
        simp only [GSS.advance_auto] at h
        by_cases hpd : pd = .Done
        · rw [if_pos hpd] at h
          injection h with h1
          subst h1
          simp at hn
        · rw [if_neg hpd] at h
          cases node with
          | nil => exact absurd h (by simp)
          | cons f parentChain =>
              obtain ⟨fid, fexpr, fpd⟩ := f
              cases fexpr with
              | Terminal pat => exact absurd h (by simp)
              | RuleName name =>
                  cases parentChain with
                  | nil =>
                      simp only at h
                      injection h with h1
                      subst h1
                      simp only [List.mem_singleton] at hn
                      subst hn
                      exact Or.inr rfl
                  | cons g rest => exact iha _ _ _ _ h n hn
              | Concatenation sub_exprs =>
                  cases pd with
                  | Index i =>
                      simp only at h
                      by_cases hlen : sub_exprs.length ≤ i + 1
                      · rw [dif_pos hlen] at h
                        cases parentChain with
                        | nil => exact absurd h (by simp)
                        | cons g rest => exact iha _ _ _ _ h n hn
                      · rw [dif_neg hlen] at h
                        exact ihr _ _ _ h n hn
                  | NoData => exact absurd h (by simp)
                  | Done => exact absurd hpd (by simp)
              | Alternatives sub_exprs =>
                  cases parentChain with
                  | nil => exact absurd h (by simp)
                  | cons g rest => exact iha _ _ _ _ h n hn
              | Optional sub_expr =>
                  cases parentChain with
                  | nil => exact absurd h (by simp)
                  | cons g rest => exact iha _ _ _ _ h n hn
              | Many sub_expr =>
                  cases parentChain with
                  | nil => exact absurd h (by simp)
                  | cons g rest =>
                      simp only at h
                      cases hres : GSS.resolve_to_terminals p fuel
                          (⟨ctr, sub_expr, .NoData⟩ :: ⟨fid, .Many sub_expr, fpd⟩ :: g :: rest)
                          (ctr + 1) with
                      | ok v1 =>
                          obtain ⟨nodes1, ctr1⟩ := v1
                          simp only [hres] at h
                          cases hadv : GSS.advance_auto p fuel (g :: rest) fpd ctr1 with
                          | ok v2 =>
                              obtain ⟨nodes2, ctr2⟩ := v2
                              simp only [hadv] at h
                              injection h with h1
                              subst h1
                              rcases List.mem_append.mp hn with hm | hm
                              · exact ihr _ _ _ hres n hm
                              · exact iha _ _ _ _ hadv n hm
                          | err e2 => simp only [hadv] at h; exact absurd h (by simp)
                          | fuelOut => simp only [hadv] at h; exact absurd h (by simp)
                      | err e2 => simp only [hres] at h; exact absurd h (by simp)
                      | fuelOut => simp only [hres] at h; exact absurd h (by simp)
              | OneOrMore sub_expr =>
                  cases parentChain with
                  | nil => exact absurd h (by simp)
                  | cons g rest =>
                      simp only at h
                      cases hres : GSS.resolve_to_terminals p fuel
                          (⟨ctr, sub_expr, .NoData⟩ :: ⟨fid, .OneOrMore sub_expr, fpd⟩ :: g :: rest)
                          (ctr + 1) with
                      | ok v1 =>
                          obtain ⟨nodes1, ctr1⟩ := v1
                          simp only [hres] at h
                          cases hadv : GSS.advance_auto p fuel (g :: rest) fpd ctr1 with
                          | ok v2 =>
                              obtain ⟨nodes2, ctr2⟩ := v2
                              simp only [hadv] at h
                              injection h with h1
                              subst h1
                              rcases List.mem_append.mp hn with hm | hm
                              · exact ihr _ _ _ hres n hm
                              · exact iha _ _ _ _ hadv n hm
                          | err e2 => simp only [hadv] at h; exact absurd h (by simp)
                          | fuelOut => simp only [hadv] at h; exact absurd h (by simp)
                      | err e2 => simp only [hres] at h; exact absurd h (by simp)
                      | fuelOut => simp only [hres] at h; exact absurd h (by simp)
      · -- resolve_to_terminals
        intro node ctr r h n hn
        simp only [GSS.resolve_to_terminals] at h
        cases node with
        | nil => exact absurd h (by simp)
        | cons f rest =>
            obtain ⟨fid, fexpr, fpd⟩ := f
            cases fexpr with
            | Terminal pat =>
                simp only at h
                injection h with h1
                subst h1
                simp only [List.mem_singleton] at hn
                subst hn
                exact Or.inl rfl
            | RuleName name =>
                simp only at h
                cases hget : p.get name with
                | none => simp only [hget] at h; exact absurd h (by simp)
                | some rule_expr =>
                    simp only [hget] at h
                    exact ihr _ _ _ h n hn
            | Concatenation sub_exprs =>
                cases sub_exprs with
                | nil => exact absurd h (by simp)
                | cons e0 es => exact ihr _ _ _ h n hn
            | Alternatives sub_exprs => exact ihl _ _ _ _ h n hn
            | Many sub_expr => exact iha _ _ _ _ h n hn
            | Optional sub_expr =>
                simp only at h
                cases hres : GSS.resolve_to_terminals p fuel
                    (⟨ctr, sub_expr, .NoData⟩ :: ⟨fid, .Optional sub_expr, fpd⟩ :: rest)
                    (ctr + 1) with
                | ok v1 =>
                    obtain ⟨nodes1, ctr1⟩ := v1
                    simp only [hres] at h
                    cases hadv : GSS.advance_auto p fuel
                        (⟨fid, .Optional sub_expr, fpd⟩ :: rest) .NoData ctr1 with
                    | ok v2 =>
                        obtain ⟨nodes2, ctr2⟩ := v2
                        simp only [hadv] at h
                        injection h with h1
                        subst h1
                        rcases List.mem_append.mp hn with hm | hm
                        · exact ihr _ _ _ hres n hm
                        · exact iha _ _ _ _ hadv n hm
                    | err e2 => simp only [hadv] at h; exact absurd h (by simp)
                    | fuelOut => simp only [hadv] at h; exact absurd h (by simp)
                | err e2 => simp only [hres] at h; exact absurd h (by simp)
                | fuelOut => simp only [hres] at h; exact absurd h (by simp)
            | OneOrMore sub_expr => exact ihr _ _ _ h n hn
      · -- resolve_list
        intro exprs node ctr r h n hn
        cases exprs with
        | nil =>
            simp only [GSS.resolve_list] at h
            injection h with h1
            subst h1
            simp at hn
        | cons e es =>
            simp only [GSS.resolve_list] at h
            cases hres : GSS.resolve_to_terminals p fuel (⟨ctr, e, .NoData⟩ :: node) (ctr + 1) with
            | ok v1 =>
                obtain ⟨nodes1, ctr1⟩ := v1
                simp only [hres] at h
                cases hrl : GSS.resolve_list p fuel es node ctr1 with
                | ok v2 =>
                    obtain ⟨nodes2, ctr2⟩ := v2
                    simp only [hrl] at h
                    injection h with h1
                    subst h1
                    rcases List.mem_append.mp hn with hm | hm
                    · exact ihr _ _ _ hres n hm
                    · exact ihl _ _ _ _ hrl n hm
                | err e2 => simp only [hrl] at h; exact absurd h (by simp)
                | fuelOut => simp only [hrl] at h; exact absurd h (by simp)
            | err e2 => simp only [hres] at h; exact absurd h (by simp)
            | fuelOut => simp only [hres] at h; exact absurd h (by simp)

/-- Counterexample to C6 as stated: on the grammar `S : "a"* ;`, resolving the
seeded root returns, besides the terminal frontier, an accept node whose
expression is `RuleName "S"` — not a Terminal. -/
theorem claim_c6_counterexample :
    GSS.resolve_to_terminals ⟨[("S", .Many (.Terminal "a"))]⟩ 10
        [⟨0, .RuleName "S", .NoData⟩] 1 =
      .ok ([[⟨2, .Terminal "a", .NoData⟩, ⟨1, .Many (.Terminal "a"), .NoData⟩,
             ⟨0, .RuleName "S", .NoData⟩],
            [⟨3, .RuleName "S", .Done⟩]], 4) ∧
    GSS.pointsAtTerminal [⟨3, .RuleName "S", .Done⟩] = false :=
  ⟨rfl, rfl⟩

/-- C6 amended: every node returned by `resolve_to_terminals` either points at
a `Terminal` expression or is an accept node with `parent_data = Done` (the
node `advance_auto` creates when an empty match completes the whole parse). -/
theorem claim_c6_amended (p : Parser) (fuel : Nat) (node : GSS.GSSChain) (ctr : Nat)
    (r : List GSS.GSSChain × Nat)
    (h : GSS.resolve_to_terminals p fuel node ctr = .ok r) :
    ∀ n ∈ r.1, GSS.pointsAtTerminal n = true ∨ GSS.pdataOf n = .Done :=
  (resolve_terminal_or_done p fuel).2.1 node ctr r h

/-- Witness for the amended C6 at the concrete accept node of the
counterexample grammar. -/
theorem claim_c6_witness :
    GSS.pointsAtTerminal [(⟨3, .RuleName "S", .Done⟩ : GSS.GSSFrame)] = true ∨
    GSS.pdataOf [(⟨3, .RuleName "S", .Done⟩ : GSS.GSSFrame)] = .Done :=
  claim_c6_amended ⟨[("S", .Many (.Terminal "a"))]⟩ 10 [⟨0, .RuleName "S", .NoData⟩] 1
    ([[⟨2, .Terminal "a", .NoData⟩, ⟨1, .Many (.Terminal "a"), .NoData⟩,
       ⟨0, .RuleName "S", .NoData⟩],
      [⟨3, .RuleName "S", .Done⟩]], 4) rfl
    [⟨3, .RuleName "S", .Done⟩] (by simp)

/-! ## Shape of the chains produced by the GSS construction

`StepOut p ctr node ctr' out` describes one advance step of the GSS engine
performed while the allocation counter moved from `ctr` to `ctr'`: the produced
chain is a freshly allocated descent grafted onto a non-empty suffix of the
source chain, or a freshly allocated accept (`Done`) node carrying the
expression of the root of the source chain. -/

namespace GSS

/-- Every `RuleName` this frame could point at is defined in the parser. -/
def FrameNamesDef (p : Parser) (f : GSSFrame) : Prop :=
  ∀ nm, f.expr = .RuleName nm → (p.get nm).isSome = true

/-- The relation between a chain of the current frontier and a chain produced
from it by `advance_token`/`resolve_to_terminals` (see above). -/
def StepOut (p : Parser) (ctr : Nat) (node : GSSChain) (ctr' : Nat) (out : GSSChain) : Prop :=
  (∃ fresh A, out = fresh ++ A ∧ A ≠ [] ∧ List.IsSuffix A node ∧
    (∀ f ∈ fresh, ctr ≤ f.id ∧ f.id < ctr' ∧ FrameNamesDef p f) ∧
    List.Pairwise (fun f g => g.id < f.id) fresh) ∨
  (∃ k g, node.getLast? = some g ∧ out = [⟨k, g.expr, .Done⟩] ∧ ctr ≤ k ∧ k < ctr')

theorem stepOut_weaken {p : Parser} {ctr ctr' c0 c1 : Nat} {node out : GSSChain}
    (h : StepOut p ctr node ctr' out) (h0 : c0 ≤ ctr) (h1 : ctr' ≤ c1) :
    StepOut p c0 node c1 out := by
  rcases h with ⟨fresh, A, rfl, hAne, hAsuf, hbounds, hpair⟩ | ⟨k, g, hg, rfl, hk1, hk2⟩
  · refine Or.inl ⟨fresh, A, rfl, hAne, hAsuf, fun f hf => ?_, hpair⟩
    obtain ⟨hb1, hb2, hb3⟩ := hbounds f hf
    exact ⟨by omega, by omega, hb3⟩
  · exact Or.inr ⟨k, g, hg, rfl, by omega, by omega⟩

theorem stepOut_id (p : Parser) {ctr ctr' : Nat} {node : GSSChain}
    (hne : node ≠ []) (_hctr : ctr ≤ ctr') : StepOut p ctr node ctr' node :=
  Or.inl ⟨[], node, rfl, hne, List.suffix_refl node, by simp, by simp⟩

/-- Lift a step over a freshly consed frame back to the underlying chain. -/
theorem stepOut_cons_lift {p : Parser} {c c' : Nat} {out node : GSSChain} {fnew : GSSFrame}
    (h : StepOut p (c + 1) (fnew :: node) c' out)
    (hne : node ≠ []) (hid : fnew.id = c) (hnd : FrameNamesDef p fnew)
    (hcc : c + 1 ≤ c') :
    StepOut p c node c' out := by
  rcases h with ⟨fresh, A, rfl, hAne, hAsuf, hbounds, hpair⟩ | ⟨k, g, hg, rfl, hk1, hk2⟩
  · rcases List.suffix_cons_iff.mp hAsuf with hfull | htail
    · subst hfull
      refine Or.inl ⟨fresh ++ [fnew], node, by simp, hne, List.suffix_refl node, ?_, ?_⟩
      · intro f hf
        rcases List.mem_append.mp hf with hf | hf
        · obtain ⟨hb1, hb2, hb3⟩ := hbounds f hf
          exact ⟨by omega, hb2, hb3⟩
        · rw [List.mem_singleton] at hf
          subst hf
          exact ⟨by omega, by omega, hnd⟩
      · rw [List.pairwise_append]
        refine ⟨hpair, by simp, ?_⟩
        intro a ha b hb
        rw [List.mem_singleton] at hb
        subst hb
        obtain ⟨hb1, _, _⟩ := hbounds a ha
        omega
    · refine Or.inl ⟨fresh, A, rfl, hAne, htail, fun f hf => ?_, hpair⟩
      obtain ⟨hb1, hb2, hb3⟩ := hbounds f hf
      exact ⟨by omega, hb2, hb3⟩
  · refine Or.inr ⟨k, g, ?_, rfl, by omega, hk2⟩
    cases node with
    | nil => exact absurd rfl hne
    | cons b l => rw [List.getLast?_cons_cons] at hg; exact hg

/-- Lift a step over the parent chain to the full chain. -/
theorem stepOut_tail_lift {p : Parser} {c c' : Nat} {out parentChain : GSSChain}
    {f : GSSFrame} (hpne : parentChain ≠ [])
    (h : StepOut p c parentChain c' out) : StepOut p c (f :: parentChain) c' out := by
  rcases h with ⟨fresh, A, rfl, hAne, hAsuf, hbounds, hpair⟩ | ⟨k, g, hg, rfl, hk1, hk2⟩
  · exact Or.inl ⟨fresh, A, rfl, hAne, hAsuf.trans (List.suffix_cons f parentChain),
      hbounds, hpair⟩
  · refine Or.inr ⟨k, g, ?_, rfl, hk1, hk2⟩
    cases parentChain with
    | nil => exact absurd rfl hpne
    | cons b l => rw [List.getLast?_cons_cons]; exact hg

/-- A successful `resolve_to_terminals` on a chain proves that any `RuleName`
its head points at is defined (the lookup is the first thing the function
does). -/
theorem resolve_ok_head_namesDef {p : Parser} {fuel ctr : Nat} {f : GSSFrame}
    {rest : GSSChain} {r : List GSSChain × Nat}
    (h : resolve_to_terminals p fuel (f :: rest) ctr = .ok r) : FrameNamesDef p f := by
  intro nm hnm
  cases fuel with
  | zero => simp [resolve_to_terminals] at h
  | succ fuel =>
      obtain ⟨fid, fexpr, fpd⟩ := f
      simp only at hnm
      subst hnm
      simp only [resolve_to_terminals] at h
      cases hget : p.get nm with
      | none => simp only [hget] at h; exact absurd h (by simp)
      | some rule_expr => simp [hget]

/-- The main shape lemma: every chain an `.ok` run of `advance_auto`,
`resolve_to_terminals` or `resolve_list` produces is a `StepOut` of its input
chain, and the allocation counter is monotone. -/
theorem gss_step_shape (p : Parser) : ∀ fuel : Nat,
    (∀ node pd ctr outs ctr', advance_auto p fuel node pd ctr = .ok (outs, ctr') →
      node ≠ [] → ctr ≤ ctr' ∧ ∀ out ∈ outs, StepOut p ctr node ctr' out) ∧
    (∀ node ctr outs ctr', resolve_to_terminals p fuel node ctr = .ok (outs, ctr') →
      node ≠ [] → ctr ≤ ctr' ∧ ∀ out ∈ outs, StepOut p ctr node ctr' out) ∧
    (∀ exprs node ctr outs ctr', resolve_list p fuel exprs node ctr = .ok (outs, ctr') →
      node ≠ [] → ctr ≤ ctr' ∧ ∀ out ∈ outs, StepOut p ctr node ctr' out) := by
  intro fuel
  induction fuel with
  | zero =>
      refine ⟨fun node pd ctr outs ctr' h => ?_, fun node ctr outs ctr' h => ?_,
        fun exprs node ctr outs ctr' h => ?_⟩ <;>
      simp [advance_auto, resolve_to_terminals, resolve_list] at h
  | succ fuel ih =>
      obtain ⟨iha, ihr, ihl⟩ := ih
      refine ⟨?_, ?_, ?_⟩
      · -- advance_auto
        intro node pd ctr outs ctr' h hne
        simp only [advance_auto] at h
        by_cases hpd : pd = .Done
        · rw [if_pos hpd] at h
          injection h with h1
          injection h1 with ha hb
          subst ha; subst hb
          exact ⟨le_rfl, by simp⟩
        · rw [if_neg hpd] at h
          cases node with
          | nil => exact absurd h (by simp)
          | cons f parentChain =>
              obtain ⟨fid, fexpr, fpd⟩ := f
              cases fexpr with
              | Terminal pat => exact absurd h (by simp)
              | RuleName name =>
                  cases parentChain with
                  | nil =>
                      simp only at h
                      injection h with h1
                      injection h1 with ha hb
                      subst ha; subst hb
                      refine ⟨by omega, ?_⟩
                      intro out hout
                      rw [List.mem_singleton] at hout
                      subst hout
                      exact Or.inr ⟨ctr, ⟨fid, .RuleName name, fpd⟩, rfl, rfl, le_rfl, by omega⟩
                  | cons g rest =>
                      obtain ⟨hmono, houts⟩ := iha _ _ _ _ _ h (by simp)
                      exact ⟨hmono, fun out hout =>
                        stepOut_tail_lift (by simp) (houts out hout)⟩
              | Concatenation sub_exprs =>
                  cases pd with
                  | Index i =>
                      simp only at h
                      by_cases hlen : sub_exprs.length ≤ i + 1
                      · rw [dif_pos hlen] at h
                        cases parentChain with
                        | nil => exact absurd h (by simp)
                        | cons g rest =>
                            obtain ⟨hmono, houts⟩ := iha _ _ _ _ _ h (by simp)
                            exact ⟨hmono, fun out hout =>
                              stepOut_tail_lift (by simp) (houts out hout)⟩
                      · rw [dif_neg hlen] at h
                        have hnd := resolve_ok_head_namesDef h
                        obtain ⟨hmono, houts⟩ := ihr _ _ _ _ h (by simp)
                        refine ⟨by omega, fun out hout => ?_⟩
                        exact stepOut_cons_lift (houts out hout) (by simp) rfl hnd hmono
                  | NoData => exact absurd h (by simp)
                  | Done => exact absurd rfl hpd
              | Alternatives sub_exprs =>
                  cases parentChain with
                  | nil => exact absurd h (by simp)
                  | cons g rest =>
                      obtain ⟨hmono, houts⟩ := iha _ _ _ _ _ h (by simp)
                      exact ⟨hmono, fun out hout =>
                        stepOut_tail_lift (by simp) (houts out hout)⟩
              | Optional sub_expr =>
                  cases parentChain with
                  | nil => exact absurd h (by simp)
                  | cons g rest =>
                      obtain ⟨hmono, houts⟩ := iha _ _ _ _ _ h (by simp)
                      exact ⟨hmono, fun out hout =>
                        stepOut_tail_lift (by simp) (houts out hout)⟩
              | Many sub_expr =>
                  cases parentChain with
                  | nil => exact absurd h (by simp)
                  | cons g rest =>
                      simp only at h
                      cases hres : resolve_to_terminals p fuel
                          (⟨ctr, sub_expr, .NoData⟩ :: ⟨fid, .Many sub_expr, fpd⟩ :: g :: rest)
                          (ctr + 1) with
                      | ok v1 =>
                          obtain ⟨nodes1, ctr1⟩ := v1
                          simp only [hres] at h
                          cases hadv : advance_auto p fuel (g :: rest) fpd ctr1 with
                          | ok v2 =>
                              obtain ⟨nodes2, ctr2⟩ := v2
                              simp only [hadv] at h
                              injection h with h1
                              injection h1 with ha hb
                              subst ha; subst hb
                              have hnd := resolve_ok_head_namesDef hres
                              obtain ⟨hm1, ho1⟩ := ihr _ _ _ _ hres (by simp)
                              obtain ⟨hm2, ho2⟩ := iha _ _ _ _ _ hadv (by simp)
                              refine ⟨by omega, fun out hout => ?_⟩
                              rcases List.mem_append.mp hout with hm | hm
                              · exact stepOut_weaken
                                  (stepOut_cons_lift (ho1 out hm) (by simp) rfl hnd hm1)
                                  le_rfl hm2
                              · exact stepOut_weaken
                                  (stepOut_tail_lift (by simp) (ho2 out hm)) (by omega) le_rfl
                          | err e2 => simp only [hadv] at h; exact absurd h (by simp)
                          | fuelOut => simp only [hadv] at h; exact absurd h (by simp)
                      | err e2 => simp only [hres] at h; exact absurd h (by simp)
                      | fuelOut => simp only [hres] at h; exact absurd h (by simp)
              | OneOrMore sub_expr =>
                  cases parentChain with
                  | nil => exact absurd h (by simp)
                  | cons g rest =>
                      simp only at h
                      cases hres : resolve_to_terminals p fuel
                          (⟨ctr, sub_expr, .NoData⟩ ::
                            ⟨fid, .OneOrMore sub_expr, fpd⟩ :: g :: rest)
                          (ctr + 1) with
                      | ok v1 =>
                          obtain ⟨nodes1, ctr1⟩ := v1
                          simp only [hres] at h
                          cases hadv : advance_auto p fuel (g :: rest) fpd ctr1 with
                          | ok v2 =>
                              obtain ⟨nodes2, ctr2⟩ := v2
                              simp only [hadv] at h
                              injection h with h1
                              injection h1 with ha hb
                              subst ha; subst hb
                              have hnd := resolve_ok_head_namesDef hres
                              obtain ⟨hm1, ho1⟩ := ihr _ _ _ _ hres (by simp)
                              obtain ⟨hm2, ho2⟩ := iha _ _ _ _ _ hadv (by simp)
                              refine ⟨by omega, fun out hout => ?_⟩
                              rcases List.mem_append.mp hout with hm | hm
                              · exact stepOut_weaken
                                  (stepOut_cons_lift (ho1 out hm) (by simp) rfl hnd hm1)
                                  le_rfl hm2
                              · exact stepOut_weaken
                                  (stepOut_tail_lift (by simp) (ho2 out hm)) (by omega) le_rfl
                          | err e2 => simp only [hadv] at h; exact absurd h (by simp)
                          | fuelOut => simp only [hadv] at h; exact absurd h (by simp)
                      | err e2 => simp only [hres] at h; exact absurd h (by simp)
                      | fuelOut => simp only [hres] at h; exact absurd h (by simp)
      · -- resolve_to_terminals
        intro node ctr outs ctr' h hne
        simp only [resolve_to_terminals] at h
        cases node with
        | nil => exact absurd h (by simp)
        | cons f rest =>
            obtain ⟨fid, fexpr, fpd⟩ := f
            cases fexpr with
            | Terminal pat =>
                simp only at h
                injection h with h1
                injection h1 with ha hb
                subst ha; subst hb
                refine ⟨le_rfl, ?_⟩
                intro out hout
                rw [List.mem_singleton] at hout
                subst hout
                exact stepOut_id p (by simp) le_rfl
            | RuleName name =>
                simp only at h
                cases hget : p.get name with
                | none => simp only [hget] at h; exact absurd h (by simp)
                | some rule_expr =>
                    simp only [hget] at h
                    obtain ⟨hmono, houts⟩ := ihr _ _ _ _ h (by simp)
                    refine ⟨by omega, fun out hout => ?_⟩
                    refine stepOut_cons_lift (houts out hout) (by simp) rfl ?_ hmono
                    exact resolve_ok_head_namesDef h
            | Concatenation sub_exprs =>
                cases sub_exprs with
                | nil => exact absurd h (by simp)
                | cons e0 es =>
                    simp only at h
                    obtain ⟨hmono, houts⟩ := ihr _ _ _ _ h (by simp)
                    refine ⟨by omega, fun out hout => ?_⟩
                    refine stepOut_cons_lift (houts out hout) (by simp) rfl ?_ hmono
                    exact resolve_ok_head_namesDef h
            | Alternatives sub_exprs => exact ihl _ _ _ _ _ h hne
            | Many sub_expr => exact iha _ _ _ _ _ h hne
            | Optional sub_expr =>
                simp only at h
                cases hres : resolve_to_terminals p fuel
                    (⟨ctr, sub_expr, .NoData⟩ :: ⟨fid, .Optional sub_expr, fpd⟩ :: rest)
                    (ctr + 1) with
                | ok v1 =>
                    obtain ⟨nodes1, ctr1⟩ := v1
                    simp only [hres] at h
                    cases hadv : advance_auto p fuel
                        (⟨fid, .Optional sub_expr, fpd⟩ :: rest) .NoData ctr1 with
                    | ok v2 =>
                        obtain ⟨nodes2, ctr2⟩ := v2
                        simp only [hadv] at h
                        injection h with h1
                        injection h1 with ha hb
                        subst ha; subst hb
                        have hnd := resolve_ok_head_namesDef hres
                        obtain ⟨hm1, ho1⟩ := ihr _ _ _ _ hres (by simp)
                        obtain ⟨hm2, ho2⟩ := iha _ _ _ _ _ hadv (by simp)
                        refine ⟨by omega, fun out hout => ?_⟩
                        rcases List.mem_append.mp hout with hm | hm
                        · exact stepOut_weaken
                            (stepOut_cons_lift (ho1 out hm) (by simp) rfl hnd hm1)
                            le_rfl hm2
                        · exact stepOut_weaken (ho2 out hm) (by omega) le_rfl
                    | err e2 => simp only [hadv] at h; exact absurd h (by simp)
                    | fuelOut => simp only [hadv] at h; exact absurd h (by simp)
                | err e2 => simp only [hres] at h; exact absurd h (by simp)
                | fuelOut => simp only [hres] at h; exact absurd h (by simp)
            | OneOrMore sub_expr =>
                simp only at h
                obtain ⟨hmono, houts⟩ := ihr _ _ _ _ h (by simp)
                refine ⟨by omega, fun out hout => ?_⟩
                refine stepOut_cons_lift (houts out hout) (by simp) rfl ?_ hmono
                exact resolve_ok_head_namesDef h
      · -- resolve_list
        intro exprs node ctr outs ctr' h hne
        cases exprs with
        | nil =>
            simp only [resolve_list] at h
            injection h with h1
            injection h1 with ha hb
            subst ha; subst hb
            exact ⟨le_rfl, by simp⟩
        | cons e es =>
            simp only [resolve_list] at h
            cases hres : resolve_to_terminals p fuel (⟨ctr, e, .NoData⟩ :: node) (ctr + 1) with
            | ok v1 =>
                obtain ⟨nodes1, ctr1⟩ := v1
                simp only [hres] at h
                cases hrl : resolve_list p fuel es node ctr1 with
                | ok v2 =>
                    obtain ⟨nodes2, ctr2⟩ := v2
                    simp only [hrl] at h
                    injection h with h1
                    injection h1 with ha hb
                    subst ha; subst hb
                    have hnd := resolve_ok_head_namesDef hres
                    obtain ⟨hm1, ho1⟩ := ihr _ _ _ _ hres (by simp)
                    obtain ⟨hm2, ho2⟩ := ihl _ _ _ _ _ hrl hne
                    refine ⟨by omega, fun out hout => ?_⟩
                    rcases List.mem_append.mp hout with hm | hm
                    · exact stepOut_weaken
                        (stepOut_cons_lift (ho1 out hm) hne rfl hnd hm1) le_rfl hm2
                    · exact stepOut_weaken (ho2 out hm) (by omega) le_rfl
                | err e2 => simp only [hrl] at h; exact absurd h (by simp)
                | fuelOut => simp only [hrl] at h; exact absurd h (by simp)
            | err e2 => simp only [hres] at h; exact absurd h (by simp)
            | fuelOut => simp only [hres] at h; exact absurd h (by simp)

/-- Shape of an `advance_token` step: when it produces anything, its input was
a matched terminal (not an accept node), and every output is a terminal-or-done
`StepOut` of the input chain. -/
theorem advance_token_shape {T : Type} (p : Parser) (tm : String → T → Bool)
    (fuel : Nat) (node : GSSChain) (tok : T) (ctr : Nat) (outs : List GSSChain) (ctr' : Nat)
    (h : advance_token p tm fuel node tok ctr = .ok (outs, ctr')) (hne : node ≠ []) :
    ctr ≤ ctr' ∧ ∀ out ∈ outs,
      pointsAtTerminal node = true ∧ pdataOf node ≠ .Done ∧ StepOut p ctr node ctr' out ∧
      (pointsAtTerminal out = true ∨ pdataOf out = .Done) := by
  unfold advance_token at h
  by_cases hpd : pdataOf node = .Done
  · rw [if_pos hpd] at h
    injection h with h1
    injection h1 with ha hb
    subst ha; subst hb
    exact ⟨le_rfl, by simp⟩
  · rw [if_neg hpd] at h
    cases node with
    | nil => exact absurd rfl hne
    | cons f parentChain =>
        obtain ⟨fid, fexpr, fpd⟩ := f
        cases fexpr with
        | Terminal token_type =>
            simp only at h
            by_cases htm : tm token_type tok
            · rw [if_pos htm] at h
              cases parentChain with
              | nil => exact absurd h (by simp)
              | cons g rest =>
                  obtain ⟨hmono, houts⟩ := (gss_step_shape p fuel).1 _ _ _ _ _ h (by simp)
                  refine ⟨hmono, fun out hout => ⟨rfl, hpd, ?_, ?_⟩⟩
                  · exact stepOut_tail_lift (by simp) (houts out hout)
                  · exact (resolve_terminal_or_done p fuel).1 _ _ _ _ h out hout
            · rw [if_neg htm] at h
              injection h with h1
              injection h1 with ha hb
              subst ha; subst hb
              exact ⟨le_rfl, by simp⟩
        | RuleName name => exact absurd h (by simp)
        | Concatenation cs => exact absurd h (by simp)
        | Alternatives cs => exact absurd h (by simp)
        | Optional c => exact absurd h (by simp)
        | Many c => exact absurd h (by simp)
        | OneOrMore c => exact absurd h (by simp)

/-- The synthesized root node of a parse. -/
def rootFrame (start_rule : String) : GSSFrame := ⟨0, .RuleName start_rule, .NoData⟩

/-- Invariant of the `prev[0]`-walk of a live GSS link: the walk starts at the
synthesized root, and each later chain is the output of one engine step on its
predecessor, with monotone allocation counters bounded by `ctr`. -/
inductive TraceOK (p : Parser) (rootf : GSSFrame) : Nat → List GSSChain → GSSChain → Prop where
  | base (ctr : Nat) (h : rootf.id < ctr) : TraceOK p rootf ctr [[rootf]] [rootf]
  | step (ctr a b ctrOut : Nat) (tr : List GSSChain) (lastc out : GSSChain)
      (hpre : TraceOK p rootf ctr tr lastc)
      (h1 : ctr ≤ a) (h2 : a ≤ b) (h3 : b ≤ ctrOut)
      (hstep : StepOut p a lastc b out)
      (hterm : pointsAtTerminal out = true ∨ pdataOf out = .Done)
      (hpred : pdataOf lastc ≠ .Done) :
      TraceOK p rootf ctrOut (tr ++ [out]) out

theorem TraceOK.weaken {p : Parser} {rootf : GSSFrame} {ctr ctr2 : Nat}
    {tr : List GSSChain} {lastc : GSSChain}
    (h : TraceOK p rootf ctr tr lastc) (hc : ctr ≤ ctr2) : TraceOK p rootf ctr2 tr lastc := by
  revert hc
  induction h with
  | base c h1 => intro hc; exact .base ctr2 (by omega)
  | step c a b cOut tr0 last0 out0 hpre h1 h2 h3 hstep hterm hpred ih =>
      intro hc
      exact .step c a b ctr2 tr0 last0 out0 hpre h1 h2 (by omega) hstep hterm hpred

theorem traceOK_last_ne_nil {p : Parser} {rootf : GSSFrame} {ctr : Nat}
    {tr : List GSSChain} {lastc : GSSChain}
    (h : TraceOK p rootf ctr tr lastc) : lastc ≠ [] := by
  induction h with
  | base => simp
  | step c a b cOut tr0 last0 out0 hpre h1 h2 h3 hstep hterm hpred ih =>
      rcases hstep with ⟨fresh, A, rfl, hAne, _, _, _⟩ | ⟨k, g, _, rfl, _, _⟩
      · simp [hAne]
      · simp

/-- The per-chain facts carried by every chain of a live trace. -/
def ChainFacts (p : Parser) (rootf : GSSFrame) (ctr : Nat) (chain : GSSChain) : Prop :=
  chain ≠ [] ∧ (∀ f ∈ chain, f.id < ctr) ∧ (∀ f ∈ chain, f.id = 0 → f = rootf) ∧
  (∀ f ∈ chain, FrameNamesDef p f) ∧
  (chain.getLast? = some rootf ∨ ∃ k, chain = [⟨k, rootf.expr, .Done⟩])

theorem chainFacts_weaken {p : Parser} {rootf : GSSFrame} {ctr ctr2 : Nat} {chain : GSSChain}
    (h : ChainFacts p rootf ctr chain) (hc : ctr ≤ ctr2) : ChainFacts p rootf ctr2 chain := by
  obtain ⟨h1, h2, h3, h4, h5⟩ := h
  exact ⟨h1, fun f hf => by have := h2 f hf; omega, h3, h4, h5⟩

theorem traceOK_facts {p : Parser} {rootf : GSSFrame} {ctr : Nat}
    {tr : List GSSChain} {lastc : GSSChain}
    (hroot0 : rootf.id = 0) (hrootnd : FrameNamesDef p rootf)
    (h : TraceOK p rootf ctr tr lastc) :
    1 ≤ ctr ∧ (∀ chain ∈ tr, ChainFacts p rootf ctr chain) ∧
    ChainFacts p rootf ctr lastc := by
  induction h with
  | base ctr h1 =>
      have hfacts : ChainFacts p rootf ctr [rootf] := by
        refine ⟨by simp, ?_, ?_, ?_, Or.inl rfl⟩
        · intro f hf
          rw [List.mem_singleton] at hf
          subst hf
          omega
        · intro f hf _
          rw [List.mem_singleton] at hf
          exact hf
        · intro f hf
          rw [List.mem_singleton] at hf
          subst hf
          exact hrootnd
      refine ⟨by omega, ?_, hfacts⟩
      intro chain hchain
      rw [List.mem_singleton] at hchain
      subst hchain
      exact hfacts
  | step ctr a b ctrOut tr lastc out hpre h1 h2 h3 hstep hterm hpred ih =>
      obtain ⟨hc1, hall, hlastf⟩ := ih
      have hanch : lastc.getLast? = some rootf := by
        rcases hlastf.2.2.2.2 with hx | ⟨k, hk⟩
        · exact hx
        · exfalso; apply hpred; rw [hk]; rfl
      have hout : ChainFacts p rootf ctrOut out := by
        rcases hstep with ⟨fresh, A, rfl, hAne, hAsuf, hbounds, hpair⟩ | ⟨k, g, hg, rfl, hk1, hk2⟩
        · have hsub : ∀ x ∈ A, x ∈ lastc := fun x hx => hAsuf.subset hx
          obtain ⟨t, ht⟩ := hAsuf
          refine ⟨by simp [hAne], ?_, ?_, ?_, ?_⟩
          · intro f hf
            rcases List.mem_append.mp hf with hf | hf
            · have := (hbounds f hf).2.1; omega
            · have := hlastf.2.1 f (hsub f hf); omega
          · intro f hf hf0
            rcases List.mem_append.mp hf with hf | hf
            · have := (hbounds f hf).1; omega
            · exact hlastf.2.2.1 f (hsub f hf) hf0
          · intro f hf
            rcases List.mem_append.mp hf with hf | hf
            · exact (hbounds f hf).2.2
            · exact hlastf.2.2.2.1 f (hsub f hf)
          · refine Or.inl ?_
            rw [List.getLast?_append_of_ne_nil fresh hAne]
            rw [← ht] at hanch
            rw [List.getLast?_append_of_ne_nil t hAne] at hanch
            exact hanch
        · have hg2 : g = rootf := by
            rw [hanch] at hg
            exact (Option.some.inj hg).symm
          subst hg2
          refine ⟨by simp, ?_, ?_, ?_, Or.inr ⟨k, rfl⟩⟩
          · intro f hf
            rw [List.mem_singleton] at hf
            subst hf
            simp only
            omega
          · intro f hf hf0
            rw [List.mem_singleton] at hf
            subst hf
            simp only at hf0
            omega
          · intro f hf
            rw [List.mem_singleton] at hf
            subst hf
            intro nm hnm
            exact hrootnd nm hnm
      refine ⟨by omega, ?_, hout⟩
      intro chain hchain
      rcases List.mem_append.mp hchain with hm | hm
      · exact chainFacts_weaken (hall chain hm) (by omega)
      · rw [List.mem_singleton] at hm
        subst hm
        exact hout

/-- Invariant of a live link: its `prev[0]`-walk is a valid trace. -/
def LinkOK (p : Parser) (rootf : GSSFrame) (ctr : Nat) (l : GSSLink) : Prop :=
  TraceOK p rootf ctr (GSSLink.trace l) (GSSLink.node l)

theorem layer_step_inv {T : Type} (p : Parser) (tm : String → T → Bool)
    (fuel : Nat) (tok : T) (rootf : GSSFrame) :
    ∀ (links : List GSSLink) (ctr : Nat) (links' : List GSSLink) (ctr' : Nat),
      layer_step p tm fuel tok links ctr = .ok (links', ctr') →
      (∀ l ∈ links, LinkOK p rootf ctr l) →
      ctr ≤ ctr' ∧ ∀ l ∈ links', LinkOK p rootf ctr' l := by
  intro links
  induction links with
  | nil =>
      intro ctr links' ctr' h hl
      simp only [layer_step] at h
      injection h with h1
      injection h1 with ha hb
      subst ha; subst hb
      exact ⟨le_rfl, by simp⟩
  | cons link rest ih =>
      intro ctr links' ctr' h hl
      simp only [layer_step] at h
      cases hadv : advance_token p tm fuel (GSSLink.node link) tok ctr with
      | ok v1 =>
          obtain ⟨nodes, ctr1⟩ := v1
          simp only [hadv] at h
          cases hls : layer_step p tm fuel tok rest ctr1 with
          | ok v2 =>
              obtain ⟨links2, ctr2⟩ := v2
              simp only [hls] at h
              injection h with h1
              injection h1 with ha hb
              subst ha; subst hb
              have hlink := hl link (List.mem_cons_self _ _)
              have hnn : GSSLink.node link ≠ [] := traceOK_last_ne_nil hlink
              obtain ⟨hm1, houts⟩ :=
                advance_token_shape p tm fuel (GSSLink.node link) tok ctr nodes ctr1 hadv hnn
              obtain ⟨hm2, hrest⟩ := ih ctr1 links2 ctr2 hls
                (fun l hm => (hl l (List.mem_cons_of_mem _ hm)).weaken hm1)
              refine ⟨by omega, ?_⟩
              intro l' hl'
              rcases List.mem_append.mp hl' with hm | hm
              · simp only [List.mem_map] at hm
                obtain ⟨out, hout, rfl⟩ := hm
                obtain ⟨hpt, hnd, hso, hterm⟩ := houts out hout
                show TraceOK p rootf ctr2 (GSSLink.trace (GSSLink.mk out [link])) out
                have htr : GSSLink.trace (GSSLink.mk out [link]) =
                    GSSLink.trace link ++ [out] := rfl
                rw [htr]
                exact .step ctr ctr ctr1 ctr2 (GSSLink.trace link) (GSSLink.node link) out
                  hlink le_rfl hm1 hm2 hso hterm hnd
              · exact hrest l' hm
          | err e2 => simp only [hls] at h; exact absurd h (by simp)
          | fuelOut => simp only [hls] at h; exact absurd h (by simp)
      | err e2 => simp only [hadv] at h; exact absurd h (by simp)
      | fuelOut => simp only [hadv] at h; exact absurd h (by simp)

theorem gss_loop_inv {T : Type} (p : Parser) (tm : String → T → Bool)
    (fuel : Nat) (rootf : GSSFrame) :
    ∀ (toks : List T) (gss : List (List GSSLink)) (ctr : Nat)
      (gss' : List (List GSSLink)) (ctr' : Nat),
      gss_loop p tm fuel toks gss ctr = .ok (gss', ctr') →
      ∀ lastLayer, gss.getLast? = some lastLayer →
      (∀ l ∈ lastLayer, LinkOK p rootf ctr l) →
      ctr ≤ ctr' ∧ ∃ lastLayer', gss'.getLast? = some lastLayer' ∧
        ∀ l ∈ lastLayer', LinkOK p rootf ctr' l := by
  intro toks
  induction toks with
  | nil =>
      intro gss ctr gss' ctr' h lastLayer hlay hinv
      simp only [gss_loop] at h
      injection h with h1
      injection h1 with ha hb
      subst ha; subst hb
      exact ⟨le_rfl, lastLayer, hlay, hinv⟩
  | cons tok toks ih =>
      intro gss ctr gss' ctr' h lastLayer hlay hinv
      simp only [gss_loop, hlay] at h
      cases hls : layer_step p tm fuel tok lastLayer ctr with
      | ok v1 =>
          obtain ⟨next, ctr1⟩ := v1
          simp only [hls] at h
          obtain ⟨hm1, hnext⟩ := layer_step_inv p tm fuel tok rootf lastLayer ctr next ctr1
            hls hinv
          obtain ⟨hm2, res⟩ := ih (gss ++ [next]) ctr1 gss' ctr' h next
            (List.getLast?_concat gss) hnext
          exact ⟨by omega, res⟩
      | err e2 => simp only [hls] at h; exact absurd h (by simp)
      | fuelOut => simp only [hls] at h; exact absurd h (by simp)

theorem arenaGet_push {T : Type} (a : Arena T) (id : Nat) (c : IChild T) (id' : Nat) :
    arenaGet (arenaPush a id c) id' =
      (arenaGet a id').map
        (fun e => if id' = id then ⟨e.rule_name, e.subexpressions ++ [c]⟩ else e) := by
  induction a with
  | nil => rfl
  | cons kv rest ih =>
      obtain ⟨k, e⟩ := kv
      by_cases h2 : id' = k
      · subst h2
        by_cases h1 : id' = id
        · subst h1
          simp [arenaGet, arenaPush, List.lookup]
        · simp [arenaGet, arenaPush, List.lookup, if_neg h1]
      · have hbeq : (id' == k) = false := by simp [h2]
        by_cases h1 : k = id
        · subst h1
          simp only [arenaPush, if_pos rfl, arenaGet, List.lookup, hbeq]
          exact ih
        · simp only [arenaPush, if_neg h1, arenaGet, List.lookup, hbeq]
          exact ih

theorem arenaGet_insert {T : Type} (a : Arena T) (id : Nat) (e : IEntry T) (id' : Nat) :
    arenaGet (arenaInsert a id e) id' = if id' = id then some e else arenaGet a id' := by
  by_cases h : id' = id
  · subst h
    simp [arenaGet, arenaInsert, List.lookup]
  · have hb : (id' == id) = false := by simp [h]
    simp [arenaGet, arenaInsert, List.lookup, h, hb]

/-- The facts about a backtrace chain that the tree reconstruction needs for
the root claim. -/
def ChainForTree (start_rule : String) (chain : GSSChain) : Prop :=
  (chain.getLast? = some (rootFrame start_rule) ∨
    ∃ k, chain = [⟨k, .RuleName start_rule, .Done⟩]) ∧
  (∀ f ∈ chain, f.id = 0 → f = rootFrame start_rule)

/-- Invariant of the `subtrees` arena and `root` variable: any entry stored for
the root allocation is named after the start rule, and `root` can only alias
that entry. -/
def ArenaRootInv {T : Type} (start_rule : String) (a : Arena T) (root? : Option Nat) : Prop :=
  (∀ e, arenaGet a 0 = some e → e.rule_name = start_rule) ∧
  (root? = none ∨ root? = some 0)

theorem ascend_root_inv {T : Type} (start_rule : String) :
    ∀ (chain : GSSChain) (a : Arena T) (root? : Option Nat) (curr : IChild T)
      (a' : Arena T) (root?' : Option Nat),
      ascend a root? curr chain = .ok (a', root?') →
      chain.getLast? = some (rootFrame start_rule) →
      (∀ f ∈ chain, f.id = 0 → f = rootFrame start_rule) →
      ArenaRootInv start_rule a root? → ArenaRootInv start_rule a' root?' := by
  intro chain
  induction chain with
  | nil =>
      intro a root? curr a' root?' h _ _ hinv
      simp only [ascend] at h
      injection h with h1
      injection h1 with ha hb
      subst ha; subst hb
      exact hinv
  | cons f rest ih =>
      cases rest with
      | nil =>
          intro a root? curr a' root?' h _ _ hinv
          simp only [ascend] at h
          injection h with h1
          injection h1 with ha hb
          subst ha; subst hb
          exact hinv
      | cons parent rest2 =>
          intro a root? curr a' root?' h hanch hzero hinv
          have hanch2 : (parent :: rest2).getLast? = some (rootFrame start_rule) := by
            rw [List.getLast?_cons_cons] at hanch
            exact hanch
          have hzero2 : ∀ g ∈ parent :: rest2, g.id = 0 → g = rootFrame start_rule :=
            fun g hg => hzero g (List.mem_cons_of_mem _ hg)
          obtain ⟨pid, pexpr, ppd⟩ := parent
          simp only [ascend] at h
          cases pexpr with
          | RuleName name =>
              simp only at h
              cases hget : arenaGet a pid with
              | some e0 =>
                  simp only [hget] at h
                  injection h with h1
                  injection h1 with ha hb
                  subst ha; subst hb
                  refine ⟨?_, hinv.2⟩
                  intro e he
                  rw [arenaGet_push] at he
                  cases hA : arenaGet a 0 with
                  | none => rw [hA] at he; exact absurd he (by simp)
                  | some e1 =>
                      rw [hA] at he
                      simp only [Option.map_some'] at he
                      have he2 := Option.some.inj he
                      have hname : e.rule_name = e1.rule_name := by
                        by_cases h0 : (0 : Nat) = pid <;> simp [h0] at he2 <;>
                          rw [← he2]
                      rw [hname]
                      exact hinv.1 e1 hA
              | none =>
                  simp only [hget] at h
                  have hinv2 : ∀ e, arenaGet
                      (arenaPush (arenaInsert a pid ⟨name, []⟩) pid curr) 0 = some e →
                      e.rule_name = start_rule := by
                    intro e he
                    rw [arenaGet_push, arenaGet_insert] at he
                    by_cases h0 : (0 : Nat) = pid
                    · have hp : GSSFrame.mk pid (.RuleName name) ppd = rootFrame start_rule :=
                        hzero ⟨pid, .RuleName name, ppd⟩ (by simp) h0.symm
                      have hname : name = start_rule := by
                        have := congrArg GSSFrame.expr hp
                        simp only [rootFrame] at this
                        exact RuleExpression.RuleName.inj this
                      simp only [if_pos h0, Option.map_some] at he
                      have := Option.some.inj he
                      rw [← this, hname]
                    · simp only [if_neg h0] at he
                      cases hA : arenaGet a 0 with
                      | none => rw [hA] at he; exact absurd he (by simp)
                      | some e1 =>
                          rw [hA] at he
                          simp only [Option.map_some'] at he
                          have he2 := Option.some.inj he
                          simp only [if_neg h0] at he2
                          rw [← he2]
                          exact hinv.1 e1 hA
                  by_cases hre : rest2.isEmpty
                  · rw [if_pos hre] at h
                    have hr2 : rest2 = [] := List.isEmpty_iff.mp hre
                    subst hr2
                    have hpar : GSSFrame.mk pid (.RuleName name) ppd = rootFrame start_rule := by
                      simpa using hanch2
                    have hpid : pid = 0 := by
                      have := congrArg GSSFrame.id hpar
                      simpa [rootFrame] using this
                    cases hget2 : arenaGet
                        (arenaPush (arenaInsert a pid ⟨name, []⟩) pid curr) pid with
                    | none =>
                        rw [arenaGet_push, arenaGet_insert] at hget2
                        simp at hget2
                    | some e2 =>
                        simp only [hget2] at h
                        exact ih _ (some pid) (.ref pid) a' root?' h hanch2 hzero2
                          ⟨hinv2, Or.inr (by rw [hpid])⟩
                  · rw [if_neg hre] at h
                    exact ih _ root? (.ref pid) a' root?' h hanch2 hzero2 ⟨hinv2, hinv.2⟩
          | Terminal pat =>
              simp only at h
              by_cases hre : rest2.isEmpty
              · exfalso
                have hr2 : rest2 = [] := List.isEmpty_iff.mp hre
                subst hr2
                have hpar : GSSFrame.mk pid (.Terminal pat) ppd = rootFrame start_rule := by
                  simpa using hanch2
                have := congrArg GSSFrame.expr hpar
                simp [rootFrame] at this
              · rw [if_neg hre] at h
                exact ih _ root? curr a' root?' h hanch2 hzero2 hinv
          | Concatenation cs =>
              simp only at h
              by_cases hre : rest2.isEmpty
              · exfalso
                have hr2 : rest2 = [] := List.isEmpty_iff.mp hre
                subst hr2
                have hpar : GSSFrame.mk pid (.Concatenation cs) ppd = rootFrame start_rule := by
                  simpa using hanch2
                have := congrArg GSSFrame.expr hpar
                simp [rootFrame] at this
              · rw [if_neg hre] at h
                exact ih _ root? curr a' root?' h hanch2 hzero2 hinv
          | Alternatives cs =>
              simp only at h
              by_cases hre : rest2.isEmpty
              · exfalso
                have hr2 : rest2 = [] := List.isEmpty_iff.mp hre
                subst hr2
                have hpar : GSSFrame.mk pid (.Alternatives cs) ppd = rootFrame start_rule := by
                  simpa using hanch2
                have := congrArg GSSFrame.expr hpar
                simp [rootFrame] at this
              · rw [if_neg hre] at h
                exact ih _ root? curr a' root?' h hanch2 hzero2 hinv
          | Optional c =>
              simp only at h
              by_cases hre : rest2.isEmpty
              · exfalso
                have hr2 : rest2 = [] := List.isEmpty_iff.mp hre
                subst hr2
                have hpar : GSSFrame.mk pid (.Optional c) ppd = rootFrame start_rule := by
                  simpa using hanch2
                have := congrArg GSSFrame.expr hpar
                simp [rootFrame] at this
              · rw [if_neg hre] at h
                exact ih _ root? curr a' root?' h hanch2 hzero2 hinv
          | Many c =>
              simp only at h
              by_cases hre : rest2.isEmpty
              · exfalso
                have hr2 : rest2 = [] := List.isEmpty_iff.mp hre
                subst hr2
                have hpar : GSSFrame.mk pid (.Many c) ppd = rootFrame start_rule := by
                  simpa using hanch2
                have := congrArg GSSFrame.expr hpar
                simp [rootFrame] at this
              · rw [if_neg hre] at h
                exact ih _ root? curr a' root?' h hanch2 hzero2 hinv
          | OneOrMore c =>
              simp only at h
              by_cases hre : rest2.isEmpty
              · exfalso
                have hr2 : rest2 = [] := List.isEmpty_iff.mp hre
                subst hr2
                have hpar : GSSFrame.mk pid (.OneOrMore c) ppd = rootFrame start_rule := by
                  simpa using hanch2
                have := congrArg GSSFrame.expr hpar
                simp [rootFrame] at this
              · rw [if_neg hre] at h
                exact ih _ root? curr a' root?' h hanch2 hzero2 hinv

theorem bt_loop_root_inv {T : Type} (start_rule : String) :
    ∀ (pairs : List (GSSChain × T)) (a : Arena T) (root? : Option Nat)
      (a' : Arena T) (root?' : Option Nat),
      bt_loop pairs a root? = .ok (a', root?') →
      (∀ pr ∈ pairs, ChainForTree start_rule pr.1) →
      ArenaRootInv start_rule a root? → ArenaRootInv start_rule a' root?' := by
  intro pairs
  induction pairs with
  | nil =>
      intro a root? a' root?' h _ hinv
      simp only [bt_loop] at h
      injection h with h1
      injection h1 with ha hb
      subst ha; subst hb
      exact hinv
  | cons pr rest ih =>
      obtain ⟨node, token⟩ := pr
      intro a root? a' root?' h hch hinv
      cases node with
      | nil => simp [bt_loop] at h
      | cons f rest2 =>
          obtain ⟨fid, fexpr, fpd⟩ := f
          cases fexpr with
          | Terminal pat =>
              simp only [bt_loop] at h
              cases hasc : ascend a root? (.tok token)
                  (⟨fid, .Terminal pat, fpd⟩ :: rest2) with
              | ok v =>
                  obtain ⟨a1, root1⟩ := v
                  simp only [hasc] at h
                  have hcf := hch (⟨fid, .Terminal pat, fpd⟩ :: rest2, token)
                    (List.mem_cons_self _ _)
                  have hanch : (⟨fid, .Terminal pat, fpd⟩ :: rest2).getLast? =
                      some (rootFrame start_rule) := by
                    rcases hcf.1 with h1 | ⟨k, hk⟩
                    · exact h1
                    · exfalso
                      simp at hk
                  exact ih a1 root1 a' root?' h
                    (fun pr hm => hch pr (List.mem_cons_of_mem _ hm))
                    (ascend_root_inv start_rule _ a root? _ a1 root1 hasc hanch hcf.2 hinv)
              | err e2 => simp only [hasc] at h; exact absurd h (by simp)
              | fuelOut => simp only [hasc] at h; exact absurd h (by simp)
          | RuleName name => simp [bt_loop] at h
          | Concatenation cs => simp [bt_loop] at h
          | Alternatives cs => simp [bt_loop] at h
          | Optional c => simp [bt_loop] at h
          | Many c => simp [bt_loop] at h
          | OneOrMore c => simp [bt_loop] at h

/-- On every successful GSS parse the root of the returned tree is a rule node
named after the requested start rule. -/
theorem gss_parse_root {T : Type} (p : Parser) (tm : String → T → Bool)
    (tokens : List T) (start_rule : String) (fuel : Nat) (τ : SyntaxTree T)
    (h : gss_parse_tokens p tm tokens start_rule fuel = .ok τ) :
    ∃ subs, τ = SyntaxTree.RuleNode start_rule subs := by
  simp only [gss_parse_tokens] at h
  cases hres : resolve_to_terminals p fuel
      [⟨0, RuleExpression.RuleName start_rule, .NoData⟩] 1 with
  | ok v =>
      obtain ⟨nodes, ctr0⟩ := v
      simp only [hres] at h
      cases hloop : gss_loop p tm fuel tokens
          [nodes.map (fun n => GSSLink.mk n
            [GSSLink.mk [⟨0, RuleExpression.RuleName start_rule, .NoData⟩] []])] ctr0 with
      | ok v2 =>
          obtain ⟨gss, ctrF⟩ := v2
          simp only [hloop] at h
          cases hbt : get_backtrace gss with
          | ok backtrace =>
              simp only [hbt] at h
              -- invariants of the seed layer
              have hrootnd : FrameNamesDef p (rootFrame start_rule) :=
                resolve_ok_head_namesDef hres
              obtain ⟨hm1, houts⟩ := (gss_step_shape p fuel).2.1 _ _ _ _ hres (by simp)
              have hseed : ∀ l ∈ nodes.map (fun n => GSSLink.mk n
                  [GSSLink.mk [⟨0, RuleExpression.RuleName start_rule, .NoData⟩] []]),
                  LinkOK p (rootFrame start_rule) ctr0 l := by
                intro l hl
                simp only [List.mem_map] at hl
                obtain ⟨out, hout, rfl⟩ := hl
                show TraceOK p (rootFrame start_rule) ctr0
                  (GSSLink.trace (GSSLink.mk out
                    [GSSLink.mk [⟨0, RuleExpression.RuleName start_rule, .NoData⟩] []])) out
                have htr : GSSLink.trace (GSSLink.mk out
                    [GSSLink.mk [⟨0, RuleExpression.RuleName start_rule, .NoData⟩] []]) =
                    [[rootFrame start_rule]] ++ [out] := rfl
                rw [htr]
                refine .step 1 1 ctr0 ctr0 [[rootFrame start_rule]] [rootFrame start_rule] out
                  (.base 1 (by simp [rootFrame])) le_rfl hm1 le_rfl
                  (houts out hout) ?_ (by simp [pdataOf, rootFrame])
                exact (resolve_terminal_or_done p fuel).2.1 _ _ _ hres out hout
              obtain ⟨hm2, L, hLget, hLok⟩ := gss_loop_inv p tm fuel (rootFrame start_rule)
                tokens _ ctr0 gss ctrF hloop _ (by simp) hseed
              -- dissect get_backtrace
              simp only [get_backtrace, hLget] at hbt
              cases hfil : L.filter isDoneLink with
              | nil => simp only [hfil] at hbt; exact absurd hbt (by simp)
              | cons l tl =>
                  cases tl with
                  | cons l2 tl2 => simp only [hfil] at hbt; exact absurd hbt (by simp)
                  | nil =>
                      simp only [hfil, backtrace_of] at hbt
                      by_cases hlen : (GSSLink.trace l).length < 2
                      · rw [if_pos hlen] at hbt; exact absurd hbt (by simp)
                      · rw [if_neg hlen] at hbt
                        injection hbt with hbt1
                        have hmemL : l ∈ L := List.mem_of_mem_filter
                          (by rw [hfil]; exact List.mem_cons_self _ _)
                        obtain ⟨hc1, hall, _⟩ := traceOK_facts rfl hrootnd (hLok l hmemL)
                        have hchains : ∀ c ∈ backtrace, ChainForTree start_rule c := by
                          intro c hc
                          rw [← hbt1] at hc
                          have hc2 : c ∈ GSSLink.trace l :=
                            List.mem_of_mem_drop (List.dropLast_subset _ hc)
                          obtain ⟨hne, hid, hzero, hnd, hlast⟩ := hall c hc2
                          refine ⟨?_, hzero⟩
                          rcases hlast with h1 | ⟨k, hk⟩
                          · exact Or.inl h1
                          · exact Or.inr ⟨k, by rw [hk]; rfl⟩
                        -- dissect backtrace_to_tree
                        simp only [backtrace_to_tree] at h
                        by_cases hlen2 : backtrace.length ≠ tokens.length
                        · rw [if_pos hlen2] at h; exact absurd h (by simp)
                        · rw [if_neg hlen2] at h
                          cases hbl : bt_loop (backtrace.zip tokens) ([] : Arena T) none with
                          | ok v3 =>
                              obtain ⟨aF, rootF?⟩ := v3
                              simp only [hbl] at h
                              cases rootF? with
                              | none => exact absurd h (by simp)
                              | some rid =>
                                  have hinv : ArenaRootInv start_rule aF (some rid) := by
                                    refine bt_loop_root_inv start_rule _ _ _ _ _ hbl ?_ ?_
                                    · intro pr hpr
                                      exact hchains pr.1 (List.of_mem_zip hpr).1
                                    · refine ⟨?_, Or.inl rfl⟩
                                      intro e he
                                      simp [arenaGet] at he
                                  have hrid : rid = 0 := by
                                    rcases hinv.2 with h' | h'
                                    · exact absurd h' (by simp)
                                    · exact Option.some.inj h'
                                  subst hrid
                                  cases fuel with
                                  | zero => simp [intermediate_to_final] at h
                                  | succ fl =>
                                      simp only [intermediate_to_final] at h
                                      cases hget : arenaGet aF 0 with
                                      | none =>
                                          simp only [hget] at h
                                          exact absurd h (by simp)
                                      | some e =>
                                          simp only [hget] at h
                                          cases hsubs : i2f_list fl aF e.subexpressions with
                                          | ok subs =>
                                              simp only [hsubs] at h
                                              injection h with h1
                                              refine ⟨subs, ?_⟩
                                              rw [← h1, hinv.1 e hget]
                                          | err e2 =>
                                              simp only [hsubs] at h
                                              exact absurd h (by simp)
                                          | fuelOut =>
                                              simp only [hsubs] at h
                                              exact absurd h (by simp)
                          | err e2 => simp only [hbl] at h; exact absurd h (by simp)
                          | fuelOut => simp only [hbl] at h; exact absurd h (by simp)
          | err e2 => simp only [hbt] at h; exact absurd h (by simp)
          | fuelOut => simp only [hbt] at h; exact absurd h (by simp)
      | err e2 => simp only [hloop] at h; exact absurd h (by simp)
      | fuelOut => simp only [hloop] at h; exact absurd h (by simp)
  | err e2 => simp only [hres] at h; exact absurd h (by simp)
  | fuelOut => simp only [hres] at h; exact absurd h (by simp)

/-! ### The decorated intermediate tree built by `backtrace_to_tree`

To prove that the leaves of a reconstructed tree are the consumed tokens, we
shadow the arena surgery of `backtrace_to_tree` with a pure tree: a `DTree`
is the tree of rule nodes and consumed tokens built so far, where every rule
node remembers the GSS allocation id its arena entry is keyed by. -/

/-- A rule node decorated with its arena key, or a consumed token. -/
inductive DTree (T : Type) where
  | leaf (t : T)
  | node (id : Nat) (rule_name : String) (kids : List (DTree T))

mutual

/-- The consumed tokens of a decorated tree, left to right. -/
def DTree.leavesD {T : Type} : DTree T → List T
  | .leaf t => [t]
  | .node _ _ kids => DTree.leavesDL kids

/-- `leavesD` over a forest. -/
def DTree.leavesDL {T : Type} : List (DTree T) → List T
  | [] => []
  | k :: ks => DTree.leavesD k ++ DTree.leavesDL ks

end

mutual

/-- The arena keys of the rule nodes of a decorated tree, preorder. -/
def DTree.idsD {T : Type} : DTree T → List Nat
  | .leaf _ => []
  | .node id _ kids => id :: DTree.idsDL kids

/-- `idsD` over a forest. -/
def DTree.idsDL {T : Type} : List (DTree T) → List Nat
  | [] => []
  | k :: ks => DTree.idsD k ++ DTree.idsDL ks

end

mutual

/-- The right spine of a decorated tree: the keys along the path of last
children (the rule nodes still open for further children). -/
def DTree.spineD {T : Type} : DTree T → List Nat
  | .leaf _ => []
  | .node id _ kids => id :: DTree.spineDL kids

/-- The right spine seen from a forest: the spine of its last tree. -/
def DTree.spineDL {T : Type} : List (DTree T) → List Nat
  | [] => []
  | [k] => DTree.spineD k
  | _ :: k2 :: ks => DTree.spineDL (k2 :: ks)

end

mutual

/-- Every rule node of the decorated tree names a rule defined in `p`. -/
def DTree.namesD {T : Type} (p : Parser) : DTree T → Bool
  | .leaf _ => true
  | .node _ nm kids => (p.get nm).isSome && DTree.namesDL p kids

/-- `namesD` over a forest. -/
def DTree.namesDL {T : Type} (p : Parser) : List (DTree T) → Bool
  | [] => true
  | k :: ks => DTree.namesD p k && DTree.namesDL p ks

end

mutual

/-- Append a finished subtree as a new last child of the node sitting `depth`
steps down the right spine: the pure shadow of the `subexpressions.push`
performed through the `Rc` alias of a processed ancestor. -/
def pushD {T : Type} : DTree T → Nat → DTree T → DTree T
  | .leaf t, _, _ => .leaf t
  | .node id nm kids, 0, d2 => .node id nm (kids ++ [d2])
  | .node id nm kids, depth + 1, d2 => .node id nm (pushDL kids depth d2)

/-- `pushD` on the last tree of a forest. -/
def pushDL {T : Type} : List (DTree T) → Nat → DTree T → List (DTree T)
  | [], _, _ => []
  | [k], depth, d2 => [pushD k depth d2]
  | k :: k2 :: ks, depth, d2 => k :: pushDL (k2 :: ks) depth d2

end

/-- Wrap a finished subtree in one rule node per `RuleName` frame of a walked
chain segment, bottom-up: the pure shadow of the chain of `subtrees.insert`
calls one `ascend` run performs on its unprocessed parents. -/
def wrapPath {T : Type} : DTree T → List GSSFrame → DTree T
  | d, [] => d
  | d, f :: fs =>
      match f.expr with
      | .RuleName nm => wrapPath (DTree.node f.id nm [d]) fs
      | _ => wrapPath d fs

/-- Frames whose expression is a `RuleName` (the ones `ascend` stores). -/
def isRuleFrame (f : GSSFrame) : Bool :=
  match f.expr with
  | .RuleName _ => true
  | _ => false

/-- The ids of the `RuleName` frames of a chain, bottom-up. -/
def ruleIds (chain : GSSChain) : List Nat :=
  (chain.filter isRuleFrame).map GSSFrame.id

theorem leavesDL_append {T : Type} (xs ys : List (DTree T)) :
    DTree.leavesDL (xs ++ ys) = DTree.leavesDL xs ++ DTree.leavesDL ys := by
  induction xs with
  | nil => rfl
  | cons k ks ih =>
      show DTree.leavesD k ++ DTree.leavesDL (ks ++ ys) = _
      rw [ih, DTree.leavesDL, List.append_assoc]

theorem idsDL_append {T : Type} (xs ys : List (DTree T)) :
    DTree.idsDL (xs ++ ys) = DTree.idsDL xs ++ DTree.idsDL ys := by
  induction xs with
  | nil => rfl
  | cons k ks ih =>
      show DTree.idsD k ++ DTree.idsDL (ks ++ ys) = _
      rw [ih, DTree.idsDL, List.append_assoc]

theorem namesDL_append {T : Type} (p : Parser) (xs ys : List (DTree T)) :
    DTree.namesDL p (xs ++ ys) = (DTree.namesDL p xs && DTree.namesDL p ys) := by
  induction xs with
  | nil => rfl
  | cons k ks ih =>
      show (DTree.namesD p k && DTree.namesDL p (ks ++ ys)) = _
      rw [ih, DTree.namesDL, Bool.and_assoc]

theorem spineDL_concat {T : Type} : ∀ (xs : List (DTree T)) (x : DTree T),
    DTree.spineDL (xs ++ [x]) = DTree.spineD x
  | [], _ => rfl
  | [_], _ => rfl
  | k :: k2 :: ks, x => by
      show DTree.spineDL (k2 :: (ks ++ [x])) = _
      exact spineDL_concat (k2 :: ks) x

theorem spineDL_cons_ne {T : Type} (k : DTree T) (ks : List (DTree T)) (h : ks ≠ []) :
    DTree.spineDL (k :: ks) = DTree.spineDL ks := by
  cases ks with
  | nil => exact absurd rfl h
  | cons k2 ks2 => rfl

theorem pushDL_ne_nil {T : Type} (ks : List (DTree T)) (depth : Nat) (d2 : DTree T)
    (h : ks ≠ []) : pushDL ks depth d2 ≠ [] := by
  cases ks with
  | nil => exact absurd rfl h
  | cons k ks2 =>
      cases ks2 with
      | nil => simp [pushDL]
      | cons k2 ks3 => simp [pushDL]

mutual

/-- Pushing below the spine appends the new subtree's leaves at the far
right. -/
theorem leaves_pushD {T : Type} : ∀ (d : DTree T) (depth : Nat) (d2 : DTree T),
    depth < (DTree.spineD d).length →
    DTree.leavesD (pushD d depth d2) = DTree.leavesD d ++ DTree.leavesD d2
  | .leaf t, depth, d2, h => by simp [DTree.spineD] at h
  | .node id nm kids, 0, d2, h => by
      show DTree.leavesDL (kids ++ [d2]) = DTree.leavesDL kids ++ DTree.leavesD d2
      rw [leavesDL_append]
      simp [DTree.leavesDL]
  | .node id nm kids, depth + 1, d2, h => by
      have h2 : depth < (DTree.spineDL kids).length := by
        simp only [DTree.spineD, List.length_cons] at h
        omega
      show DTree.leavesDL (pushDL kids depth d2) = DTree.leavesDL kids ++ DTree.leavesD d2
      exact leavesL_pushDL kids depth d2 h2

/-- `leaves_pushD` seen from a forest. -/
theorem leavesL_pushDL {T : Type} : ∀ (ks : List (DTree T)) (depth : Nat) (d2 : DTree T),
    depth < (DTree.spineDL ks).length →
    DTree.leavesDL (pushDL ks depth d2) = DTree.leavesDL ks ++ DTree.leavesD d2
  | [], depth, d2, h => by simp [DTree.spineDL] at h
  | [k], depth, d2, h => by
      show DTree.leavesDL [pushD k depth d2] = _
      have hk := leaves_pushD k depth d2 (by simpa [DTree.spineDL] using h)
      simp [DTree.leavesDL, hk]
  | k :: k2 :: ks, depth, d2, h => by
      show DTree.leavesD k ++ DTree.leavesDL (pushDL (k2 :: ks) depth d2) = _
      rw [leavesL_pushDL (k2 :: ks) depth d2 (by simpa [DTree.spineDL] using h)]
      simp [DTree.leavesDL, List.append_assoc]

end

mutual

/-- Pushing below the spine extends the spine: the part above the target stays
and the new subtree's spine hangs off it. -/
theorem spine_pushD {T : Type} : ∀ (d : DTree T) (depth : Nat) (d2 : DTree T),
    depth < (DTree.spineD d).length →
    DTree.spineD (pushD d depth d2) =
      (DTree.spineD d).take (depth + 1) ++ DTree.spineD d2
  | .leaf t, depth, d2, h => by simp [DTree.spineD] at h
  | .node id nm kids, 0, d2, h => by
      show (id : Nat) :: DTree.spineDL (kids ++ [d2]) = _
      rw [spineDL_concat]
      rfl
  | .node id nm kids, depth + 1, d2, h => by
      have h2 : depth < (DTree.spineDL kids).length := by
        simp only [DTree.spineD, List.length_cons] at h
        omega
      show (id : Nat) :: DTree.spineDL (pushDL kids depth d2) = _
      rw [spineL_pushDL kids depth d2 h2]
      rfl

/-- `spine_pushD` seen from a forest. -/
theorem spineL_pushDL {T : Type} : ∀ (ks : List (DTree T)) (depth : Nat) (d2 : DTree T),
    depth < (DTree.spineDL ks).length →
    DTree.spineDL (pushDL ks depth d2) =
      (DTree.spineDL ks).take (depth + 1) ++ DTree.spineD d2
  | [], depth, d2, h => by simp [DTree.spineDL] at h
  | [k], depth, d2, h => by
      show DTree.spineDL [pushD k depth d2] = _
      have hk := spine_pushD k depth d2 (by simpa [DTree.spineDL] using h)
      simpa [DTree.spineDL] using hk
  | k :: k2 :: ks, depth, d2, h => by
      have h2 : depth < (DTree.spineDL (k2 :: ks)).length := by
        simpa [DTree.spineDL] using h
      show DTree.spineDL (k :: pushDL (k2 :: ks) depth d2) = _
      rw [spineDL_cons_ne _ _ (pushDL_ne_nil _ _ _ (by simp))]
      rw [spineL_pushDL (k2 :: ks) depth d2 h2]
      rfl

end

mutual

/-- Pushing below the spine appends the new subtree's keys at the far right. -/
theorem ids_pushD {T : Type} : ∀ (d : DTree T) (depth : Nat) (d2 : DTree T),
    depth < (DTree.spineD d).length →
    DTree.idsD (pushD d depth d2) = DTree.idsD d ++ DTree.idsD d2
  | .leaf t, depth, d2, h => by simp [DTree.spineD] at h
  | .node id nm kids, 0, d2, h => by
      show (id : Nat) :: DTree.idsDL (kids ++ [d2]) = (id :: DTree.idsDL kids) ++ DTree.idsD d2
      rw [idsDL_append]
      simp [DTree.idsDL]
  | .node id nm kids, depth + 1, d2, h => by
      have h2 : depth < (DTree.spineDL kids).length := by
        simp only [DTree.spineD, List.length_cons] at h
        omega
      show (id : Nat) :: DTree.idsDL (pushDL kids depth d2) = _
      rw [idsL_pushDL kids depth d2 h2]
      rfl

/-- `ids_pushD` seen from a forest. -/
theorem idsL_pushDL {T : Type} : ∀ (ks : List (DTree T)) (depth : Nat) (d2 : DTree T),
    depth < (DTree.spineDL ks).length →
    DTree.idsDL (pushDL ks depth d2) = DTree.idsDL ks ++ DTree.idsD d2
  | [], depth, d2, h => by simp [DTree.spineDL] at h
  | [k], depth, d2, h => by
      show DTree.idsDL [pushD k depth d2] = _
      have hk := ids_pushD k depth d2 (by simpa [DTree.spineDL] using h)
      simp [DTree.idsDL, hk]
  | k :: k2 :: ks, depth, d2, h => by
      show DTree.idsD k ++ DTree.idsDL (pushDL (k2 :: ks) depth d2) = _
      rw [idsL_pushDL (k2 :: ks) depth d2 (by simpa [DTree.spineDL] using h)]
      simp [DTree.idsDL, List.append_assoc]

end

mutual

/-- Pushing below the spine conjoins the name checks. -/
theorem names_pushD {T : Type} (p : Parser) : ∀ (d : DTree T) (depth : Nat) (d2 : DTree T),
    depth < (DTree.spineD d).length →
    DTree.namesD p (pushD d depth d2) = (DTree.namesD p d && DTree.namesD p d2)
  | .leaf t, depth, d2, h => by simp [DTree.spineD] at h
  | .node id nm kids, 0, d2, h => by
      show ((p.get nm).isSome && DTree.namesDL p (kids ++ [d2])) = _
      rw [namesDL_append]
      show ((p.get nm).isSome && (DTree.namesDL p kids && DTree.namesDL p [d2])) = _
      simp [DTree.namesD, DTree.namesDL, Bool.and_assoc]
  | .node id nm kids, depth + 1, d2, h => by
      have h2 : depth < (DTree.spineDL kids).length := by
        simp only [DTree.spineD, List.length_cons] at h
        omega
      show ((p.get nm).isSome && DTree.namesDL p (pushDL kids depth d2)) = _
      rw [namesL_pushDL p kids depth d2 h2]
      simp [DTree.namesD, Bool.and_assoc]

/-- `names_pushD` seen from a forest. -/
theorem namesL_pushDL {T : Type} (p : Parser) :
    ∀ (ks : List (DTree T)) (depth : Nat) (d2 : DTree T),
    depth < (DTree.spineDL ks).length →
    DTree.namesDL p (pushDL ks depth d2) = (DTree.namesDL p ks && DTree.namesD p d2)
  | [], depth, d2, h => by simp [DTree.spineDL] at h
  | [k], depth, d2, h => by
      show DTree.namesDL p [pushD k depth d2] = _
      have hk := names_pushD p k depth d2 (by simpa [DTree.spineDL] using h)
      simp [DTree.namesDL, hk]
  | k :: k2 :: ks, depth, d2, h => by
      show (DTree.namesD p k && DTree.namesDL p (pushDL (k2 :: ks) depth d2)) = _
      rw [namesL_pushDL p (k2 :: ks) depth d2 (by simpa [DTree.spineDL] using h)]
      simp [DTree.namesDL, Bool.and_assoc]

end

mutual

/-- The spine keys are keys of the tree. -/
theorem spineD_sub_idsD {T : Type} : ∀ (d : DTree T) (x : Nat),
    x ∈ DTree.spineD d → x ∈ DTree.idsD d
  | .leaf t, x, h => by simp [DTree.spineD] at h
  | .node id nm kids, x, h => by
      simp only [DTree.spineD, List.mem_cons] at h
      rcases h with rfl | h
      · simp [DTree.idsD]
      · simp only [DTree.idsD, List.mem_cons]
        exact Or.inr (spineDL_sub_idsDL kids x h)

/-- `spineD_sub_idsD` seen from a forest. -/
theorem spineDL_sub_idsDL {T : Type} : ∀ (ks : List (DTree T)) (x : Nat),
    x ∈ DTree.spineDL ks → x ∈ DTree.idsDL ks
  | [], x, h => by simp [DTree.spineDL] at h
  | [k], x, h => by
      have := spineD_sub_idsD k x h
      simpa [DTree.idsDL] using this
  | k :: k2 :: ks, x, h => by
      have := spineDL_sub_idsDL (k2 :: ks) x h
      simp only [DTree.idsDL, List.mem_append]
      exact Or.inr (by simpa [DTree.idsDL] using this)

end

theorem ruleIds_append (l1 l2 : GSSChain) : ruleIds (l1 ++ l2) = ruleIds l1 ++ ruleIds l2 := by
  simp [ruleIds, List.filter_append]

/-- Wrapping keeps the leaves: only rule layers are added. -/
theorem leaves_wrapPath {T : Type} (fs : List GSSFrame) : ∀ (d : DTree T),
    DTree.leavesD (wrapPath d fs) = DTree.leavesD d := by
  induction fs with
  | nil => intro d; rfl
  | cons f fs ih =>
      intro d
      obtain ⟨fid, fexpr, fpd⟩ := f
      cases fexpr with
      | RuleName nm =>
          show DTree.leavesD (wrapPath (DTree.node fid nm [d]) fs) = _
          rw [ih]
          simp [DTree.leavesD, DTree.leavesDL]
      | Terminal pat => exact ih d
      | Concatenation cs => exact ih d
      | Alternatives cs => exact ih d
      | Optional c => exact ih d
      | Many c => exact ih d
      | OneOrMore c => exact ih d

/-- The keys of a wrapped path are the walked `RuleName` ids, top-down, on top
of the wrapped subtree's keys. -/
theorem ids_wrapPath {T : Type} (fs : List GSSFrame) : ∀ (d : DTree T),
    DTree.idsD (wrapPath d fs) = (ruleIds fs).reverse ++ DTree.idsD d := by
  induction fs with
  | nil => intro d; simp [wrapPath, ruleIds]
  | cons f fs ih =>
      intro d
      obtain ⟨fid, fexpr, fpd⟩ := f
      cases fexpr with
      | RuleName nm =>
          show DTree.idsD (wrapPath (DTree.node fid nm [d]) fs) = _
          rw [ih]
          have hr : ruleIds (⟨fid, .RuleName nm, fpd⟩ :: fs) = fid :: ruleIds fs := rfl
          rw [hr]
          simp [DTree.idsD, DTree.idsDL, List.reverse_cons, List.append_assoc]
      | Terminal pat => exact ih d
      | Concatenation cs => exact ih d
      | Alternatives cs => exact ih d
      | Optional c => exact ih d
      | Many c => exact ih d
      | OneOrMore c => exact ih d

/-- A wrapped path is all spine: every added rule node has a single child. -/
theorem spine_wrapPath {T : Type} (fs : List GSSFrame) : ∀ (d : DTree T),
    DTree.spineD (wrapPath d fs) = (ruleIds fs).reverse ++ DTree.spineD d := by
  induction fs with
  | nil => intro d; simp [wrapPath, ruleIds]
  | cons f fs ih =>
      intro d
      obtain ⟨fid, fexpr, fpd⟩ := f
      cases fexpr with
      | RuleName nm =>
          show DTree.spineD (wrapPath (DTree.node fid nm [d]) fs) = _
          rw [ih]
          have hr : ruleIds (⟨fid, .RuleName nm, fpd⟩ :: fs) = fid :: ruleIds fs := rfl
          rw [hr]
          simp [DTree.spineD, DTree.spineDL, List.reverse_cons, List.append_assoc]
      | Terminal pat => exact ih d
      | Concatenation cs => exact ih d
      | Alternatives cs => exact ih d
      | Optional c => exact ih d
      | Many c => exact ih d
      | OneOrMore c => exact ih d

/-- Wrapping in defined rule names keeps the name check. -/
theorem names_wrapPath {T : Type} (p : Parser) (fs : List GSSFrame) : ∀ (d : DTree T),
    (∀ f ∈ fs, isRuleFrame f = true → FrameNamesDef p f) →
    DTree.namesD p (wrapPath d fs) = DTree.namesD p d := by
  induction fs with
  | nil => intro d _; rfl
  | cons f fs ih =>
      intro d hnd
      have htl : ∀ f ∈ fs, isRuleFrame f = true → FrameNamesDef p f :=
        fun g hg => hnd g (List.mem_cons_of_mem _ hg)
      obtain ⟨fid, fexpr, fpd⟩ := f
      cases fexpr with
      | RuleName nm =>
          show DTree.namesD p (wrapPath (DTree.node fid nm [d]) fs) = _
          rw [ih _ htl]
          have hdef : (p.get nm).isSome = true :=
            hnd ⟨fid, .RuleName nm, fpd⟩ (List.mem_cons_self _ _) rfl nm rfl
          simp [DTree.namesD, DTree.namesDL, hdef]
      | Terminal pat => exact ih d htl
      | Concatenation cs => exact ih d htl
      | Alternatives cs => exact ih d htl
      | Optional c => exact ih d htl
      | Many c => exact ih d htl
      | OneOrMore c => exact ih d htl

mutual

/-- The arena graph rooted at `c` spells out exactly the decorated tree `d`:
every rule node's entry carries its name and represents its children in
order. -/
def RepT {T : Type} (a : Arena T) : IChild T → DTree T → Prop
  | c, .leaf t => c = .tok t
  | c, .node id nm kids =>
      c = .ref id ∧ ∃ children, arenaGet a id = some ⟨nm, children⟩ ∧ RepL a children kids

/-- `RepT` between child lists, pointwise. -/
def RepL {T : Type} (a : Arena T) : List (IChild T) → List (DTree T) → Prop
  | cs, [] => cs = []
  | cs, k :: ks => ∃ c cs2, cs = c :: cs2 ∧ RepT a c k ∧ RepL a cs2 ks

end

theorem repL_append {T : Type} (a : Arena T) :
    ∀ (ks1 : List (DTree T)) (cs1 : List (IChild T)) (ks2 : List (DTree T))
      (cs2 : List (IChild T)), RepL a cs1 ks1 → RepL a cs2 ks2 →
      RepL a (cs1 ++ cs2) (ks1 ++ ks2) := by
  intro ks1
  induction ks1 with
  | nil =>
      intro cs1 ks2 cs2 h1 h2
      simp only [RepL] at h1
      subst h1
      simpa using h2
  | cons k ks ih =>
      intro cs1 ks2 cs2 h1 h2
      simp only [RepL] at h1
      obtain ⟨c, cs1b, rfl, hc, hrest⟩ := h1
      show RepL a (c :: (cs1b ++ cs2)) (k :: (ks ++ ks2))
      simp only [RepL]
      exact ⟨c, cs1b ++ cs2, rfl, hc, ih cs1b ks2 cs2 hrest h2⟩

theorem repL_nil {T : Type} (a : Arena T) : RepL a ([] : List (IChild T)) [] := by
  simp [RepL]

theorem repL_cons {T : Type} (a : Arena T) (c : IChild T) (cs : List (IChild T))
    (k : DTree T) (ks : List (DTree T)) (h1 : RepT a c k) (h2 : RepL a cs ks) :
    RepL a (c :: cs) (k :: ks) := by
  simp only [RepL]
  exact ⟨c, cs, rfl, h1, h2⟩

mutual

/-- An arena change away from a tree's keys does not disturb its
representation. -/
theorem repT_frame {T : Type} : ∀ (d : DTree T) (a a2 : Arena T) (c : IChild T),
    (∀ id ∈ DTree.idsD d, arenaGet a2 id = arenaGet a id) → RepT a c d → RepT a2 c d
  | .leaf t, a, a2, c, hag, h => by
      simp only [RepT] at h ⊢
      exact h
  | .node id nm kids, a, a2, c, hag, h => by
      simp only [RepT] at h ⊢
      obtain ⟨hc, children, hget, hL⟩ := h
      refine ⟨hc, children, ?_, ?_⟩
      · rw [hag id (by simp [DTree.idsD])]
        exact hget
      · refine repL_frame kids a a2 children ?_ hL
        intro i hi
        exact hag i (by simp only [DTree.idsD, List.mem_cons]; exact Or.inr hi)

/-- `repT_frame` over a forest. -/
theorem repL_frame {T : Type} : ∀ (ks : List (DTree T)) (a a2 : Arena T)
    (cs : List (IChild T)),
    (∀ id ∈ DTree.idsDL ks, arenaGet a2 id = arenaGet a id) → RepL a cs ks → RepL a2 cs ks
  | [], a, a2, cs, hag, h => by
      simp only [RepL] at h ⊢
      exact h
  | k :: ks, a, a2, cs, hag, h => by
      simp only [RepL] at h ⊢
      obtain ⟨c, cs2, rfl, hc, hrest⟩ := h
      refine ⟨c, cs2, rfl, ?_, ?_⟩
      · exact repT_frame k a a2 c (fun i hi => hag i (by
          simp only [DTree.idsDL, List.mem_append]; exact Or.inl hi)) hc
      · exact repL_frame ks a a2 cs2 (fun i hi => hag i (by
          simp only [DTree.idsDL, List.mem_append]; exact Or.inr hi)) hrest

end

mutual

/-- `intermediate_to_final` on an arena that represents a decorated tree
produces exactly its token leaves, and checked rule names transfer. -/
theorem i2f_rep {T : Type} (p : Parser) : ∀ (d : DTree T) (fuel : Nat) (a : Arena T)
    (c : IChild T) (τ : SyntaxTree T), RepT a c d →
    intermediate_to_final fuel a c = .ok τ →
    leaves τ = DTree.leavesD d ∧ (DTree.namesD p d = true → namesOk p τ = true)
  | .leaf t, fuel, a, c, τ, hrep, hok => by
      have hc : c = .tok t := by simpa [RepT] using hrep
      subst hc
      cases fuel with
      | zero => simp [intermediate_to_final] at hok
      | succ fl =>
          simp only [intermediate_to_final] at hok
          injection hok with h1
          subst h1
          exact ⟨rfl, fun _ => rfl⟩
  | .node id nm kids, fuel, a, c, τ, hrep, hok => by
      simp only [RepT] at hrep
      obtain ⟨hc, children, hget, hL⟩ := hrep
      subst hc
      cases fuel with
      | zero => simp [intermediate_to_final] at hok
      | succ fl =>
          simp only [intermediate_to_final, hget] at hok
          cases hsub : i2f_list fl a children with
          | ok subs =>
              simp only [hsub] at hok
              injection hok with h1
              subst h1
              obtain ⟨hleaves, hnames⟩ := i2f_rep_list p kids fl a children subs hL hsub
              constructor
              · show leavesList subs = DTree.leavesDL kids
                exact hleaves
              · intro hnd
                simp only [DTree.namesD, Bool.and_eq_true] at hnd
                show ((p.get nm).isSome && namesOkList p subs) = true
                simp [hnd.1, hnames hnd.2]
          | err e2 => simp only [hsub] at hok; exact absurd hok (by simp)
          | fuelOut => simp only [hsub] at hok; exact absurd hok (by simp)

/-- `i2f_rep` over a forest. -/
theorem i2f_rep_list {T : Type} (p : Parser) : ∀ (ks : List (DTree T)) (fuel : Nat)
    (a : Arena T) (cs : List (IChild T)) (ts : List (SyntaxTree T)), RepL a cs ks →
    i2f_list fuel a cs = .ok ts →
    leavesList ts = DTree.leavesDL ks ∧
      (DTree.namesDL p ks = true → namesOkList p ts = true)
  | [], fuel, a, cs, ts, hrep, hok => by
      have hcs : cs = [] := by simpa [RepL] using hrep
      subst hcs
      cases fuel with
      | zero => simp [i2f_list] at hok
      | succ fl =>
          simp only [i2f_list] at hok
          injection hok with h1
          subst h1
          exact ⟨rfl, fun _ => rfl⟩
  | k :: ks, fuel, a, cs, ts, hrep, hok => by
      simp only [RepL] at hrep
      obtain ⟨c, cs2, rfl, hc, hrest⟩ := hrep
      cases fuel with
      | zero => simp [i2f_list] at hok
      | succ fl =>
          simp only [i2f_list] at hok
          cases h1 : intermediate_to_final fl a c with
          | ok t =>
              simp only [h1] at hok
              cases h2 : i2f_list fl a cs2 with
              | ok ts2 =>
                  simp only [h2] at hok
                  injection hok with h3
                  subst h3
                  obtain ⟨hl1, hn1⟩ := i2f_rep p k fl a c t hc h1
                  obtain ⟨hl2, hn2⟩ := i2f_rep_list p ks fl a cs2 ts2 hrest h2
                  constructor
                  · show leaves t ++ leavesList ts2 = DTree.leavesD k ++ DTree.leavesDL ks
                    rw [hl1, hl2]
                  · intro hnd
                    simp only [DTree.namesDL, Bool.and_eq_true] at hnd
                    show (namesOk p t && namesOkList p ts2) = true
                    simp [hn1 hnd.1, hn2 hnd.2]
              | err e2 => simp only [h2] at hok; exact absurd hok (by simp)
              | fuelOut => simp only [h2] at hok; exact absurd hok (by simp)
          | err e2 => simp only [h1] at hok; exact absurd hok (by simp)
          | fuelOut => simp only [h1] at hok; exact absurd hok (by simp)

end

theorem arenaGet_push_isSome {T : Type} (a : Arena T) (s : Nat) (c : IChild T) (id : Nat) :
    (arenaGet (arenaPush a s c) id).isSome = (arenaGet a id).isSome := by
  rw [arenaGet_push]
  cases arenaGet a id <;> simp

theorem arenaGet_push_ne {T : Type} (a : Arena T) (s : Nat) (c : IChild T) (id : Nat)
    (h : id ≠ s) : arenaGet (arenaPush a s c) id = arenaGet a id := by
  rw [arenaGet_push]
  cases arenaGet a id with
  | none => rfl
  | some e => simp [h]

mutual

/-- Pushing a new child through the alias of the spine node `depth` steps down
mirrors, on the arena side, the tree surgery `pushD`. -/
theorem repT_pushD {T : Type} : ∀ (d : DTree T) (a : Arena T) (c : IChild T)
    (depth s : Nat) (c2 : IChild T) (d2 : DTree T),
    RepT a c d → (DTree.spineD d)[depth]? = some s → (DTree.idsD d).Nodup →
    RepT a c2 d2 → s ∉ DTree.idsD d2 →
    RepT (arenaPush a s c2) c (pushD d depth d2)
  | .leaf t, a, c, depth, s, c2, d2, hrep, hsp, hnd, hrep2, hs2 => by
      simp [DTree.spineD] at hsp
  | .node id nm kids, a, c, 0, s, c2, d2, hrep, hsp, hnd, hrep2, hs2 => by
      have hsid : s = id := by
        simp [DTree.spineD] at hsp
        omega
      subst hsid
      simp only [RepT] at hrep
      obtain ⟨hc, children, hget, hL⟩ := hrep
      simp only [DTree.idsD, List.nodup_cons] at hnd
      show RepT (arenaPush a s c2) c (.node s nm (kids ++ [d2]))
      simp only [RepT]
      refine ⟨hc, children ++ [c2], ?_, ?_⟩
      · rw [arenaGet_push, hget]
        simp
      · refine repL_append _ kids _ [d2] [c2] ?_ ?_
        · refine repL_frame kids a _ children ?_ hL
          intro i hi
          exact arenaGet_push_ne a s c2 i (fun he => hnd.1 (he ▸ hi))
        · simp only [RepL]
          refine ⟨c2, [], rfl, ?_, rfl⟩
          exact repT_frame d2 a _ c2
            (fun i hi => arenaGet_push_ne a s c2 i (fun he => hs2 (he ▸ hi))) hrep2
  | .node id nm kids, a, c, depth + 1, s, c2, d2, hrep, hsp, hnd, hrep2, hs2 => by
      simp only [DTree.spineD, List.getElem?_cons_succ] at hsp
      simp only [RepT] at hrep
      obtain ⟨hc, children, hget, hL⟩ := hrep
      simp only [DTree.idsD, List.nodup_cons] at hnd
      have hsmem : s ∈ DTree.idsDL kids :=
        spineDL_sub_idsDL kids s (List.getElem?_mem hsp)
      have hne : id ≠ s := fun he => hnd.1 (he ▸ hsmem)
      show RepT (arenaPush a s c2) c (.node id nm (pushDL kids depth d2))
      simp only [RepT]
      refine ⟨hc, children, ?_, ?_⟩
      · rw [arenaGet_push_ne a s c2 id hne]
        exact hget
      · exact repL_pushDL kids a children depth s c2 d2 hL hsp hnd.2 hrep2 hs2

/-- `repT_pushD` over a forest: the push lands in the last tree. -/
theorem repL_pushDL {T : Type} : ∀ (ks : List (DTree T)) (a : Arena T)
    (cs : List (IChild T)) (depth s : Nat) (c2 : IChild T) (d2 : DTree T),
    RepL a cs ks → (DTree.spineDL ks)[depth]? = some s → (DTree.idsDL ks).Nodup →
    RepT a c2 d2 → s ∉ DTree.idsD d2 →
    RepL (arenaPush a s c2) cs (pushDL ks depth d2)
  | [], a, cs, depth, s, c2, d2, hrep, hsp, hnd, hrep2, hs2 => by
      simp [DTree.spineDL] at hsp
  | [k], a, cs, depth, s, c2, d2, hrep, hsp, hnd, hrep2, hs2 => by
      simp only [RepL] at hrep
      obtain ⟨c, cs2, rfl, hc, hrest⟩ := hrep
      subst hrest
      simp only [DTree.spineDL] at hsp
      simp only [DTree.idsDL, List.append_nil] at hnd
      show RepL (arenaPush a s c2) [c] [pushD k depth d2]
      simp only [RepL]
      exact ⟨c, [], rfl, repT_pushD k a c depth s c2 d2 hc hsp hnd hrep2 hs2, rfl⟩
  | k :: k2 :: ks, a, cs, depth, s, c2, d2, hrep, hsp, hnd, hrep2, hs2 => by
      simp only [RepL] at hrep
      obtain ⟨c, cs2, rfl, hc, hrest⟩ := hrep
      have hnd2 : (DTree.idsD k).Nodup ∧ (DTree.idsDL (k2 :: ks)).Nodup ∧
          (DTree.idsD k).Disjoint (DTree.idsDL (k2 :: ks)) := by
        have hkk : DTree.idsDL (k :: k2 :: ks) =
            DTree.idsD k ++ DTree.idsDL (k2 :: ks) := rfl
        rw [hkk, List.nodup_append] at hnd
        exact hnd
      have hsmem : s ∈ DTree.idsDL (k2 :: ks) :=
        spineDL_sub_idsDL (k2 :: ks) s (List.getElem?_mem hsp)
      show RepL (arenaPush a s c2) (c :: cs2) (k :: pushDL (k2 :: ks) depth d2)
      simp only [RepL]
      refine ⟨c, cs2, rfl, ?_, ?_⟩
      · refine repT_frame k a _ c ?_ hc
        intro i hi
        refine arenaGet_push_ne a s c2 i (fun he => ?_)
        exact hnd2.2.2 (he ▸ hi) hsmem
      · refine repL_pushDL (k2 :: ks) a cs2 depth s c2 d2 hrest hsp ?_ hrep2 hs2
        exact hnd2.2.1

end

/-- Walking the non-`RuleName` frames sitting below a processed `RuleName`
parent, `ascend` is a no-op until it pushes the current subtree into that
parent's entry and stops, leaving `root?` alone. -/
theorem ascend_break {T : Type} : ∀ (pre : List GSSFrame) (r0 g : GSSFrame)
    (A2 : GSSChain) (a : Arena T) (root? : Option Nat) (curr : IChild T),
    (∀ f ∈ pre, isRuleFrame f = false) → isRuleFrame g = true →
    (arenaGet a g.id).isSome = true →
    ascend a root? curr (r0 :: (pre ++ g :: A2)) = .ok (arenaPush a g.id curr, root?)
  | [], r0, g, A2, a, root?, curr, hpre, hg, hget => by
      obtain ⟨gid, gexpr, gpd⟩ := g
      cases gexpr with
      | RuleName nm =>
          cases he : arenaGet a gid with
          | none => rw [he] at hget; simp at hget
          | some e =>
              show ascend a root? curr (r0 :: ⟨gid, .RuleName nm, gpd⟩ :: A2) = _
              simp only [ascend, he]
      | Terminal pat => simp [isRuleFrame] at hg
      | Concatenation cs => simp [isRuleFrame] at hg
      | Alternatives cs => simp [isRuleFrame] at hg
      | Optional c => simp [isRuleFrame] at hg
      | Many c => simp [isRuleFrame] at hg
      | OneOrMore c => simp [isRuleFrame] at hg
  | f1 :: pre, r0, g, A2, a, root?, curr, hpre, hg, hget => by
      have hf1 : isRuleFrame f1 = false := hpre f1 (List.mem_cons_self _ _)
      have htl : ∀ f ∈ pre, isRuleFrame f = false :=
        fun f hf => hpre f (List.mem_cons_of_mem _ hf)
      have hne : (pre ++ g :: A2).isEmpty = false := by
        cases pre <;> simp
      obtain ⟨fid, fexpr, fpd⟩ := f1
      cases fexpr with
      | RuleName nm => simp [isRuleFrame] at hf1
      | Terminal pat =>
          show ascend a root? curr
            (r0 :: ⟨fid, .Terminal pat, fpd⟩ :: (pre ++ g :: A2)) = _
          simp only [ascend, hne, Bool.false_eq_true, if_false]
          exact ascend_break pre _ g A2 a root? curr htl hg hget
      | Concatenation cs =>
          show ascend a root? curr
            (r0 :: ⟨fid, .Concatenation cs, fpd⟩ :: (pre ++ g :: A2)) = _
          simp only [ascend, hne, Bool.false_eq_true, if_false]
          exact ascend_break pre _ g A2 a root? curr htl hg hget
      | Alternatives cs =>
          show ascend a root? curr
            (r0 :: ⟨fid, .Alternatives cs, fpd⟩ :: (pre ++ g :: A2)) = _
          simp only [ascend, hne, Bool.false_eq_true, if_false]
          exact ascend_break pre _ g A2 a root? curr htl hg hget
      | Optional c =>
          show ascend a root? curr
            (r0 :: ⟨fid, .Optional c, fpd⟩ :: (pre ++ g :: A2)) = _
          simp only [ascend, hne, Bool.false_eq_true, if_false]
          exact ascend_break pre _ g A2 a root? curr htl hg hget
      | Many c =>
          show ascend a root? curr
            (r0 :: ⟨fid, .Many c, fpd⟩ :: (pre ++ g :: A2)) = _
          simp only [ascend, hne, Bool.false_eq_true, if_false]
          exact ascend_break pre _ g A2 a root? curr htl hg hget
      | OneOrMore c =>
          show ascend a root? curr
            (r0 :: ⟨fid, .OneOrMore c, fpd⟩ :: (pre ++ g :: A2)) = _
          simp only [ascend, hne, Bool.false_eq_true, if_false]
          exact ascend_break pre _ g A2 a root? curr htl hg hget

/-- One `ascend` run on a chain whose walked segment `mid` consists of frames
not yet in the arena, sitting below a processed `RuleName` frame `g`: the run
stores one entry per `RuleName` frame of `mid` (building `wrapPath dsub mid`
bottom-up), pushes the result into `g`'s entry and stops, leaving `root?` and
every previously stored entry alone. -/
theorem ascend_fresh_break {T : Type} : ∀ (mid : List GSSFrame) (r0 g : GSSFrame)
    (A2 : GSSChain) (a : Arena T) (root? : Option Nat) (curr : IChild T)
    (c0 : IChild T) (d0 dsub : DTree T),
    (∀ f ∈ mid, isRuleFrame f = true →
      f.id ∉ DTree.idsD d0 ∧ f.id ∉ DTree.idsD dsub) →
    List.Pairwise (fun f1 f2 => f1.id ≠ f2.id) (mid.filter isRuleFrame) →
    isRuleFrame g = true → g.id ∈ DTree.idsD d0 →
    RepT a c0 d0 → RepT a curr dsub →
    (∀ id, (arenaGet a id).isSome = true ↔
      (id ∈ DTree.idsD d0 ∨ id ∈ DTree.idsD dsub)) →
    ∃ aMid cMid,
      ascend a root? curr (r0 :: (mid ++ g :: A2)) =
        .ok (arenaPush aMid g.id cMid, root?) ∧
      RepT aMid cMid (wrapPath dsub mid) ∧ RepT aMid c0 d0 ∧
      (∀ id, (arenaGet aMid id).isSome = true ↔
        (id ∈ DTree.idsD d0 ∨ id ∈ DTree.idsD (wrapPath dsub mid)))
  | [], r0, g, A2, a, root?, curr, c0, d0, dsub, hmid, hpair, hg, hgmem,
      hrep0, hrepsub, hdom => by
      refine ⟨a, curr, ?_, hrepsub, hrep0, hdom⟩
      exact ascend_break [] r0 g A2 a root? curr (by simp) hg
        ((hdom g.id).mpr (Or.inl hgmem))
  | f1 :: mid, r0, g, A2, a, root?, curr, c0, d0, dsub, hmid, hpair, hg, hgmem,
      hrep0, hrepsub, hdom => by
      have htl : ∀ f ∈ mid, isRuleFrame f = true →
          f.id ∉ DTree.idsD d0 ∧ f.id ∉ DTree.idsD dsub :=
        fun f hf => hmid f (List.mem_cons_of_mem _ hf)
      have hne : (mid ++ g :: A2).isEmpty = false := by
        cases mid <;> simp
      obtain ⟨fid, fexpr, fpd⟩ := f1
      cases fexpr with
      | RuleName nm =>
          have hfmem := hmid ⟨fid, .RuleName nm, fpd⟩ (List.mem_cons_self _ _) rfl
          have hfil : (⟨fid, .RuleName nm, fpd⟩ :: mid).filter isRuleFrame =
              ⟨fid, .RuleName nm, fpd⟩ :: mid.filter isRuleFrame := rfl
          rw [hfil, List.pairwise_cons] at hpair
          have hnone : arenaGet a fid = none := by
            cases he : arenaGet a fid with
            | none => rfl
            | some e =>
                have hin : (fid ∈ DTree.idsD d0 ∨ fid ∈ DTree.idsD dsub) :=
                  (hdom fid).mp (by rw [he]; rfl)
                exact absurd hin (by simp only [not_or]; exact hfmem)
          have ha2get : ∀ i, i ≠ fid →
              arenaGet (arenaPush (arenaInsert a fid ⟨nm, []⟩) fid curr) i =
                arenaGet a i := by
            intro i hi
            rw [arenaGet_push_ne _ _ _ _ hi, arenaGet_insert, if_neg hi]
          have hget2 : arenaGet (arenaPush (arenaInsert a fid ⟨nm, []⟩) fid curr) fid =
              some ⟨nm, [curr]⟩ := by
            rw [arenaGet_push, arenaGet_insert]
            simp
          have hrep0b : RepT (arenaPush (arenaInsert a fid ⟨nm, []⟩) fid curr) c0 d0 :=
            repT_frame d0 a _ c0
              (fun i hi => ha2get i (fun he => hfmem.1 (he ▸ hi))) hrep0
          have hrepsubb : RepT (arenaPush (arenaInsert a fid ⟨nm, []⟩) fid curr)
              (.ref fid) (DTree.node fid nm [dsub]) := by
            simp only [RepT]
            refine ⟨by trivial, [curr], hget2, ?_⟩
            refine repL_cons _ curr [] dsub [] ?_ (repL_nil _)
            exact repT_frame dsub a _ curr
              (fun i hi => ha2get i (fun he => hfmem.2 (he ▸ hi))) hrepsub
          have hdomb : ∀ id, (arenaGet (arenaPush (arenaInsert a fid ⟨nm, []⟩) fid curr)
              id).isSome = true ↔
              (id ∈ DTree.idsD d0 ∨ id ∈ DTree.idsD (DTree.node fid nm [dsub])) := by
            intro id
            by_cases hi : id = fid
            · subst hi
              rw [hget2]
              simp [DTree.idsD, DTree.idsDL]
            · rw [ha2get id hi, hdom id]
              simp only [DTree.idsD, DTree.idsDL, List.append_nil, List.mem_cons]
              constructor
              · intro h2
                rcases h2 with h2 | h2
                · exact Or.inl h2
                · exact Or.inr (Or.inr h2)
              · intro h2
                rcases h2 with h2 | h2 | h2
                · exact Or.inl h2
                · exact absurd h2 hi
                · exact Or.inr h2
          have hmidb : ∀ f ∈ mid, isRuleFrame f = true →
              f.id ∉ DTree.idsD d0 ∧ f.id ∉ DTree.idsD (DTree.node fid nm [dsub]) := by
            intro f hf hr
            refine ⟨(htl f hf hr).1, ?_⟩
            simp only [DTree.idsD, DTree.idsDL, List.append_nil, List.mem_cons, not_or]
            refine ⟨?_, (htl f hf hr).2⟩
            exact (hpair.1 f (List.mem_filter.mpr ⟨hf, hr⟩)).symm
          obtain ⟨aMid, cMid, hrun, hW, h0, hdm⟩ :=
            ascend_fresh_break mid ⟨fid, .RuleName nm, fpd⟩ g A2
              (arenaPush (arenaInsert a fid ⟨nm, []⟩) fid curr) root? (.ref fid)
              c0 d0 (DTree.node fid nm [dsub]) hmidb hpair.2 hg hgmem hrep0b hrepsubb hdomb
          refine ⟨aMid, cMid, ?_, hW, h0, hdm⟩
          show ascend a root? curr
            (r0 :: ⟨fid, .RuleName nm, fpd⟩ :: (mid ++ g :: A2)) = _
          simp only [ascend, hnone, hne, Bool.false_eq_true, if_false]
          exact hrun
      | Terminal pat =>
          obtain ⟨aMid, cMid, hrun, hW, h0, hdm⟩ :=
            ascend_fresh_break mid ⟨fid, .Terminal pat, fpd⟩ g A2 a root? curr
              c0 d0 dsub htl hpair hg hgmem hrep0 hrepsub hdom
          refine ⟨aMid, cMid, ?_, hW, h0, hdm⟩
          show ascend a root? curr
            (r0 :: ⟨fid, .Terminal pat, fpd⟩ :: (mid ++ g :: A2)) = _
          simp only [ascend, hne, Bool.false_eq_true, if_false]
          exact hrun
      | Concatenation cs =>
          obtain ⟨aMid, cMid, hrun, hW, h0, hdm⟩ :=
            ascend_fresh_break mid ⟨fid, .Concatenation cs, fpd⟩ g A2 a root? curr
              c0 d0 dsub htl hpair hg hgmem hrep0 hrepsub hdom
          refine ⟨aMid, cMid, ?_, hW, h0, hdm⟩
          show ascend a root? curr
            (r0 :: ⟨fid, .Concatenation cs, fpd⟩ :: (mid ++ g :: A2)) = _
          simp only [ascend, hne, Bool.false_eq_true, if_false]
          exact hrun
      | Alternatives cs =>
          obtain ⟨aMid, cMid, hrun, hW, h0, hdm⟩ :=
            ascend_fresh_break mid ⟨fid, .Alternatives cs, fpd⟩ g A2 a root? curr
              c0 d0 dsub htl hpair hg hgmem hrep0 hrepsub hdom
          refine ⟨aMid, cMid, ?_, hW, h0, hdm⟩
          show ascend a root? curr
            (r0 :: ⟨fid, .Alternatives cs, fpd⟩ :: (mid ++ g :: A2)) = _
          simp only [ascend, hne, Bool.false_eq_true, if_false]
          exact hrun
      | Optional c =>
          obtain ⟨aMid, cMid, hrun, hW, h0, hdm⟩ :=
            ascend_fresh_break mid ⟨fid, .Optional c, fpd⟩ g A2 a root? curr
              c0 d0 dsub htl hpair hg hgmem hrep0 hrepsub hdom
          refine ⟨aMid, cMid, ?_, hW, h0, hdm⟩
          show ascend a root? curr
            (r0 :: ⟨fid, .Optional c, fpd⟩ :: (mid ++ g :: A2)) = _
          simp only [ascend, hne, Bool.false_eq_true, if_false]
          exact hrun
      | Many c =>
          obtain ⟨aMid, cMid, hrun, hW, h0, hdm⟩ :=
            ascend_fresh_break mid ⟨fid, .Many c, fpd⟩ g A2 a root? curr
              c0 d0 dsub htl hpair hg hgmem hrep0 hrepsub hdom
          refine ⟨aMid, cMid, ?_, hW, h0, hdm⟩
          show ascend a root? curr
            (r0 :: ⟨fid, .Many c, fpd⟩ :: (mid ++ g :: A2)) = _
          simp only [ascend, hne, Bool.false_eq_true, if_false]
          exact hrun
      | OneOrMore c =>
          obtain ⟨aMid, cMid, hrun, hW, h0, hdm⟩ :=
            ascend_fresh_break mid ⟨fid, .OneOrMore c, fpd⟩ g A2 a root? curr
              c0 d0 dsub htl hpair hg hgmem hrep0 hrepsub hdom
          refine ⟨aMid, cMid, ?_, hW, h0, hdm⟩
          show ascend a root? curr
            (r0 :: ⟨fid, .OneOrMore c, fpd⟩ :: (mid ++ g :: A2)) = _
          simp only [ascend, hne, Bool.false_eq_true, if_false]
          exact hrun

/-- The very first `ascend` run: no frame of the chain is in the arena yet, so
the walk stores an entry for every `RuleName` frame up to and including the
top frame `gl`, and sets `root` to alias the top (parent-less) entry. -/
theorem ascend_to_root {T : Type} : ∀ (mid : List GSSFrame) (r0 gl : GSSFrame)
    (a : Arena T) (root? : Option Nat) (curr : IChild T) (dsub : DTree T),
    (∀ f ∈ mid, isRuleFrame f = true → f.id ∉ DTree.idsD dsub) →
    List.Pairwise (fun f1 f2 => f1.id ≠ f2.id) (mid.filter isRuleFrame) →
    isRuleFrame gl = true → gl.id ∉ DTree.idsD dsub →
    (∀ f ∈ mid, isRuleFrame f = true → f.id ≠ gl.id) →
    RepT a curr dsub →
    (∀ id, (arenaGet a id).isSome = true ↔ id ∈ DTree.idsD dsub) →
    ∃ a2, ascend a root? curr (r0 :: (mid ++ [gl])) = .ok (a2, some gl.id) ∧
      RepT a2 (.ref gl.id) (wrapPath dsub (mid ++ [gl])) ∧
      (∀ id, (arenaGet a2 id).isSome = true ↔
        id ∈ DTree.idsD (wrapPath dsub (mid ++ [gl])))
  | [], r0, gl, a, root?, curr, dsub, hmid, hpair, hgl, hglid, hglne,
      hrepsub, hdom => by
      obtain ⟨gid, gexpr, gpd⟩ := gl
      cases gexpr with
      | RuleName nm =>
          have hnone : arenaGet a gid = none := by
            cases he : arenaGet a gid with
            | none => rfl
            | some e =>
                have hin : gid ∈ DTree.idsD dsub := (hdom gid).mp (by rw [he]; rfl)
                exact absurd hin hglid
          have ha2get : ∀ i, i ≠ gid →
              arenaGet (arenaPush (arenaInsert a gid ⟨nm, []⟩) gid curr) i =
                arenaGet a i := by
            intro i hi
            rw [arenaGet_push_ne _ _ _ _ hi, arenaGet_insert, if_neg hi]
          have hget2 : arenaGet (arenaPush (arenaInsert a gid ⟨nm, []⟩) gid curr) gid =
              some ⟨nm, [curr]⟩ := by
            rw [arenaGet_push, arenaGet_insert]
            simp
          refine ⟨arenaPush (arenaInsert a gid ⟨nm, []⟩) gid curr, ?_, ?_, ?_⟩
          · show ascend a root? curr (r0 :: [⟨gid, .RuleName nm, gpd⟩]) = _
            simp only [ascend, hnone, hget2, List.isEmpty_nil, if_true]
          · show RepT _ (.ref gid) (DTree.node gid nm [dsub])
            simp only [RepT]
            refine ⟨by trivial, [curr], hget2, ?_⟩
            refine repL_cons _ curr [] dsub [] ?_ (repL_nil _)
            exact repT_frame dsub a _ curr
              (fun i hi => ha2get i (fun he => hglid (he ▸ hi))) hrepsub
          · intro id
            show (arenaGet _ id).isSome = true ↔ id ∈ DTree.idsD (DTree.node gid nm [dsub])
            by_cases hi : id = gid
            · subst hi
              rw [hget2]
              simp [DTree.idsD, DTree.idsDL]
            · rw [ha2get id hi, hdom id]
              simp only [DTree.idsD, DTree.idsDL, List.append_nil, List.mem_cons]
              constructor
              · intro h2
                exact Or.inr h2
              · intro h2
                rcases h2 with h2 | h2
                · exact absurd h2 hi
                · exact h2
      | Terminal pat => simp [isRuleFrame] at hgl
      | Concatenation cs => simp [isRuleFrame] at hgl
      | Alternatives cs => simp [isRuleFrame] at hgl
      | Optional c => simp [isRuleFrame] at hgl
      | Many c => simp [isRuleFrame] at hgl
      | OneOrMore c => simp [isRuleFrame] at hgl
  | f1 :: mid, r0, gl, a, root?, curr, dsub, hmid, hpair, hgl, hglid, hglne,
      hrepsub, hdom => by
      have htl : ∀ f ∈ mid, isRuleFrame f = true → f.id ∉ DTree.idsD dsub :=
        fun f hf => hmid f (List.mem_cons_of_mem _ hf)
      have htlg : ∀ f ∈ mid, isRuleFrame f = true → f.id ≠ gl.id :=
        fun f hf => hglne f (List.mem_cons_of_mem _ hf)
      have hne : (mid ++ [gl]).isEmpty = false := by
        cases mid <;> simp
      obtain ⟨fid, fexpr, fpd⟩ := f1
      cases fexpr with
      | RuleName nm =>
          have hfid : fid ∉ DTree.idsD dsub :=
            hmid ⟨fid, .RuleName nm, fpd⟩ (List.mem_cons_self _ _) rfl
          have hfgl : fid ≠ gl.id :=
            hglne ⟨fid, .RuleName nm, fpd⟩ (List.mem_cons_self _ _) rfl
          have hfil : (⟨fid, .RuleName nm, fpd⟩ :: mid).filter isRuleFrame =
              ⟨fid, .RuleName nm, fpd⟩ :: mid.filter isRuleFrame := rfl
          rw [hfil, List.pairwise_cons] at hpair
          have hnone : arenaGet a fid = none := by
            cases he : arenaGet a fid with
            | none => rfl
            | some e =>
                have hin : fid ∈ DTree.idsD dsub := (hdom fid).mp (by rw [he]; rfl)
                exact absurd hin hfid
          have ha2get : ∀ i, i ≠ fid →
              arenaGet (arenaPush (arenaInsert a fid ⟨nm, []⟩) fid curr) i =
                arenaGet a i := by
            intro i hi
            rw [arenaGet_push_ne _ _ _ _ hi, arenaGet_insert, if_neg hi]
          have hget2 : arenaGet (arenaPush (arenaInsert a fid ⟨nm, []⟩) fid curr) fid =
              some ⟨nm, [curr]⟩ := by
            rw [arenaGet_push, arenaGet_insert]
            simp
          have hrepsubb : RepT (arenaPush (arenaInsert a fid ⟨nm, []⟩) fid curr)
              (.ref fid) (DTree.node fid nm [dsub]) := by
            simp only [RepT]
            refine ⟨by trivial, [curr], hget2, ?_⟩
            refine repL_cons _ curr [] dsub [] ?_ (repL_nil _)
            exact repT_frame dsub a _ curr
              (fun i hi => ha2get i (fun he => hfid (he ▸ hi))) hrepsub
          have hdomb : ∀ id, (arenaGet (arenaPush (arenaInsert a fid ⟨nm, []⟩) fid curr)
              id).isSome = true ↔ id ∈ DTree.idsD (DTree.node fid nm [dsub]) := by
            intro id
            by_cases hi : id = fid
            · subst hi
              rw [hget2]
              simp [DTree.idsD, DTree.idsDL]
            · rw [ha2get id hi, hdom id]
              simp only [DTree.idsD, DTree.idsDL, List.append_nil, List.mem_cons]
              constructor
              · intro h2
                exact Or.inr h2
              · intro h2
                rcases h2 with h2 | h2
                · exact absurd h2 hi
                · exact h2
          have hmidb : ∀ f ∈ mid, isRuleFrame f = true →
              f.id ∉ DTree.idsD (DTree.node fid nm [dsub]) := by
            intro f hf hr
            simp only [DTree.idsD, DTree.idsDL, List.append_nil, List.mem_cons, not_or]
            refine ⟨?_, htl f hf hr⟩
            exact (hpair.1 f (List.mem_filter.mpr ⟨hf, hr⟩)).symm
          have hglidb : gl.id ∉ DTree.idsD (DTree.node fid nm [dsub]) := by
            simp only [DTree.idsD, DTree.idsDL, List.append_nil, List.mem_cons, not_or]
            exact ⟨fun he => hfgl he.symm, hglid⟩
          obtain ⟨a2, hrun, hW, hdm⟩ :=
            ascend_to_root mid ⟨fid, .RuleName nm, fpd⟩ gl
              (arenaPush (arenaInsert a fid ⟨nm, []⟩) fid curr) root? (.ref fid)
              (DTree.node fid nm [dsub]) hmidb hpair.2 hgl hglidb htlg hrepsubb hdomb
          refine ⟨a2, ?_, hW, hdm⟩
          show ascend a root? curr
            (r0 :: ⟨fid, .RuleName nm, fpd⟩ :: (mid ++ [gl])) = _
          simp only [ascend, hnone, hne, Bool.false_eq_true, if_false]
          exact hrun
      | Terminal pat =>
          obtain ⟨a2, hrun, hW, hdm⟩ :=
            ascend_to_root mid ⟨fid, .Terminal pat, fpd⟩ gl a root? curr dsub
              htl hpair hgl hglid htlg hrepsub hdom
          refine ⟨a2, ?_, hW, hdm⟩
          show ascend a root? curr
            (r0 :: ⟨fid, .Terminal pat, fpd⟩ :: (mid ++ [gl])) = _
          simp only [ascend, hne, Bool.false_eq_true, if_false]
          exact hrun
      | Concatenation cs =>
          obtain ⟨a2, hrun, hW, hdm⟩ :=
            ascend_to_root mid ⟨fid, .Concatenation cs, fpd⟩ gl a root? curr dsub
              htl hpair hgl hglid htlg hrepsub hdom
          refine ⟨a2, ?_, hW, hdm⟩
          show ascend a root? curr
            (r0 :: ⟨fid, .Concatenation cs, fpd⟩ :: (mid ++ [gl])) = _
          simp only [ascend, hne, Bool.false_eq_true, if_false]
          exact hrun
      | Alternatives cs =>
          obtain ⟨a2, hrun, hW, hdm⟩ :=
            ascend_to_root mid ⟨fid, .Alternatives cs, fpd⟩ gl a root? curr dsub
              htl hpair hgl hglid htlg hrepsub hdom
          refine ⟨a2, ?_, hW, hdm⟩
          show ascend a root? curr
            (r0 :: ⟨fid, .Alternatives cs, fpd⟩ :: (mid ++ [gl])) = _
          simp only [ascend, hne, Bool.false_eq_true, if_false]
          exact hrun
      | Optional c =>
          obtain ⟨a2, hrun, hW, hdm⟩ :=
            ascend_to_root mid ⟨fid, .Optional c, fpd⟩ gl a root? curr dsub
              htl hpair hgl hglid htlg hrepsub hdom
          refine ⟨a2, ?_, hW, hdm⟩
          show ascend a root? curr
            (r0 :: ⟨fid, .Optional c, fpd⟩ :: (mid ++ [gl])) = _
          simp only [ascend, hne, Bool.false_eq_true, if_false]
          exact hrun
      | Many c =>
          obtain ⟨a2, hrun, hW, hdm⟩ :=
            ascend_to_root mid ⟨fid, .Many c, fpd⟩ gl a root? curr dsub
              htl hpair hgl hglid htlg hrepsub hdom
          refine ⟨a2, ?_, hW, hdm⟩
          show ascend a root? curr
            (r0 :: ⟨fid, .Many c, fpd⟩ :: (mid ++ [gl])) = _
          simp only [ascend, hne, Bool.false_eq_true, if_false]
          exact hrun
      | OneOrMore c =>
          obtain ⟨a2, hrun, hW, hdm⟩ :=
            ascend_to_root mid ⟨fid, .OneOrMore c, fpd⟩ gl a root? curr dsub
              htl hpair hgl hglid htlg hrepsub hdom
          refine ⟨a2, ?_, hW, hdm⟩
          show ascend a root? curr
            (r0 :: ⟨fid, .OneOrMore c, fpd⟩ :: (mid ++ [gl])) = _
          simp only [ascend, hne, Bool.false_eq_true, if_false]
          exact hrun

theorem isRuleFrame_true : ∀ {f : GSSFrame}, isRuleFrame f = true →
    ∃ nm, f.expr = .RuleName nm := by
  intro f h
  obtain ⟨fid, fexpr, fpd⟩ := f
  cases fexpr with
  | RuleName nm => exact ⟨nm, rfl⟩
  | Terminal pat => simp [isRuleFrame] at h
  | Concatenation cs => simp [isRuleFrame] at h
  | Alternatives cs => simp [isRuleFrame] at h
  | Optional c => simp [isRuleFrame] at h
  | Many c => simp [isRuleFrame] at h
  | OneOrMore c => simp [isRuleFrame] at h

theorem getLast?_of_suffix {A prev : GSSChain} (h : List.IsSuffix A prev)
    (hAne : A ≠ []) : prev.getLast? = A.getLast? := by
  obtain ⟨t, rfl⟩ := h
  rw [List.getLast?_append_of_ne_nil t hAne]

theorem ruleIds_suffix {A prev : GSSChain} (h : List.IsSuffix A prev) :
    List.IsSuffix (ruleIds A) (ruleIds prev) := by
  obtain ⟨t, rfl⟩ := h
  exact ⟨ruleIds t, (ruleIds_append t A).symm⟩

/-- Split a list at its first element satisfying `q`. -/
theorem filter_first_split {α : Type} (q : α → Bool) :
    ∀ (l : List α), l.filter q ≠ [] →
    ∃ pre g rest, l = pre ++ g :: rest ∧ (∀ x ∈ pre, q x = false) ∧ q g = true ∧
      l.filter q = g :: rest.filter q
  | [], h => absurd rfl h
  | x :: xs, h => by
      cases hq : q x with
      | false =>
          have hfx : (x :: xs).filter q = xs.filter q := by
            simp [List.filter_cons, hq]
          obtain ⟨pre, g, rest, heq, hpre, hg, hfil⟩ :=
            filter_first_split q xs (by rw [hfx] at h; exact h)
          refine ⟨x :: pre, g, rest, by rw [heq]; rfl, ?_, hg, by rw [hfx, hfil]⟩
          intro y hy
          rcases List.mem_cons.mp hy with rfl | hy
          · exact hq
          · exact hpre y hy
      | true =>
          exact ⟨[], x, xs, rfl, by simp, hq, by simp [List.filter_cons, hq]⟩

/-- The left-to-right reading of a live trace: each chain of the list is one
engine step out of its predecessor, with monotone counters threaded from `C`
to `C2` and `lastc` the final chain. -/
inductive StepChain (p : Parser) : Nat → GSSChain → List GSSChain → Nat → GSSChain → Prop where
  | nil (C C2 : Nat) (prev : GSSChain) (h : C ≤ C2) : StepChain p C prev [] C2 prev
  | cons (C a b C2 : Nat) (prev c lastc : GSSChain) (rest : List GSSChain)
      (h1 : C ≤ a) (h2 : a ≤ b) (hstep : StepOut p a prev b c)
      (htail : StepChain p b c rest C2 lastc) :
      StepChain p C prev (c :: rest) C2 lastc

theorem stepChain_snoc {p : Parser} {C C2 aS bS : Nat} {prev lastc out : GSSChain}
    {l : List GSSChain} (h : StepChain p C prev l C2 lastc)
    (ha : C2 ≤ aS) (hb : aS ≤ bS) (hs : StepOut p aS lastc bS out) :
    StepChain p C prev (l ++ [out]) bS out := by
  revert ha hs
  induction h with
  | nil C0 C20 prev0 hle =>
      intro ha hs
      exact .cons C0 aS bS bS prev0 out out [] (by omega) hb hs
        (.nil bS bS out le_rfl)
  | cons C0 a0 b0 C20 prev0 c0 lastc0 rest0 h1 h2 hstep htail ih =>
      intro ha hs
      exact .cons C0 a0 b0 bS prev0 c0 out (rest0 ++ [out]) h1 h2 hstep (ih ha hs)

theorem stepChain_split {p : Parser} : ∀ (l1 l2 : List GSSChain) {C C2 : Nat}
    {prev lastc : GSSChain}, StepChain p C prev (l1 ++ l2) C2 lastc →
    ∃ Cm lm, StepChain p C prev l1 Cm lm ∧ StepChain p Cm lm l2 C2 lastc := by
  intro l1
  induction l1 with
  | nil =>
      intro l2 C C2 prev lastc h
      exact ⟨C, prev, .nil C C prev le_rfl, h⟩
  | cons c l1 ih =>
      intro l2 C C2 prev lastc h
      cases h with
      | cons _ a0 b0 _ _ _ _ _ h1 h2 hstep htail =>
          obtain ⟨Cm, lm, s1, s2⟩ := ih l2 htail
          exact ⟨Cm, lm, .cons C a0 b0 Cm prev c lm l1 h1 h2 hstep s1, s2⟩

theorem stepChain_weaken_end {p : Parser} {C C2 C3 : Nat} {prev lastc : GSSChain}
    {l : List GSSChain} (h : StepChain p C prev l C2 lastc) (hc : C2 ≤ C3) :
    StepChain p C prev l C3 lastc := by
  revert hc
  induction h with
  | nil C0 C20 prev0 hle =>
      intro hc
      exact .nil C0 C3 prev0 (by omega)
  | cons C0 a0 b0 C20 prev0 c0 lastc0 rest0 h1 h2 hstep htail ih =>
      intro hc
      exact .cons C0 a0 b0 C3 prev0 c0 lastc0 rest0 h1 h2 hstep (ih hc)

theorem traceOK_stepChain {p : Parser} {rootf : GSSFrame} {ctr : Nat}
    {tr : List GSSChain} {lastc : GSSChain} (h : TraceOK p rootf ctr tr lastc) :
    ∃ rest, tr = [[rootf]] ++ rest ∧ StepChain p 1 [rootf] rest ctr lastc := by
  induction h with
  | base c h1 => exact ⟨[], rfl, .nil 1 c [rootf] (by omega)⟩
  | step c a b cOut tr0 last0 out0 hpre h1 h2 h3 hstep hterm hpred ih =>
      obtain ⟨rest0, htr0, hsc⟩ := ih
      refine ⟨rest0 ++ [out0], by rw [htr0, List.append_assoc], ?_⟩
      exact stepChain_weaken_end (stepChain_snoc hsc h1 h2 hstep) h3

/-- The invariant tying the `subtrees` arena, the `root` alias, and the chain
last processed by the reconstruction loop to the decorated tree built so far:
the root entry (key 0) represents the tree, whose right spine lists exactly
the `RuleName` frames of the last chain top-down, whose keys are distinct,
below the allocation counter, and exactly the arena's domain, and whose rule
names are all defined. -/
structure BTInv {T : Type} (p : Parser) (rootf : GSSFrame) (a : Arena T)
    (root? : Option Nat) (d : DTree T) (prev : GSSChain) (C : Nat) : Prop where
  rep : RepT a (.ref 0) d
  root_eq : root? = some 0
  spine_eq : DTree.spineD d = (ruleIds prev).reverse
  nodup : (DTree.idsD d).Nodup
  ids_lt : ∀ id ∈ DTree.idsD d, id < C
  dom_iff : ∀ id, (arenaGet a id).isSome = true ↔ id ∈ DTree.idsD d
  names : DTree.namesD p d = true
  anchored : prev.getLast? = some rootf

/-- The first loop iteration of `backtrace_to_tree` starts from the empty
arena: its `ascend` run reaches the parent-less top frame (the synthesized
root), stores an entry for every `RuleName` frame of the chain, sets `root`,
and establishes the reconstruction invariant with the consumed token as the
single leaf. -/
theorem bt_inv_first {T : Type} (p : Parser) (rootf : GSSFrame)
    (hr0 : rootf.id = 0) (hrr : isRuleFrame rootf = true)
    (hrnd : FrameNamesDef p rootf)
    (aC b : Nat) (m : GSSChain) (tok : T)
    (hstep : StepOut p aC [rootf] b m) (haC : 1 ≤ aC) (haCb : aC ≤ b)
    (hhead : pointsAtTerminal m = true) :
    ∃ a2 d2, ascend ([] : Arena T) none (.tok tok) m = .ok (a2, some 0) ∧
      BTInv p rootf a2 (some 0) d2 m b ∧ DTree.leavesD d2 = [tok] := by
  obtain ⟨rnm, hrnm⟩ := isRuleFrame_true hrr
  rcases hstep with ⟨fresh, A, rfl, hAne, hAsuf, hbounds, hpair⟩ |
    ⟨k, g, hgl, rfl, hk1, hk2⟩
  · -- a descent-suffix step out of the seed chain
    have hA : A = [rootf] := by
      rcases List.suffix_cons_iff.mp hAsuf with h | h
      · exact h
      · exact absurd (List.suffix_nil.mp h) hAne
    subst hA
    cases fresh with
    | nil =>
        exfalso
        obtain ⟨rid, rexpr, rpd⟩ := rootf
        simp only at hrnm
        subst hrnm
        simp [pointsAtTerminal] at hhead
    | cons mh freshT =>
        obtain ⟨mhid, mhexpr, mhpd⟩ := mh
        cases mhexpr with
        | Terminal pat =>
            have hboundsT : ∀ f ∈ freshT, aC ≤ f.id ∧ f.id < b ∧ FrameNamesDef p f :=
              fun f hf => hbounds f (List.mem_cons_of_mem _ hf)
            have hp1 : List.Pairwise (fun f1 f2 => f2.id < f1.id) freshT :=
              (List.pairwise_cons.mp hpair).2
            have hp3 : List.Pairwise (fun f1 f2 => f1.id ≠ f2.id)
                (freshT.filter isRuleFrame) :=
              (hp1.sublist (List.filter_sublist _)).imp (fun hlt => by omega)
            obtain ⟨a2, hrun, hW, hdm⟩ :=
              ascend_to_root freshT ⟨mhid, .Terminal pat, mhpd⟩ rootf
                ([] : Arena T) none (.tok tok) (.leaf tok)
                (by intro f hf hr; simp [DTree.idsD])
                hp3 hrr (by simp [DTree.idsD])
                (by
                  intro f hf hr
                  have := (hboundsT f hf).1
                  omega)
                (by simp [RepT])
                (by intro id; simp [arenaGet, List.lookup, DTree.idsD])
            rw [hr0] at hrun
            have hrt : ruleIds [rootf] = [rootf.id] := by
              simp [ruleIds, List.filter_cons, hrr]
            have hridsT : ∀ x ∈ ruleIds freshT, aC ≤ x ∧ x < b := by
              intro x hx
              simp only [ruleIds, List.mem_map] at hx
              obtain ⟨f, hf, rfl⟩ := hx
              have := hboundsT f (List.mem_of_mem_filter hf)
              exact ⟨this.1, this.2.1⟩
            refine ⟨a2, wrapPath (.leaf tok) (freshT ++ [rootf]), hrun, ?_, ?_⟩
            · refine ⟨by rw [← hr0]; exact hW, rfl, ?_, ?_, ?_, hdm, ?_, ?_⟩
              · -- spine
                rw [spine_wrapPath]
                have hmh : ruleIds ((⟨mhid, .Terminal pat, mhpd⟩ :: freshT) ++ [rootf]) =
                    ruleIds (freshT ++ [rootf]) := rfl
                rw [hmh]
                simp [DTree.spineD]
              · -- nodup
                rw [ids_wrapPath]
                simp only [DTree.idsD, List.append_nil]
                rw [List.nodup_reverse, ruleIds_append, hrt]
                rw [List.nodup_append]
                refine ⟨List.pairwise_map.mpr hp3, by simp, ?_⟩
                intro x hx
                have := hridsT x hx
                simp only [List.mem_singleton]
                intro hx0
                subst hx0
                omega
              · -- ids below the counter
                intro id hid
                rw [ids_wrapPath] at hid
                simp only [DTree.idsD, List.append_nil, List.mem_reverse] at hid
                rw [ruleIds_append, hrt] at hid
                rcases List.mem_append.mp hid with hid | hid
                · have := hridsT id hid
                  omega
                · simp only [List.mem_singleton] at hid
                  subst hid
                  omega
              · -- names
                rw [names_wrapPath]
                · rfl
                · intro f hf hr
                  rcases List.mem_append.mp hf with hf | hf
                  · exact (hboundsT f hf).2.2
                  · simp only [List.mem_singleton] at hf
                    subst hf
                    exact hrnd
              · -- anchored
                show ((⟨mhid, .Terminal pat, mhpd⟩ :: freshT) ++ [rootf]).getLast? =
                  some rootf
                rw [List.getLast?_append_of_ne_nil _ (by simp)]
                rfl
            · rw [leaves_wrapPath]
              rfl
        | RuleName nm =>
            exfalso
            simp [pointsAtTerminal] at hhead
        | Concatenation cs =>
            exfalso
            simp [pointsAtTerminal] at hhead
        | Alternatives cs =>
            exfalso
            simp [pointsAtTerminal] at hhead
        | Optional c =>
            exfalso
            simp [pointsAtTerminal] at hhead
        | Many c =>
            exfalso
            simp [pointsAtTerminal] at hhead
        | OneOrMore c =>
            exfalso
            simp [pointsAtTerminal] at hhead
  · -- a Done accept step: its chain is not terminal-headed
    exfalso
    have hg : g = rootf := by simpa using hgl.symm
    rw [hg] at hhead
    rw [hrnm] at hhead
    simp [pointsAtTerminal] at hhead

theorem pointsAtTerminal_shape : ∀ {c : GSSChain}, pointsAtTerminal c = true →
    ∃ fid pat fpd crest, c = ⟨fid, .Terminal pat, fpd⟩ :: crest := by
  intro c h
  cases c with
  | nil => simp [pointsAtTerminal] at h
  | cons f crest =>
      obtain ⟨fid, fexpr, fpd⟩ := f
      cases fexpr with
      | Terminal pat => exact ⟨fid, pat, fpd, crest, rfl⟩
      | RuleName nm => simp [pointsAtTerminal] at h
      | Concatenation cs => simp [pointsAtTerminal] at h
      | Alternatives cs => simp [pointsAtTerminal] at h
      | Optional c2 => simp [pointsAtTerminal] at h
      | Many c2 => simp [pointsAtTerminal] at h
      | OneOrMore c2 => simp [pointsAtTerminal] at h

/-- One later iteration of the reconstruction loop: the `ascend` run of a
terminal-headed chain stepping out of the previous one stores the freshly
descended rule frames as a new path, pushes that path into the entry of the
first `RuleName` frame shared with the previous chain — a node on the right
spine of the tree built so far — and re-establishes the invariant with one
more leaf. -/
theorem bt_inv_step {T : Type} (p : Parser) (rootf : GSSFrame)
    (hrr : isRuleFrame rootf = true)
    (a : Arena T) (root? : Option Nat) (d : DTree T) (prev m : GSSChain)
    (C aC b : Nat) (tok : T)
    (hinv : BTInv p rootf a root? d prev C)
    (hstep : StepOut p aC prev b m) (hCa : C ≤ aC) (haCb : aC ≤ b)
    (hhead : pointsAtTerminal m = true) :
    ∃ a2 d2, ascend a root? (.tok tok) m = .ok (a2, root?) ∧
      BTInv p rootf a2 root? d2 m b ∧
      DTree.leavesD d2 = DTree.leavesD d ++ [tok] := by
  obtain ⟨rnm, hrnm⟩ := isRuleFrame_true hrr
  rcases hstep with ⟨fresh, A, rfl, hAne, hAsuf, hbounds, hpair⟩ |
    ⟨k, g, hgl, rfl, hk1, hk2⟩
  · -- the step is a descent suffix of the previous chain
    have hanchA : A.getLast? = some rootf := by
      have hx := getLast?_of_suffix hAsuf hAne
      rw [hinv.anchored] at hx
      exact hx.symm
    have hrootA : rootf ∈ A := List.mem_of_mem_getLast? hanchA
    have hfilA : A.filter isRuleFrame ≠ [] := by
      intro hemp
      have hx : rootf ∈ A.filter isRuleFrame := List.mem_filter.mpr ⟨hrootA, hrr⟩
      rw [hemp] at hx
      simp at hx
    obtain ⟨preA, g, restA, hAeq, hpreA, hgrule, hfilEq⟩ :=
      filter_first_split isRuleFrame A hfilA
    obtain ⟨w, hw⟩ := ruleIds_suffix hAsuf
    have hspine : DTree.spineD d = (ruleIds A).reverse ++ w.reverse := by
      rw [hinv.spine_eq, ← hw, List.reverse_append]
    have hridA : ruleIds A = g.id :: (restA.filter isRuleFrame).map GSSFrame.id := by
      rw [ruleIds, hfilEq]
      rfl
    have hlenpos : 1 ≤ (ruleIds A).length := by
      rw [hridA]
      simp
    have hgetdepth : (DTree.spineD d)[(ruleIds A).length - 1]? = some g.id := by
      rw [hspine]
      rw [List.getElem?_append_left (by simp only [List.length_reverse]; omega)]
      rw [List.getElem?_reverse (by omega)]
      rw [Nat.sub_self]
      rw [hridA]
      simp
    have hgmem : g.id ∈ DTree.idsD d :=
      spineD_sub_idsD d g.id (List.getElem?_mem hgetdepth)
    have hglt : g.id < C := hinv.ids_lt g.id hgmem
    -- the main run, uniformly over the fresh descent part
    have hmain : ∃ mid aMid cMid,
        ascend a root? (.tok tok) (fresh ++ A) =
          .ok (arenaPush aMid g.id cMid, root?) ∧
        RepT aMid cMid (wrapPath (.leaf tok) mid) ∧
        RepT aMid (.ref 0) d ∧
        (∀ id, (arenaGet aMid id).isSome = true ↔
          (id ∈ DTree.idsD d ∨ id ∈ DTree.idsD (wrapPath (.leaf tok) mid))) ∧
        (∀ x ∈ ruleIds mid, aC ≤ x ∧ x < b) ∧
        (ruleIds mid).Nodup ∧
        ruleIds (fresh ++ A) = ruleIds mid ++ ruleIds A ∧
        DTree.namesD p (wrapPath (.leaf tok) mid) = true := by
      have hdomleaf : ∀ id, (arenaGet a id).isSome = true ↔
          (id ∈ DTree.idsD d ∨ id ∈ DTree.idsD (DTree.leaf tok : DTree T)) := by
        intro id
        rw [hinv.dom_iff]
        simp [DTree.idsD]
      cases fresh with
      | nil =>
          cases preA with
          | nil =>
              exfalso
              obtain ⟨gnm, hgnm⟩ := isRuleFrame_true hgrule
              obtain ⟨gid, gexpr, gpd⟩ := g
              simp only at hgnm
              subst hgnm
              rw [List.nil_append, hAeq] at hhead
              simp [pointsAtTerminal] at hhead
          | cons r0 preA2 =>
              have hpre2 : ∀ f ∈ preA2, isRuleFrame f = false :=
                fun f hf => hpreA f (List.mem_cons_of_mem _ hf)
              have hfilmid : preA2.filter isRuleFrame = [] :=
                List.filter_eq_nil_iff.mpr (fun f hf => by rw [hpre2 f hf]; simp)
              have hridmid : ruleIds preA2 = [] := by
                rw [ruleIds, hfilmid]
                rfl
              obtain ⟨aMid, cMid, hrun0, hW, h0, hdm⟩ :=
                ascend_fresh_break preA2 r0 g restA a root? (.tok tok) (.ref 0)
                  d (.leaf tok)
                  (by
                    intro f hf hr
                    rw [hpre2 f hf] at hr
                    exact absurd hr (by simp))
                  (by rw [hfilmid]; exact List.Pairwise.nil)
                  hgrule hgmem hinv.rep (by simp [RepT]) hdomleaf
              refine ⟨preA2, aMid, cMid, ?_, hW, h0, hdm, ?_, ?_, ?_, ?_⟩
              · rw [List.nil_append, hAeq]
                exact hrun0
              · intro x hx
                rw [hridmid] at hx
                simp at hx
              · rw [hridmid]
                exact List.nodup_nil
              · rw [List.nil_append, hridmid, List.nil_append]
              · rw [names_wrapPath]
                · rfl
                · intro f hf hr
                  rw [hpre2 f hf] at hr
                  exact absurd hr (by simp)
      | cons mh freshT =>
          obtain ⟨mhid, mhpat, mhpd, crest, hmh⟩ := pointsAtTerminal_shape hhead
          have hx : mh :: (freshT ++ A) = ⟨mhid, .Terminal mhpat, mhpd⟩ :: crest := hmh
          have hmh3 : mh = ⟨mhid, .Terminal mhpat, mhpd⟩ := by
            injection hx with h1 h2
          subst hmh3
          have hboundsT : ∀ f ∈ freshT, aC ≤ f.id ∧ f.id < b ∧ FrameNamesDef p f :=
            fun f hf => hbounds f (List.mem_cons_of_mem _ hf)
          have hfilpre : preA.filter isRuleFrame = [] :=
            List.filter_eq_nil_iff.mpr (fun f hf => by rw [hpreA f hf]; simp)
          have hfilmid : (freshT ++ preA).filter isRuleFrame =
              freshT.filter isRuleFrame := by
            rw [List.filter_append, hfilpre, List.append_nil]
          have hridmid : ruleIds (freshT ++ preA) =
              (freshT.filter isRuleFrame).map GSSFrame.id := by
            rw [ruleIds, hfilmid]
          have hp1 : List.Pairwise (fun f1 f2 => f2.id < f1.id) freshT :=
            (List.pairwise_cons.mp hpair).2
          have hp3 : List.Pairwise (fun f1 f2 => f1.id ≠ f2.id)
              (freshT.filter isRuleFrame) :=
            (hp1.sublist (List.filter_sublist _)).imp (fun hlt => by omega)
          obtain ⟨aMid, cMid, hrun0, hW, h0, hdm⟩ :=
            ascend_fresh_break (freshT ++ preA) ⟨mhid, .Terminal mhpat, mhpd⟩ g restA
              a root? (.tok tok) (.ref 0) d (.leaf tok)
              (by
                intro f hf hr
                rcases List.mem_append.mp hf with hf | hf
                · have hfb := hboundsT f hf
                  refine ⟨fun hmem => ?_, by simp [DTree.idsD]⟩
                  have := hinv.ids_lt f.id hmem
                  omega
                · rw [hpreA f hf] at hr
                  exact absurd hr (by simp))
              (by rw [hfilmid]; exact hp3)
              hgrule hgmem hinv.rep (by simp [RepT]) hdomleaf
          refine ⟨freshT ++ preA, aMid, cMid, ?_, hW, h0, hdm, ?_, ?_, ?_, ?_⟩
          · have hchain : (⟨mhid, .Terminal mhpat, mhpd⟩ :: freshT : GSSChain) ++ A =
                ⟨mhid, .Terminal mhpat, mhpd⟩ :: ((freshT ++ preA) ++ g :: restA) := by
              rw [hAeq]
              simp [List.append_assoc]
            rw [hchain]
            exact hrun0
          · intro x hx
            rw [hridmid] at hx
            simp only [List.mem_map] at hx
            obtain ⟨f, hf, rfl⟩ := hx
            have := hboundsT f (List.mem_of_mem_filter hf)
            exact ⟨this.1, this.2.1⟩
          · rw [hridmid]
            exact List.pairwise_map.mpr hp3
          · rw [ruleIds_append]
            have hmhr : ruleIds (⟨mhid, .Terminal mhpat, mhpd⟩ :: freshT) =
                ruleIds freshT := rfl
            rw [hmhr, hridmid, ruleIds]
          · rw [names_wrapPath]
            · rfl
            · intro f hf hr
              rcases List.mem_append.mp hf with hf | hf
              · exact (hboundsT f hf).2.2
              · rw [hpreA f hf] at hr
                exact absurd hr (by simp)
    -- assemble the new invariant
    obtain ⟨mid, aMid, cMid, hrun, hW, h0, hdm, hmidb, hmidnd, hrule, hnamesW⟩ := hmain
    have hidsW : DTree.idsD (wrapPath (.leaf tok) mid) = (ruleIds mid).reverse := by
      rw [ids_wrapPath]
      simp [DTree.idsD]
    have hgnotinW : g.id ∉ DTree.idsD (wrapPath (.leaf tok) mid) := by
      rw [hidsW, List.mem_reverse]
      intro hmem
      have := hmidb g.id hmem
      omega
    have hdepthlt : (ruleIds A).length - 1 < (DTree.spineD d).length := by
      rw [hspine]
      simp only [List.length_append, List.length_reverse]
      omega
    refine ⟨arenaPush aMid g.id cMid, pushD d ((ruleIds A).length - 1)
      (wrapPath (.leaf tok) mid), hrun, ?_, ?_⟩
    · refine ⟨?_, hinv.root_eq, ?_, ?_, ?_, ?_, ?_, ?_⟩
      · exact repT_pushD d aMid (.ref 0) _ g.id cMid _ h0 hgetdepth hinv.nodup hW hgnotinW
      · -- spine
        rw [spine_pushD d _ _ hdepthlt]
        rw [hspine, spine_wrapPath]
        have htake : ((ruleIds A).reverse ++ w.reverse).take ((ruleIds A).length - 1 + 1) =
            (ruleIds A).reverse :=
          List.take_left' (by simp only [List.length_reverse]; omega)
        rw [htake, hrule, List.reverse_append]
        simp [DTree.spineD]
      · -- nodup
        rw [ids_pushD d _ _ hdepthlt, hidsW]
        rw [List.nodup_append]
        refine ⟨hinv.nodup, List.nodup_reverse.mpr hmidnd, ?_⟩
        intro x hx
        rw [List.mem_reverse]
        intro hmem
        have h1 := hinv.ids_lt x hx
        have h2 := hmidb x hmem
        omega
      · -- ids below the new counter
        intro id hid
        rw [ids_pushD d _ _ hdepthlt] at hid
        rcases List.mem_append.mp hid with hid | hid
        · have := hinv.ids_lt id hid
          omega
        · rw [hidsW, List.mem_reverse] at hid
          have := hmidb id hid
          omega
      · -- arena domain
        intro id
        rw [arenaGet_push_isSome, hdm id, ids_pushD d _ _ hdepthlt, List.mem_append]
      · -- names
        rw [names_pushD p d _ _ hdepthlt, hinv.names, hnamesW]
        rfl
      · -- anchored
        rw [List.getLast?_append_of_ne_nil fresh hAne]
        exact hanchA
    · rw [leaves_pushD d _ _ hdepthlt, leaves_wrapPath]
      rfl
  · -- a Done accept chain is never terminal-headed
    exfalso
    have hg : g = rootf := by
      rw [hinv.anchored] at hgl
      exact (Option.some.inj hgl).symm
    rw [hg, hrnm] at hhead
    simp [pointsAtTerminal] at hhead

theorem btInv_weaken {T : Type} {p : Parser} {rootf : GSSFrame} {a : Arena T}
    {root? : Option Nat} {d : DTree T} {prev : GSSChain} {C C2 : Nat}
    (h : BTInv p rootf a root? d prev C) (hc : C ≤ C2) :
    BTInv p rootf a root? d prev C2 :=
  ⟨h.rep, h.root_eq, h.spine_eq, h.nodup,
   fun id hid => by have := h.ids_lt id hid; omega,
   h.dom_iff, h.names, h.anchored⟩

/-- The reconstruction loop of `backtrace_to_tree`, run over the middle chains
of a live trace zipped with the tokens, keeps the invariant and collects the
tokens as leaves, one per iteration, never touching `root` again. -/
theorem bt_loop_leaves {T : Type} (p : Parser) (rootf : GSSFrame)
    (hrr : isRuleFrame rootf = true) :
    ∀ (mids : List GSSChain) (toks : List T) (prev : GSSChain) (C C2 : Nat)
      (lastm : GSSChain) (a : Arena T) (root? : Option Nat) (d : DTree T)
      (a2 : Arena T) (root2 : Option Nat),
      StepChain p C prev mids C2 lastm →
      BTInv p rootf a root? d prev C →
      mids.length = toks.length →
      bt_loop (mids.zip toks) a root? = .ok (a2, root2) →
      ∃ d2, root2 = root? ∧ BTInv p rootf a2 root2 d2 lastm C2 ∧
        DTree.leavesD d2 = DTree.leavesD d ++ toks := by
  intro mids
  induction mids with
  | nil =>
      intro toks prev C C2 lastm a root? d a2 root2 hsc hinv hlen hbl
      have htoks : toks = [] := by
        cases toks with
        | nil => rfl
        | cons t ts => simp at hlen
      subst htoks
      simp only [List.zip_nil_left, bt_loop] at hbl
      injection hbl with h1
      injection h1 with ha hb
      subst ha; subst hb
      cases hsc with
      | nil C C2 prev hle =>
          exact ⟨d, rfl, btInv_weaken hinv hle, by simp⟩
  | cons m mids ih =>
      intro toks prev C C2 lastm a root? d a2 root2 hsc hinv hlen hbl
      cases toks with
      | nil => simp at hlen
      | cons tok toks =>
          cases hsc with
          | cons _ a0 b0 _ _ _ _ _ h1 h2 hstep htail =>
              have hlen2 : mids.length = toks.length := by simpa using hlen
              cases hm : m with
              | nil =>
                  rw [hm] at hbl
                  simp [bt_loop] at hbl
              | cons f mrest =>
                  obtain ⟨fid, fexpr, fpd⟩ := f
                  cases fexpr with
                  | Terminal pat =>
                      subst hm
                      have hhead : pointsAtTerminal
                          (⟨fid, .Terminal pat, fpd⟩ :: mrest) = true := rfl
                      simp only [bt_loop] at hbl
                      cases hasc : ascend a root? (.tok tok)
                          (⟨fid, .Terminal pat, fpd⟩ :: mrest) with
                      | ok v =>
                          obtain ⟨a1, root1⟩ := v
                          simp only [hasc] at hbl
                          obtain ⟨a2', d2', hrun, hinv', hleaves⟩ :=
                            bt_inv_step p rootf hrr a root? d prev
                              (⟨fid, .Terminal pat, fpd⟩ :: mrest) C a0 b0 tok
                              hinv hstep h1 h2 hhead
                          rw [hrun] at hasc
                          injection hasc with hasc1
                          injection hasc1 with hasc2 hasc3
                          rw [← hasc2, ← hasc3] at hbl
                          obtain ⟨d2, hroot2, hinv2, hleq⟩ :=
                            ih toks (⟨fid, .Terminal pat, fpd⟩ :: mrest) b0 C2
                              lastm a2' root? d2' a2 root2 htail hinv' hlen2 hbl
                          exact ⟨d2, hroot2, hinv2, by
                            rw [hleq, hleaves, List.append_assoc]
                            rfl⟩
                      | err e2 => simp only [hasc] at hbl; exact absurd hbl (by simp)
                      | fuelOut => simp only [hasc] at hbl; exact absurd hbl (by simp)
                  | RuleName nm => rw [hm] at hbl; simp [bt_loop] at hbl
                  | Concatenation cs => rw [hm] at hbl; simp [bt_loop] at hbl
                  | Alternatives cs => rw [hm] at hbl; simp [bt_loop] at hbl
                  | Optional c => rw [hm] at hbl; simp [bt_loop] at hbl
                  | Many c => rw [hm] at hbl; simp [bt_loop] at hbl
                  | OneOrMore c => rw [hm] at hbl; simp [bt_loop] at hbl

/-- The last chain of a link's `prev[0]`-walk is the link's own node. -/
theorem trace_getLast (l : GSSLink) :
    (GSSLink.trace l).getLast? = some (GSSLink.node l) := by
  cases l with
  | mk n prevs =>
      cases prevs with
      | nil => rfl
      | cons l2 rest =>
          show (GSSLink.trace l2 ++ [n]).getLast? = some n
          rw [List.getLast?_concat]

/-- On every successful GSS parse, the leaves of the returned tree are exactly
the input tokens and every rule node names a defined rule: the single `Done`
link's trace decomposes into engine steps, the reconstruction loop builds a
decorated tree collecting the consumed tokens as leaves, and the final
dereferencing pass reproduces that tree. -/
theorem gss_parse_leaves {T : Type} (p : Parser) (tm : String → T → Bool)
    (tokens : List T) (start_rule : String) (fuel : Nat) (τ : SyntaxTree T)
    (h : gss_parse_tokens p tm tokens start_rule fuel = .ok τ) :
    leaves τ = tokens ∧ namesOk p τ = true := by
  simp only [gss_parse_tokens] at h
  cases hres : resolve_to_terminals p fuel
      [⟨0, RuleExpression.RuleName start_rule, .NoData⟩] 1 with
  | ok v =>
      obtain ⟨nodes, ctr0⟩ := v
      simp only [hres] at h
      cases hloop : gss_loop p tm fuel tokens
          [nodes.map (fun n => GSSLink.mk n
            [GSSLink.mk [⟨0, RuleExpression.RuleName start_rule, .NoData⟩] []])] ctr0 with
      | ok v2 =>
          obtain ⟨gss, ctrF⟩ := v2
          simp only [hloop] at h
          cases hbt : get_backtrace gss with
          | ok backtrace =>
              simp only [hbt] at h
              have hrootnd : FrameNamesDef p (rootFrame start_rule) :=
                resolve_ok_head_namesDef hres
              obtain ⟨hm1, houts⟩ := (gss_step_shape p fuel).2.1 _ _ _ _ hres (by simp)
              have hseed : ∀ l ∈ nodes.map (fun n => GSSLink.mk n
                  [GSSLink.mk [⟨0, RuleExpression.RuleName start_rule, .NoData⟩] []]),
                  LinkOK p (rootFrame start_rule) ctr0 l := by
                intro l hl
                simp only [List.mem_map] at hl
                obtain ⟨out, hout, rfl⟩ := hl
                show TraceOK p (rootFrame start_rule) ctr0
                  (GSSLink.trace (GSSLink.mk out
                    [GSSLink.mk [⟨0, RuleExpression.RuleName start_rule, .NoData⟩] []])) out
                have htr : GSSLink.trace (GSSLink.mk out
                    [GSSLink.mk [⟨0, RuleExpression.RuleName start_rule, .NoData⟩] []]) =
                    [[rootFrame start_rule]] ++ [out] := rfl
                rw [htr]
                refine .step 1 1 ctr0 ctr0 [[rootFrame start_rule]]
                  [rootFrame start_rule] out
                  (.base 1 (by simp [rootFrame])) le_rfl hm1 le_rfl
                  (houts out hout) ?_ (by simp [pdataOf, rootFrame])
                exact (resolve_terminal_or_done p fuel).2.1 _ _ _ hres out hout
              obtain ⟨hc1, L, hLget, hLok⟩ := gss_loop_inv p tm fuel
                (rootFrame start_rule) tokens _ ctr0 gss ctrF hloop _ (by simp) hseed
              simp only [get_backtrace, hLget] at hbt
              cases hfil : L.filter isDoneLink with
              | nil => simp only [hfil] at hbt; exact absurd hbt (by simp)
              | cons l tl =>
                  cases tl with
                  | cons l2 tl2 => simp only [hfil] at hbt; exact absurd hbt (by simp)
                  | nil =>
                      simp only [hfil, backtrace_of] at hbt
                      by_cases hlen : (GSSLink.trace l).length < 2
                      · rw [if_pos hlen] at hbt; exact absurd hbt (by simp)
                      · rw [if_neg hlen] at hbt
                        injection hbt with hbt1
                        have hmemL : l ∈ L := List.mem_of_mem_filter
                          (by rw [hfil]; exact List.mem_cons_self _ _)
                        have hdone : isDoneLink l = true :=
                          (List.mem_filter.mp
                            (by rw [hfil]; exact List.mem_cons_self _ _)).2
                        obtain ⟨rest, htr, hsc⟩ := traceOK_stepChain (hLok l hmemL)
                        have hbt2 : backtrace = rest.dropLast := by
                          rw [← hbt1, htr]
                          simp
                        have hrne : rest ≠ [] := by
                          intro hre
                          rw [hre, List.append_nil] at htr
                          have hnl := trace_getLast l
                          rw [htr] at hnl
                          have hnode : GSSLink.node l = [rootFrame start_rule] := by
                            simpa using hnl.symm
                          simp [isDoneLink, hnode, pdataOf, rootFrame] at hdone
                        have hrs : rest.dropLast ++ [rest.getLast hrne] = rest :=
                          List.dropLast_append_getLast hrne
                        rw [← hrs] at hsc
                        obtain ⟨Cm, lm, sc1, _⟩ := stepChain_split _ _ hsc
                        simp only [backtrace_to_tree] at h
                        by_cases hlen2 : backtrace.length ≠ tokens.length
                        · rw [if_pos hlen2] at h; exact absurd h (by simp)
                        · rw [if_neg hlen2] at h
                          cases hbl : bt_loop (backtrace.zip tokens)
                              ([] : Arena T) none with
                          | ok v3 =>
                              obtain ⟨aF, rootF?⟩ := v3
                              simp only [hbl] at h
                              cases rootF? with
                              | none => exact absurd h (by simp)
                              | some rid =>
                                  cases hmids : rest.dropLast with
                                  | nil =>
                                      rw [hmids] at hbt2
                                      rw [hbt2] at hlen2 hbl
                                      have htok : tokens = [] := by
                                        cases tokens with
                                        | nil => rfl
                                        | cons t ts => simp at hlen2
                                      subst htok
                                      simp only [List.zip_nil_left, bt_loop] at hbl
                                      injection hbl with hbl1
                                      injection hbl1 with hbla hblb
                                      exact absurd hblb (by simp)
                                  | cons m1 mids2 =>
                                      rw [hmids] at hbt2 sc1
                                      cases tokens with
                                      | nil =>
                                          rw [hbt2] at hlen2
                                          simp at hlen2
                                      | cons t1 toks2 =>
                                          have hlen3 : mids2.length = toks2.length := by
                                            rw [hbt2] at hlen2
                                            simpa using hlen2
                                          rw [hbt2] at hbl
                                          cases sc1 with
                                          | cons _ aA bA _ _ _ _ _ h1A h2A hstep1 htail1 =>
                                              cases hm1s : m1 with
                                              | nil =>
                                                  rw [hm1s] at hbl
                                                  simp [bt_loop] at hbl
                                              | cons f1 m1rest =>
                                                  obtain ⟨f1id, f1expr, f1pd⟩ := f1
                                                  cases f1expr with
                                                  | Terminal pat =>
                                                      subst hm1s
                                                      have hhead1 : pointsAtTerminal
                                                          (⟨f1id, .Terminal pat, f1pd⟩ ::
                                                            m1rest) = true := rfl
                                                      simp only [List.zip_cons_cons,
                                                        bt_loop] at hbl
                                                      cases hasc : ascend ([] : Arena T)
                                                          none (.tok t1)
                                                          (⟨f1id, .Terminal pat, f1pd⟩ ::
                                                            m1rest) with
                                                      | ok v4 =>
                                                          obtain ⟨a1, root1⟩ := v4
                                                          simp only [hasc] at hbl
                                                          obtain ⟨a1', d1, hrun1, hinv1,
                                                            hlv1⟩ :=
                                                            bt_inv_first p
                                                              (rootFrame start_rule) rfl rfl
                                                              hrootnd aA bA _ t1 hstep1
                                                              h1A h2A hhead1
                                                          rw [hrun1] at hasc
                                                          injection hasc with hasc1
                                                          injection hasc1 with hasc2 hasc3
                                                          rw [← hasc2, ← hasc3] at hbl
                                                          obtain ⟨dF, hr2, hinvF, hlvF⟩ :=
                                                            bt_loop_leaves p
                                                              (rootFrame start_rule) rfl
                                                              mids2 toks2 _ bA Cm lm a1'
                                                              (some 0) d1 aF (some rid)
                                                              htail1 hinv1 hlen3 hbl
                                                          have hrid : rid = 0 := by
                                                            injection hr2 with hx
                                                          subst hrid
                                                          obtain ⟨hlf, hnf⟩ :=
                                                            i2f_rep p dF fuel aF (.ref 0)
                                                              τ hinvF.rep h
                                                          constructor
                                                          · rw [hlf, hlvF, hlv1]
                                                            rfl
                                                          · exact hnf hinvF.names
                                                      | err e2 =>
                                                          simp only [hasc] at hbl
                                                          exact absurd hbl (by simp)
                                                      | fuelOut =>
                                                          simp only [hasc] at hbl
                                                          exact absurd hbl (by simp)
                                                  | RuleName nm =>
                                                      rw [hm1s] at hbl
                                                      simp [bt_loop] at hbl
                                                  | Concatenation cs =>
                                                      rw [hm1s] at hbl
                                                      simp [bt_loop] at hbl
                                                  | Alternatives cs =>
                                                      rw [hm1s] at hbl
                                                      simp [bt_loop] at hbl
                                                  | Optional c =>
                                                      rw [hm1s] at hbl
                                                      simp [bt_loop] at hbl
                                                  | Many c =>
                                                      rw [hm1s] at hbl
                                                      simp [bt_loop] at hbl
                                                  | OneOrMore c =>
                                                      rw [hm1s] at hbl
                                                      simp [bt_loop] at hbl
                          | err e2 => simp only [hbl] at h; exact absurd h (by simp)
                          | fuelOut => simp only [hbl] at h; exact absurd h (by simp)
          | err e2 => simp only [hbt] at h; exact absurd h (by simp)
          | fuelOut => simp only [hbt] at h; exact absurd h (by simp)
      | err e2 => simp only [hloop] at h; exact absurd h (by simp)
      | fuelOut => simp only [hloop] at h; exact absurd h (by simp)
  | err e2 => simp only [hres] at h; exact absurd h (by simp)
  | fuelOut => simp only [hres] at h; exact absurd h (by simp)

end GSS

/-! ## Claim C10: the root of a successful parse is named after the start rule -/

/-- C10: on every successful parse by either engine, the root of the returned
`SyntaxTree` is a `RuleNode` whose `rule_name` equals the requested start rule
(both engines internally synthesize the start expression as
`RuleName(start_rule)` and wrap the result in that rule's node). -/
theorem claim_c10_root_named_start {T : Type} (tmatches : String → T → Bool) (p : Parser)
    (tokens : List T) (start_rule : String) (fuel : Nat) :
    (∀ τ, Backtracking.backtracking_parse tmatches p tokens start_rule fuel = .ok τ →
      ∃ subs, τ = SyntaxTree.RuleNode start_rule subs) ∧
    (∀ τ, GSS.gss_parse_tokens p tmatches tokens start_rule fuel = .ok τ →
      ∃ subs, τ = SyntaxTree.RuleNode start_rule subs) :=
  ⟨fun τ h =>
      (Backtracking.backtracking_parse_ok tmatches p tokens start_rule fuel τ h).2.2,
   fun τ h => GSS.gss_parse_root p tmatches tokens start_rule fuel τ h⟩

/-- Witness for C10: both engines on grammar `S : "a" ;` and input `["a"]`. -/
theorem claim_c10_witness :
    (∃ subs, (SyntaxTree.RuleNode "S" [SyntaxTree.TokenNode "a"] : SyntaxTree String) =
      SyntaxTree.RuleNode "S" subs) ∧
    (∃ subs, (SyntaxTree.RuleNode "S" [SyntaxTree.TokenNode "a"] : SyntaxTree String) =
      SyntaxTree.RuleNode "S" subs) :=
  ⟨(claim_c10_root_named_start strMatches ⟨[("S", .Terminal "a")]⟩ ["a"] "S" 20).1
      (SyntaxTree.RuleNode "S" [SyntaxTree.TokenNode "a"]) rfl,
   (claim_c10_root_named_start strMatches ⟨[("S", .Terminal "a")]⟩ ["a"] "S" 20).2
      (SyntaxTree.RuleNode "S" [SyntaxTree.TokenNode "a"]) rfl⟩

/-! ## Claim C1: leaves of a successful parse are the input tokens -/

/-- C1: for every parser, token sequence, and start rule, if parsing succeeds
(under the backtracking engine or the GSS engine) with tree `τ`, then the
leaves of `τ` read left-to-right equal the input token sequence, and every
internal node's rule name is a rule defined in the parser's rule map. -/
theorem claim_c1_leaves_and_names {T : Type} (tmatches : String → T → Bool) (p : Parser)
    (tokens : List T) (start_rule : String) (fuel : Nat) :
    (∀ τ, Backtracking.backtracking_parse tmatches p tokens start_rule fuel = .ok τ →
      leaves τ = tokens ∧ namesOk p τ = true) ∧
    (∀ τ, GSS.gss_parse_tokens p tmatches tokens start_rule fuel = .ok τ →
      leaves τ = tokens ∧ namesOk p τ = true) :=
  ⟨fun τ h =>
      ⟨(Backtracking.backtracking_parse_ok tmatches p tokens start_rule fuel τ h).1,
       (Backtracking.backtracking_parse_ok tmatches p tokens start_rule fuel τ h).2.1⟩,
   fun τ h => GSS.gss_parse_leaves p tmatches tokens start_rule fuel τ h⟩

/-- Witness for C1: both engines on grammar `S : "a" ;` and input `["a"]`
produce `RuleNode "S" [TokenNode "a"]`, whose single leaf is the input token
and whose rule name is defined. -/
theorem claim_c1_witness :
    (leaves (SyntaxTree.RuleNode "S" [SyntaxTree.TokenNode "a"]) = ["a"] ∧
      namesOk ⟨[("S", .Terminal "a")]⟩
        (SyntaxTree.RuleNode "S" [SyntaxTree.TokenNode "a"]) = true) ∧
    (leaves (SyntaxTree.RuleNode "S" [SyntaxTree.TokenNode "a"]) = ["a"] ∧
      namesOk ⟨[("S", .Terminal "a")]⟩
        (SyntaxTree.RuleNode "S" [SyntaxTree.TokenNode "a"]) = true) :=
  ⟨(claim_c1_leaves_and_names strMatches ⟨[("S", .Terminal "a")]⟩ ["a"] "S" 20).1
      (SyntaxTree.RuleNode "S" [SyntaxTree.TokenNode "a"]) rfl,
   (claim_c1_leaves_and_names strMatches ⟨[("S", .Terminal "a")]⟩ ["a"] "S" 20).2
      (SyntaxTree.RuleNode "S" [SyntaxTree.TokenNode "a"]) rfl⟩

/-! ## Claims C7 and C2: the engines disagree on an empty accepted input -/

/-- C7 at the failing input: on the unambiguous grammar `S : "a"* ;` with the
empty token sequence, the backtracking engine succeeds with the leafless
`RuleNode "S"`, but the GSS engine — whose backtrace-based reconstruction drops
every rule that consumed no token, the root included — errors out with
"No root found at end of parsing" instead of succeeding. -/
theorem claim_c7_empty_input_divergence :
    Backtracking.backtracking_parse strMatches ⟨[("S", .Many (.Terminal "a"))]⟩
        ([] : List String) "S" 10 = .ok (.RuleNode "S" []) ∧
    leaves (SyntaxTree.RuleNode "S" ([] : List (SyntaxTree String))) = [] ∧
    GSS.gss_parse_tokens ⟨[("S", .Many (.Terminal "a"))]⟩ strMatches
        ([] : List String) "S" 10 =
      .err (.Message "No root found at end of parsing") :=
  ⟨rfl, rfl, rfl⟩

/-- C2 at the failing input: on the unambiguous triple
(`S : "a"* ;`, `S`, empty input) the backtracking engine succeeds while the GSS
engine does not — the engines do not agree. -/
theorem claim_c2_engine_disagreement :
    (∃ τ, Backtracking.backtracking_parse strMatches ⟨[("S", .Many (.Terminal "a"))]⟩
        ([] : List String) "S" 10 = .ok τ) ∧
    (∀ τ, GSS.gss_parse_tokens ⟨[("S", .Many (.Terminal "a"))]⟩ strMatches
        ([] : List String) "S" 10 ≠ .ok τ) := by
  constructor
  · exact ⟨.RuleNode "S" [], rfl⟩
  · intro τ h
    have heval : GSS.gss_parse_tokens ⟨[("S", .Many (.Terminal "a"))]⟩ strMatches
        ([] : List String) "S" 10 =
      .err (.Message "No root found at end of parsing") := rfl
    rw [heval] at h
    exact PResult.noConfusion h

end Parsley
